import Mathlib

/-!
Verification development for the graph pattern-matching library.

We give a shallow embedding of the library's core:
* the abstract graph contract instantiated at a concrete finite graph
  representation `FGraph` (src/graph/mod.rs),
* the `incoming_nodes` / `outgoing_nodes` helpers (src/graph/mod.rs,
  lines 134-150) exactly as written, including the fact that
  `incoming_nodes` maps an incoming edge to `adjacent_nodes(e).1`,
  i.e. the edge target,
* the filter-map view (src/filter_map.rs),
* the VF2-style matcher `VfState` (src/pattern_matching/vf_algorithms.rs).

Rust `HashMap`s / `HashSet`s / `BiHashMap`s are modelled as association
lists.  Where the code only tests membership or looks keys up, list order
is irrelevant; where the code iterates over the keys of a hash map to
produce the order of the candidate nodes, the embedding takes an explicit
iteration-order parameter `ord` (the real iteration order of `std`
hash maps is randomly seeded).  Panics (`HashMap` indexing with a missing
key, `Option::unwrap` on `None`, failed `assert!`) are modelled by
`Option`: `none` is a panic.
-/

/-! ### Association-list helpers (models of the hash containers) -/

/-- First-match association lookup (model of `HashMap::get` /
`BiHashMap::get_by_left`). -/
def alookup : List (Nat × Nat) → Nat → Option Nat
  | [], _ => none
  | p :: l, k => if p.1 = k then some p.2 else alookup l k

/-- Lookup by right component (model of `BiHashMap::get_by_right`). -/
def alookupR : List (Nat × Nat) → Nat → Option Nat
  | [], _ => none
  | p :: l, k => if p.2 = k then some p.1 else alookupR l k

/-- Key membership (model of `contains_key` / `contains_left`). -/
def containsL (l : List (Nat × Nat)) (k : Nat) : Bool :=
  l.any (fun p => p.1 = k)

/-- Value membership (model of `BiHashMap::contains_right`). -/
def containsR (l : List (Nat × Nat)) (k : Nat) : Bool :=
  l.any (fun p => p.2 = k)

/-- The keys of an association list. -/
def lefts (l : List (Nat × Nat)) : List Nat := l.map (fun p => p.1)

/-- The values of an association list. -/
def rights (l : List (Nat × Nat)) : List Nat := l.map (fun p => p.2)

/-- Model of `map.entry(k).or_insert(d)`: insert only when the key is
absent. -/
def orInsert (l : List (Nat × Nat)) (k d : Nat) : List (Nat × Nat) :=
  if containsL l k then l else l ++ [(k, d)]

/-- `or_insert` over a list of keys, in order. -/
def orInsertMany (l : List (Nat × Nat)) (ks : List Nat) (d : Nat) : List (Nat × Nat) :=
  ks.foldl (fun acc k => orInsert acc k d) l

/-- Model of `VfState::remove` (vf_algorithms.rs lines 330-339): drop the
entry of `k` exactly when its recorded insertion depth equals `d`. -/
def removeDepth (l : List (Nat × Nat)) (k d : Nat) : List (Nat × Nat) :=
  match alookup l k with
  | some d2 => if d2 = d then l.filter (fun p => p.1 ≠ k) else l
  | none => l

/-- `remove` over a list of keys, in order. -/
def removeMany (l : List (Nat × Nat)) (ks : List Nat) (d : Nat) : List (Nat × Nat) :=
  ks.foldl (fun acc k => removeDepth acc k d) l

/-- Lookup in a hash map built by `collect()` from a pair iterator:
for duplicate keys the later insertion wins, so the lookup takes the
last matching entry. -/
def hmLookup (l : List (Nat × Nat)) (k : Nat) : Option Nat :=
  (l.reverse.find? (fun p => p.1 = k)).map (fun p => p.2)

/-- Model of `HashMap::insert` (overwrite). -/
def owInsert (l : List (Nat × Nat)) (k v : Nat) : List (Nat × Nat) :=
  l.filter (fun p => p.1 ≠ k) ++ [(k, v)]

/-- Collect a pair iterator into a hash map, later insertions winning. -/
def hmCollect (ps : List (Nat × Nat)) : List (Nat × Nat) :=
  ps.foldl (fun acc p => owInsert acc p.1 p.2) []

/-! ### The graph contract instantiated at a finite concrete graph

`FGraph` is a graph backend satisfying the contract of
src/graph/mod.rs: node references are the `Nat`s in `nodes`, edge
references the first components of the triples in `edges`, and each
edge triple is `(reference, source, target)`.  Weight lookup is total
on valid references, as the contract requires. -/

structure FGraph (NW EW : Type) where
  nodes : List Nat
  edges : List (Nat × Nat × Nat)
  nodeW : Nat → NW
  edgeW : Nat → EW
  directed : Bool

variable {NW EW NW2 EW2 : Type}

/-- `Graph::count_nodes`. -/
def FGraph.countNodes (g : FGraph NW EW) : Nat := g.nodes.length

/-- `Graph::count_edges`. -/
def FGraph.countEdges (g : FGraph NW EW) : Nat := g.edges.length

/-- `Graph::is_empty_graph` (src/graph/mod.rs lines 116-118). -/
def FGraph.isEmptyGraph (g : FGraph NW EW) : Bool := g.countNodes = 0

/-- The edge references of the graph, in enumeration order. -/
def FGraph.edgeRefs (g : FGraph NW EW) : List Nat := g.edges.map (fun t => t.1)

/-- `Graph::adjacent_nodes`: the `(source, target)` pair of an edge. -/
def FGraph.adjacentNodes (g : FGraph NW EW) (e : Nat) : Nat × Nat :=
  match g.edges.find? (fun t => t.1 = e) with
  | some t => (t.2.1, t.2.2)
  | none => (0, 0)

/-- `Graph::outgoing_edges`: edges whose source is `n`, in enumeration
order. -/
def FGraph.outgoingEdges (g : FGraph NW EW) (n : Nat) : List Nat :=
  (g.edges.filter (fun t => t.2.1 = n)).map (fun t => t.1)

/-- `Graph::incoming_edges`: edges whose target is `n`. -/
def FGraph.incomingEdges (g : FGraph NW EW) (n : Nat) : List Nat :=
  (g.edges.filter (fun t => t.2.2 = n)).map (fun t => t.1)

/-- `Graph::adjacent_edges`: edges incident to `n`. -/
def FGraph.adjacentEdges (g : FGraph NW EW) (n : Nat) : List Nat :=
  (g.edges.filter (fun t => t.2.1 = n || t.2.2 = n)).map (fun t => t.1)

/-- Well-formedness of a graph backend (the contract's reference-validity
invariant): distinct node references, distinct edge references, and the
endpoints of every edge are nodes of the graph. -/
def wfG (g : FGraph NW EW) : Prop :=
  g.nodes.Nodup ∧ (g.edges.map (fun t => t.1)).Nodup ∧
    ∀ t ∈ g.edges, t.2.1 ∈ g.nodes ∧ t.2.2 ∈ g.nodes

/-- The free helper `incoming_nodes` of src/graph/mod.rs (lines 134-139),
exactly as written there: it maps each incoming edge `e` of `n` to
`adjacent_nodes(e).1` - the second component, i.e. the edge target. -/
def incomingNodesCode (g : FGraph NW EW) (n : Nat) : List Nat :=
  (g.incomingEdges n).map (fun e => (g.adjacentNodes e).2)

/-- The free helper `outgoing_nodes` of src/graph/mod.rs (lines 145-150):
each outgoing edge `e` of `n` is mapped to `adjacent_nodes(e).1`, the
edge target. -/
def outgoingNodesCode (g : FGraph NW EW) (n : Nat) : List Nat :=
  (g.outgoingEdges n).map (fun e => (g.adjacentNodes e).2)

/-! ### Pattern graphs (src/pattern_matching/pattern.rs) -/

/-- `PatternElement`: a matcher predicate together with the `ignore`
flag. -/
structure PatternElem (W : Type) where
  pred : W → Bool
  ignore : Bool

/-- `PatternElement::should_appear`. -/
def PatternElem.shouldAppear (p : PatternElem W) : Bool := !p.ignore

/-- `PatternElement::may_match`. -/
def PatternElem.mayMatch (p : PatternElem W) (w : W) : Bool := p.pred w

/-- A pattern graph is a graph whose weights are pattern elements. -/
abbrev PGraph (NW EW : Type) := FGraph (PatternElem NW) (PatternElem EW)

/-- Builder invariant of `PatternGraph::add_edge`: a visible edge never
has a hidden endpoint. -/
def patternValid (P : PGraph NW EW) : Prop :=
  ∀ t ∈ P.edges, (P.edgeW t.1).shouldAppear = true →
    (P.nodeW t.2.1).shouldAppear = true ∧ (P.nodeW t.2.2).shouldAppear = true

/-! ### The matcher state (src/pattern_matching/vf_algorithms.rs) -/

/-- The mutable search state of `VfState`: the partial correspondence
`core` and the four depth-recording auxiliary maps. -/
structure VfSt where
  core : List (Nat × Nat)
  out1 : List (Nat × Nat)
  out2 : List (Nat × Nat)
  in1 : List (Nat × Nat)
  in2 : List (Nat × Nat)
deriving DecidableEq, Repr

/-- The initial (empty) search state built by `VfState::init`. -/
def initSt : VfSt := ⟨[], [], [], [], []⟩

/-- A matched graph as produced by `produce_graph`: the visible node
bindings and visible edge bindings.  A binding `(n, m)` records that the
weight stored for pattern element `n` is a borrow of base element `m`'s
weight (distinct base elements own distinct weights, so the base
reference faithfully stands for the borrowed-reference identity). -/
structure MatchRes where
  nodeB : List (Nat × Nat)
  edgeB : List (Nat × Nat)
deriving DecidableEq, Repr

/-- `VfState::give_node_order` (lines 91-101). -/
def giveNodeOrder (P : PGraph NW EW) (n1 n2 : Nat) : Ordering :=
  let a1 := (P.nodeW n1).shouldAppear
  let a2 := (P.nodeW n2).shouldAppear
  if a1 && !a2 then Ordering.lt
  else if !a1 && a2 then Ordering.gt
  else compare n1 n2

/-- `Iterator::min_by`: the first element that is minimal under the
comparator. -/
def minByOrd (cmp : Nat → Nat → Ordering) (l : List Nat) : Option Nat :=
  l.foldl
    (fun acc x =>
      match acc with
      | none => some x
      | some y => if cmp x y = Ordering.lt then some x else some y)
    none

/-- `VfState::find_unmatched_unconnected_nodes` (lines 109-123). -/
def findUnmatchedUnconnected (P : PGraph NW EW) (B : FGraph NW EW) (st : VfSt) :
    Option Nat × List Nat :=
  (minByOrd (giveNodeOrder P) (P.nodes.filter (fun n => !(containsL st.core n))),
   B.nodes.filter (fun n => !(containsR st.core n)))

/-- `VfState::find_unmatched_neighbors` (lines 134-155).  `ord` stands
for the iteration order of the base-side hash map's key set. -/
def findUnmatchedNeighbors (P : PGraph NW EW) (st : VfSt)
    (patMap baseMap : List (Nat × Nat)) (findIgnored : Bool)
    (ord : List Nat → List Nat) : Option Nat × List Nat :=
  let n0 := minByOrd (giveNodeOrder P)
    ((lefts patMap).filter (fun k => !(containsL st.core k)))
  let n := match n0 with
    | some k => if findIgnored || (P.nodeW k).shouldAppear then some k else none
    | none => none
  (n, ord ((lefts baseMap).filter (fun k => !(containsR st.core k))))

/-- `VfState::assign` (lines 159-183). -/
def assign (P : PGraph NW EW) (B : FGraph NW EW) (st : VfSt) (n m depth : Nat) : VfSt :=
  { core := st.core.filter (fun p => p.1 ≠ n && p.2 ≠ m) ++ [(n, m)]
    out1 := orInsertMany (orInsert st.out1 n depth) (outgoingNodesCode P n) depth
    out2 := orInsertMany (orInsert st.out2 m depth) (outgoingNodesCode B m) depth
    in1 := orInsertMany (orInsert st.in1 n depth) (incomingNodesCode P n) depth
    in2 := orInsertMany (orInsert st.in2 m depth) (incomingNodesCode B m) depth }

/-- `VfState::unassign` (lines 305-326). -/
def unassign (P : PGraph NW EW) (B : FGraph NW EW) (st : VfSt) (n m depth : Nat) : VfSt :=
  { core := st.core.filter (fun p => p.1 ≠ n)
    out1 := removeMany (removeDepth st.out1 n depth) (outgoingNodesCode P n) depth
    out2 := removeMany (removeDepth st.out2 m depth) (outgoingNodesCode B m) depth
    in1 := removeMany (removeDepth st.in1 n depth) (incomingNodesCode P n) depth
    in2 := removeMany (removeDepth st.in2 m depth) (incomingNodesCode B m) depth }

/-- `VfState::check_node_semantics` (lines 248-252). -/
def checkNodeSemantics (P : PGraph NW EW) (B : FGraph NW EW) (n m : Nat) : Bool :=
  (P.nodeW n).mayMatch (B.nodeW m)

/-- `VfState::check_predecessor_relation` (lines 205-222), built on the
`incoming_nodes` helper as the source is. -/
def checkPredecessorRelation (P : PGraph NW EW) (B : FGraph NW EW) (st : VfSt)
    (n m : Nat) : Bool :=
  let nPreds := (incomingNodesCode P n).filter (fun k => containsL st.core k)
  let mPreds := (incomingNodesCode B m).filter (fun k => containsR st.core k)
  nPreds.all (fun n2 =>
    match alookup st.core n2 with
    | some m2 => mPreds.contains m2
    | none => false)

/-- `VfState::check_successor_relation` (lines 227-243). -/
def checkSuccessorRelation (P : PGraph NW EW) (B : FGraph NW EW) (st : VfSt)
    (n m : Nat) : Bool :=
  let nSuccs := (outgoingNodesCode P n).filter (fun k => containsL st.core k)
  let mSuccs := (outgoingNodesCode B m).filter (fun k => containsR st.core k)
  nSuccs.all (fun n2 =>
    match alookup st.core n2 with
    | some m2 => mSuccs.contains m2
    | none => false)

/-- The lazy `.all` over the chained edge pairs of
`check_edge_semantics`: each element first looks up the matched partner
(`unwrap`), then indexes the base-side hash map - both may panic - and
only then tests the predicate, short-circuiting on `false`. -/
def chainCheck (P : PGraph NW EW) (B : FGraph NW EW) (core : List (Nat × Nat))
    (mmap : List (Nat × Nat)) : List (Nat × Nat) → Option Bool
  | [] => some true
  | (w, e) :: rest =>
    match alookup core w with
    | none => none
    | some mw =>
      match hmLookup mmap mw with
      | none => none
      | some e2 =>
        if (P.edgeW e).mayMatch (B.edgeW e2) then chainCheck P B core mmap rest
        else some false

/-- `VfState::check_edge_semantics` (lines 256-302).  The result is
`none` when the Rust code panics (missing key in `m_preds_matched` /
`m_succs_matched`, or `unwrap` of an unmatched partner). -/
def checkEdgeSemantics (P : PGraph NW EW) (B : FGraph NW EW) (st : VfSt)
    (n m : Nat) : Option Bool :=
  let nSuccsMatched :=
    ((P.outgoingEdges n).map (fun e => ((P.adjacentNodes e).2, e))).filter
      (fun p => containsL st.core p.1)
  let mSuccsMatched :=
    ((B.outgoingEdges m).map (fun e2 => ((B.adjacentNodes e2).2, e2))).filter
      (fun p => containsR st.core p.1)
  let nPredsMatched :=
    ((P.incomingEdges n).map (fun e => ((P.adjacentNodes e).1, e))).filter
      (fun p => containsL st.core p.1)
  let mPredsMatched :=
    ((B.incomingEdges m).map (fun e2 => ((B.adjacentNodes e2).1, e2))).filter
      (fun p => containsR st.core p.1)
  match chainCheck P B st.core mPredsMatched nPredsMatched with
  | none => none
  | some false => some false
  | some true => chainCheck P B st.core mSuccsMatched nSuccsMatched

/-- `VfState::is_valid_matching` (lines 195-200), with the
short-circuiting of `&&`. -/
def isValidMatching (P : PGraph NW EW) (B : FGraph NW EW) (st : VfSt)
    (n m : Nat) : Option Bool :=
  if !(checkNodeSemantics P B n m) then some false
  else if !(checkPredecessorRelation P B st n m) then some false
  else if !(checkSuccessorRelation P B st n m) then some false
  else checkEdgeSemantics P B st n m

/-- The per-pair edge-binding loop of `produce_graph`: the visible
outgoing pattern edges of `n`, each bound through `m_succs` keyed by the
image of its target.  `none` models the panics of the `unwrap` and of
the hash-map indexing. -/
def bindEdgeList (P : PGraph NW EW) (B : FGraph NW EW) (core : List (Nat × Nat))
    (mSuccs : List (Nat × Nat)) : List (Nat × Nat) → Option (List (Nat × Nat))
  | [] => some []
  | (w, e) :: rest =>
    match alookup core w with
    | none => none
    | some mw =>
      match hmLookup mSuccs mw with
      | none => none
      | some e2 =>
        match bindEdgeList P B core mSuccs rest with
        | none => none
        | some l => some ((e, e2) :: l)

/-- The visible outgoing pattern edges of `n` with their targets, as
iterated by `produce_graph`. -/
def nSuccsVisible (P : PGraph NW EW) (n : Nat) : List (Nat × Nat) :=
  ((P.outgoingEdges n).filter (fun e => (P.edgeW e).shouldAppear)).map
    (fun e => ((P.adjacentNodes e).2, e))

/-- The successor map of base node `m` used by `produce_graph`, keyed by
edge target. -/
def mSuccsAll (B : FGraph NW EW) (m : Nat) : List (Nat × Nat) :=
  (B.outgoingEdges m).map (fun e2 => ((B.adjacentNodes e2).2, e2))

/-- The edge-binding loop of `produce_graph` over the core pairs. -/
def produceEdges (P : PGraph NW EW) (B : FGraph NW EW) (core : List (Nat × Nat)) :
    List (Nat × Nat) → Option (List (Nat × Nat))
  | [] => some []
  | (n, m) :: rest =>
    match bindEdgeList P B core (mSuccsAll B m) (nSuccsVisible P n) with
    | none => none
    | some bs =>
      match produceEdges P B core rest with
      | none => none
      | some l => some (bs ++ l)

/-- `VfState::produce_graph` (lines 346-381) followed by the eager
endpoint-closure `assert!` of `FilterMap::new` (filter_map.rs lines
66-82); the asserted graph structure is the pattern graph. -/
def produceGraph (P : PGraph NW EW) (B : FGraph NW EW) (core : List (Nat × Nat)) :
    Option MatchRes :=
  let nodeList := hmCollect
    ((core.filter (fun p => (P.nodeW p.1).shouldAppear)).map (fun p => (p.1, p.2)))
  match produceEdges P B core core with
  | none => none
  | some el =>
    let edgeList := hmCollect el
    if edgeList.all (fun p =>
        containsL nodeList (P.adjacentNodes p.1).1 &&
        containsL nodeList (P.adjacentNodes p.1).2) then
      some ⟨nodeList, edgeList⟩
    else none

/-- `nodes_to_take` as computed by `VfState::init` (lines 441-445). -/
def nodesToTake (P : PGraph NW EW) : Nat :=
  (P.nodes.filter (fun n => (P.nodeW n).shouldAppear)).length

/-- The three-tier candidate selection of `find_subgraphs`
(lines 393-405). -/
def selectCandidates (P : PGraph NW EW) (B : FGraph NW EW) (st : VfSt)
    (findIgnored : Bool) (ord : List Nat → List Nat) : Option Nat × List Nat :=
  let t1 := findUnmatchedNeighbors P st st.out1 st.out2 findIgnored ord
  if t1.1.isNone || t1.2.isEmpty then
    let t2 := findUnmatchedNeighbors P st st.in1 st.in2 findIgnored ord
    if t2.1.isNone || t2.2.isEmpty then findUnmatchedUnconnected P B st
    else t2
  else t1

/-- The candidate loop of `find_subgraphs` (lines 409-423).  `recur` is
the recursive call at depth `depth + 1`.  The returned triple is the
state after the loop, the emitted results in emission order, and the
node number returned to the caller. -/
def fsLoop (P : PGraph NW EW) (B : FGraph NW EW)
    (recur : VfSt → Option (VfSt × List MatchRes × Nat)) (ntt depth n : Nat) :
    List Nat → VfSt → Option (VfSt × List MatchRes × Nat)
  | [], st => some (st, [], depth)
  | m :: ms, st =>
    let st1 := assign P B st n m depth
    match isValidMatching P B st1 n m with
    | none => none
    | some false => fsLoop P B recur ntt depth n ms (unassign P B st1 n m depth)
    | some true =>
      match recur st1 with
      | none => none
      | some (st2, rs, next) =>
        if next = ntt ∧ next ≤ depth then
          some (unassign P B st2 n m depth, rs, next)
        else
          match fsLoop P B recur ntt depth n ms (unassign P B st2 n m depth) with
          | none => none
          | some (st3, rs2, r) => some (st3, rs ++ rs2, r)

/-- `VfState::find_subgraphs` (lines 387-426), by fuel recursion; the
depth of the search never exceeds the pattern's node count, so any fuel
of at least `count_nodes + 1 - depth` is sufficient (`none` at fuel 0 is
unreachable from `runQuery`, which is proved where needed). -/
def findSubgraphs (P : PGraph NW EW) (B : FGraph NW EW) (ord : List Nat → List Nat)
    (ntt : Nat) : Nat → Nat → VfSt → Option (VfSt × List MatchRes × Nat)
  | 0, _, _ => none
  | fuel + 1, depth, st =>
    if depth = P.countNodes then
      match produceGraph P B st.core with
      | none => none
      | some r => some (st, [r], ntt)
    else
      match selectCandidates P B st (decide (ntt ≤ depth)) ord with
      | (none, _) => none
      | (some n, baseNodes) =>
        fsLoop P B (findSubgraphs P B ord ntt fuel (depth + 1)) ntt depth n
          baseNodes st

/-- `VfState::run_query` (lines 462-471) followed by the result move of
`eval` (lines 485-503): the early size checks, then the search from the
empty state. -/
def runQuery (ord : List Nat → List Nat) (P : PGraph NW EW) (B : FGraph NW EW) :
    Option (List MatchRes) :=
  if P.isEmptyGraph || decide (B.countNodes < P.countNodes) ||
      decide (B.countEdges < P.countEdges) then
    some []
  else
    match findSubgraphs P B ord (nodesToTake P) (P.countNodes + 1) 0 initSt with
    | none => none
    | some (_, rs, _) => some rs

/-- `VfState::eval` with an explicit iteration-order parameter for the
internal hash maps. -/
def evalVf (ord : List Nat → List Nat) (P : PGraph NW EW) (B : FGraph NW EW) :
    Option (List MatchRes) :=
  runQuery ord P B

/-! ### The filter-map view (src/filter_map.rs) -/

/-- First-match lookup in a map with generic values (model of the
`HashMap` index). -/
def flookup {α : Type} : List (Nat × α) → Nat → Option α
  | [], _ => none
  | p :: l, k => if p.1 = k then some p.2 else flookup l k

/-- Key membership for generic association lists. -/
def fmContainsKey {α : Type} (l : List (Nat × α)) (k : Nat) : Bool :=
  l.any (fun p => p.1 = k)

/-- `FilterMap`: a borrowed view over a base graph, given by a node map
and an edge map. -/
structure FilterMapG (NW EW NW2 EW2 : Type) where
  base : FGraph NW EW
  nodeMap : List (Nat × NW2)
  edgeMap : List (Nat × EW2)

/-- `FilterMap::general_filter_map` (filter_map.rs lines 98-141). -/
def generalFilterMap (g : FGraph NW EW) (fn : FGraph NW EW → Nat → Option NW2)
    (fe : FGraph NW EW → Nat → Option EW2) : FilterMapG NW EW NW2 EW2 :=
  let nodeMap := g.nodes.filterMap (fun n => (fn g n).map (fun w => (n, w)))
  let edgeMap :=
    ((g.edgeRefs).filter (fun e =>
        fmContainsKey nodeMap (g.adjacentNodes e).1 &&
        fmContainsKey nodeMap (g.adjacentNodes e).2)).filterMap
      (fun e => (fe g e).map (fun w => (e, w)))
  ⟨g, nodeMap, edgeMap⟩

/-- `FilterMap::weight_filter_map` (lines 146-162). -/
def weightFilterMap (g : FGraph NW EW) (fn : NW → Option NW2) (fe : EW → Option EW2) :
    FilterMapG NW EW NW2 EW2 :=
  generalFilterMap g (fun g2 n => fn (g2.nodeW n)) (fun g2 e => fe (g2.edgeW e))

/-- `FilterMap::weight_map` (lines 166-182): both callbacks wrap their
results in `some`, so no element is dropped. -/
def weightMap (g : FGraph NW EW) (fn : NW → NW2) (fe : EW → EW2) :
    FilterMapG NW EW NW2 EW2 :=
  generalFilterMap g (fun g2 n => some (fn (g2.nodeW n)))
    (fun g2 e => some (fe (g2.edgeW e)))

/-- `Graph::count_nodes` on a filter-map (lines 367-369). -/
def FilterMapG.countNodes (F : FilterMapG NW EW NW2 EW2) : Nat := F.nodeMap.length

/-- `Graph::count_edges` on a filter-map (lines 363-365). -/
def FilterMapG.countEdges (F : FilterMapG NW EW NW2 EW2) : Nat := F.edgeMap.length

/-- `Graph::nodes` on a filter-map: the key set of the node map. -/
def FilterMapG.fmNodes (F : FilterMapG NW EW NW2 EW2) : List Nat :=
  F.nodeMap.map (fun p => p.1)

/-- `Graph::edges` on a filter-map: the key set of the edge map. -/
def FilterMapG.fmEdges (F : FilterMapG NW EW NW2 EW2) : List Nat :=
  F.edgeMap.map (fun p => p.1)

/-- `Graph::is_directed` on a filter-map: forwards to the base graph. -/
def FilterMapG.isDirected (F : FilterMapG NW EW NW2 EW2) : Bool := F.base.directed

/-- `Graph::node_weight` on a filter-map (lines 319-322): assert
membership, then index the node map.  `none` is the assertion panic. -/
def FilterMapG.nodeWeight (F : FilterMapG NW EW NW2 EW2) (n : Nat) : Option NW2 :=
  if fmContainsKey F.nodeMap n then flookup F.nodeMap n else none

/-- `Graph::edge_weight` on a filter-map (lines 324-327). -/
def FilterMapG.edgeWeight (F : FilterMapG NW EW NW2 EW2) (e : Nat) : Option EW2 :=
  if fmContainsKey F.edgeMap e then flookup F.edgeMap e else none

/-- `Graph::adjacent_edges` on a filter-map (lines 284-289): assert the
node is present, then filter the base graph's adjacency by edge-map
membership. -/
def FilterMapG.adjacentEdges (F : FilterMapG NW EW NW2 EW2) (n : Nat) :
    Option (List Nat) :=
  if fmContainsKey F.nodeMap n then
    some ((F.base.adjacentEdges n).filter (fun e => fmContainsKey F.edgeMap e))
  else none

/-- `Graph::incoming_edges` on a filter-map (lines 293-298). -/
def FilterMapG.incomingEdges (F : FilterMapG NW EW NW2 EW2) (n : Nat) :
    Option (List Nat) :=
  if fmContainsKey F.nodeMap n then
    some ((F.base.incomingEdges n).filter (fun e => fmContainsKey F.edgeMap e))
  else none

/-- `Graph::outgoing_edges` on a filter-map (lines 302-307). -/
def FilterMapG.outgoingEdges (F : FilterMapG NW EW NW2 EW2) (n : Nat) :
    Option (List Nat) :=
  if fmContainsKey F.nodeMap n then
    some ((F.base.outgoingEdges n).filter (fun e => fmContainsKey F.edgeMap e))
  else none

/-- `Graph::adjacent_nodes` on a filter-map (lines 309-317): asserts
the edge and both endpoints are present, then forwards. -/
def FilterMapG.adjacentNodesF (F : FilterMapG NW EW NW2 EW2) (e : Nat) :
    Option (Nat × Nat) :=
  if fmContainsKey F.edgeMap e then
    let sd := F.base.adjacentNodes e
    if fmContainsKey F.nodeMap sd.1 && fmContainsKey F.nodeMap sd.2 then some sd
    else none
  else none

/-! ### Feasible correspondences

The representative base edge the matcher associates with an endpoint
pair, and the notion of a complete feasible correspondence as the
search's own checks enforce it. -/

/-- The representative base edge for the ordered endpoint pair
`(s, d)`: the edge chosen by the hash-map collect of
`check_edge_semantics` and `produce_graph` (the last outgoing edge of
`s` with target `d` in enumeration order). -/
def repEdge (B : FGraph NW EW) (s d : Nat) : Option Nat :=
  hmLookup (mSuccsAll B s) d

/-- A complete feasible correspondence: a total injective assignment of
pattern nodes to base nodes under which every node predicate holds and
every pattern edge has its representative base edge between the images
satisfying the edge predicate. -/
def FeasibleCorr (P : PGraph NW EW) (B : FGraph NW EW) (μ : List (Nat × Nat)) : Prop :=
  (lefts μ).Perm P.nodes ∧ (rights μ).Nodup ∧
    (∀ p ∈ μ, p.2 ∈ B.nodes ∧ (P.nodeW p.1).mayMatch (B.nodeW p.2) = true) ∧
    (∀ t ∈ P.edges, ∀ mu mv, alookup μ t.2.1 = some mu → alookup μ t.2.2 = some mv →
      ∃ f, repEdge B mu mv = some f ∧ (P.edgeW t.1).mayMatch (B.edgeW f) = true)

/-! ### Search-state invariants

These definitions name the state the depth-first search maintains; the
theorems below prove they are preserved and derive the result
properties from them. -/

/-- The keys recorded in `out_1`: matched pattern nodes and the nodes
reached from them by `outgoing_nodes`. -/
def outKeySpec (P : PGraph NW EW) (core : List (Nat × Nat)) (k : Nat) : Prop :=
  k ∈ lefts core ∨ ∃ u ∈ lefts core, k ∈ outgoingNodesCode P u

/-- The keys recorded in `in_1`: matched pattern nodes and the nodes
reached from them by `incoming_nodes`. -/
def inKeySpec (P : PGraph NW EW) (core : List (Nat × Nat)) (k : Nat) : Prop :=
  k ∈ lefts core ∨ ∃ u ∈ lefts core, k ∈ incomingNodesCode P u

/-- The keys recorded in `out_2`. -/
def outKeySpecB (B : FGraph NW EW) (core : List (Nat × Nat)) (k : Nat) : Prop :=
  k ∈ rights core ∨ ∃ u ∈ rights core, k ∈ outgoingNodesCode B u

/-- The keys recorded in `in_2`. -/
def inKeySpecB (B : FGraph NW EW) (core : List (Nat × Nat)) (k : Nat) : Prop :=
  k ∈ rights core ∨ ∃ u ∈ rights core, k ∈ incomingNodesCode B u

/-- Well-formedness of one auxiliary depth map at recursion depth
`depth`: distinct keys, and every recorded insertion depth is below the
current depth. -/
def auxOk (depth : Nat) (l : List (Nat × Nat)) : Prop :=
  (lefts l).Nodup ∧ ∀ p ∈ l, p.2 < depth

/-- The per-pair facts the search has established for `core`: both
projections are duplicate-free, and every pair joins a pattern node to
a base node whose weight its predicate accepts. -/
def coreNodesOk (P : PGraph NW EW) (B : FGraph NW EW) (core : List (Nat × Nat)) : Prop :=
  (lefts core).Nodup ∧ (rights core).Nodup ∧
    ∀ p ∈ core, p.1 ∈ P.nodes ∧ p.2 ∈ B.nodes ∧
      (P.nodeW p.1).mayMatch (B.nodeW p.2) = true

/-- The edge facts the search has established for `core`: every pattern
edge whose endpoints are both matched has its representative base edge
between the images, satisfying the edge predicate. -/
def coreEdgesOk (P : PGraph NW EW) (B : FGraph NW EW) (core : List (Nat × Nat)) : Prop :=
  ∀ t ∈ P.edges, ∀ mu mv, alookup core t.2.1 = some mu → alookup core t.2.2 = some mv →
    ∃ f, repEdge B mu mv = some f ∧ (P.edgeW t.1).mayMatch (B.edgeW f) = true

/-- The full state invariant of `find_subgraphs` at depth `depth`. -/
def SInv (P : PGraph NW EW) (B : FGraph NW EW) (depth : Nat) (st : VfSt) : Prop :=
  st.core.length = depth ∧ coreNodesOk P B st.core ∧ coreEdgesOk P B st.core ∧
    auxOk depth st.out1 ∧ auxOk depth st.out2 ∧ auxOk depth st.in1 ∧
    auxOk depth st.in2 ∧
    (∀ k, containsL st.out1 k = true ↔ outKeySpec P st.core k) ∧
    (∀ k, containsL st.out2 k = true ↔ outKeySpecB B st.core k) ∧
    (∀ k, containsL st.in1 k = true ↔ inKeySpec P st.core k) ∧
    (∀ k, containsL st.in2 k = true ↔ inKeySpecB B st.core k)

/-- `core` extends to a complete feasible correspondence. -/
def FeasibleExt (P : PGraph NW EW) (B : FGraph NW EW) (core : List (Nat × Nat)) : Prop :=
  ∃ ext, FeasibleCorr P B (core ++ ext)

/-- Everything `find_subgraphs` guarantees about a successful call at
depth `depth` from state `st`: the state is restored; every emitted
result is produced from a complete feasible correspondence extending
`st.core`; the emitted visible bindings are pairwise distinct; at
hidden depths at most one result is emitted; the returned node number
is the current depth when nothing was emitted and `nodes_to_take` when
something was emitted at a hidden depth; and if a complete feasible
correspondence extending `st.core` exists then something is emitted. -/
def FsConcl (P : PGraph NW EW) (B : FGraph NW EW) (ntt depth : Nat) (st : VfSt)
    (out : VfSt × List MatchRes × Nat) : Prop :=
  out.1 = st ∧
    (∀ R ∈ out.2.1, ∃ ext, FeasibleCorr P B (st.core ++ ext) ∧
      produceGraph P B (st.core ++ ext) = some R) ∧
    out.2.1.Pairwise (fun R1 R2 => R1.nodeB ≠ R2.nodeB) ∧
    (ntt ≤ depth → out.2.1.length ≤ 1) ∧
    (out.2.1 = [] → out.2.2 = depth) ∧
    (out.2.1 ≠ [] → ntt ≤ depth → out.2.2 = ntt) ∧
    (FeasibleExt P B st.core → out.2.1 ≠ [])

/-- The visibility discipline of the search: while `depth` has not
reached `nodes_to_take`, only visible pattern nodes have been matched;
from `nodes_to_take` on, every visible pattern node is matched. -/
def VisInv (P : PGraph NW EW) (depth : Nat) (core : List (Nat × Nat)) : Prop :=
  (depth ≤ nodesToTake P → ∀ p ∈ core, (P.nodeW p.1).shouldAppear = true) ∧
  (nodesToTake P ≤ depth → ∀ x ∈ P.nodes, (P.nodeW x).shouldAppear = true →
    x ∈ lefts core)

/-- The keys freshly inserted by a sequence of `or_insert`s: those list
elements not already seen, first occurrences only. -/
def fresh : List Nat → List Nat → List Nat
  | _, [] => []
  | seen, k :: ks => if k ∈ seen then fresh seen ks else k :: fresh (k :: seen) ks

/-! ### Concrete graphs used by the code-bug and counterexample claims -/

/-- A visible pattern node accepting every weight. -/
def vNode : PatternElem Nat := ⟨fun _ => true, false⟩

/-- A hidden pattern node accepting every weight. -/
def hNode : PatternElem Nat := ⟨fun _ => true, true⟩

/-- A visible pattern edge accepting every weight. -/
def vEdge : PatternElem Nat := ⟨fun _ => true, false⟩

/-- A hidden pattern edge accepting every weight. -/
def hEdge : PatternElem Nat := ⟨fun _ => true, true⟩

/-- Pattern with visible nodes 0, 1, 2 and visible edges 0→1, 0→2
(all predicates true). -/
def P2 : PGraph Nat Nat :=
  ⟨[0, 1, 2], [(0, 0, 1), (1, 0, 2)], fun _ => vNode, fun _ => vEdge, true⟩

/-- Base graph with nodes 0, 1, 2 and edges 0→1, 1→2. -/
def B2 : FGraph Nat Nat :=
  ⟨[0, 1, 2], [(0, 0, 1), (1, 1, 2)], fun _ => 0, fun _ => 0, true⟩

/-- The search state reached after assigning 0↦0 at depth 0, 1↦1 at
depth 1 and 2↦2 at depth 2 (the state in which the feasibility test for
the pair (2, 2) runs). -/
def st2 : VfSt :=
  assign P2 B2 (assign P2 B2 (assign P2 B2 initSt 0 0 0) 1 1 1) 2 2 2

/-- Directed pattern with one visible node and no edges. -/
def P5 : PGraph Nat Nat := ⟨[0], [], fun _ => vNode, fun _ => vEdge, true⟩

/-- Undirected base graph with one node and no edges. -/
def B5 : FGraph Nat Nat := ⟨[0], [], fun _ => 7, fun _ => 0, false⟩

/-- Pattern with two visible nodes and one visible edge 0→1. -/
def P7 : PGraph Nat Nat :=
  ⟨[0, 1], [(0, 0, 1)], fun _ => vNode, fun _ => vEdge, true⟩

/-- The complete directed graph on three nodes. -/
def B7 : FGraph Nat Nat :=
  ⟨[0, 1, 2],
   [(0, 0, 1), (1, 0, 2), (2, 1, 0), (3, 1, 2), (4, 2, 0), (5, 2, 1)],
   fun _ => 0, fun _ => 0, true⟩

/-- Pattern with a single hidden node carrying two hidden self-loop
edges (all predicates true). -/
def P10 : PGraph Nat Nat :=
  ⟨[0], [(0, 0, 0), (1, 0, 0)], fun _ => hNode, fun _ => hEdge, true⟩

/-- Base graph with a single node and one self-loop. -/
def B10 : FGraph Nat Nat :=
  ⟨[0], [(0, 0, 0)], fun _ => 0, fun _ => 0, true⟩

/-- All-hidden pattern with a single node and no edges. -/
def P11 : PGraph Nat Nat := ⟨[0], [], fun _ => hNode, fun _ => hEdge, true⟩

/-- Base graph with two isolated nodes. -/
def B11 : FGraph Nat Nat := ⟨[0, 1], [], fun _ => 0, fun _ => 0, true⟩

/-! ### Code-bug and counterexample theorems on the concrete instances -/

/-- C2: the claim states that `check_predecessor_relation(n, m)` returns
`false` whenever some matched pattern-predecessor of `n` is mapped to a
base node that is not a predecessor of `m`.  In the reachable state
`st2` (pattern nodes 0, 1, 2 matched to base nodes 0, 1, 2), pattern
node 0 is a predecessor of pattern node 2 via the pattern edge with
reference 1, node 0 is matched with μ(0) = 0, and base node 0 is not a
predecessor of base node 2 (the only predecessor of base node 2 is base
node 1) - yet the check returns `true`.  The cause is that the
`incoming_nodes` helper of src/graph/mod.rs maps each incoming edge to
its target instead of its source, contradicting its own documentation
("access the predecessor nodes"). -/
theorem C2_check_predecessor_code_bug :
    checkPredecessorRelation P2 B2 st2 2 2 = true ∧
    st2.core = [(0, 0), (1, 1), (2, 2)] ∧
    (1, 0, 2) ∈ P2.edges ∧
    ((B2.incomingEdges 2).map (fun e => (B2.adjacentNodes e).1)).contains 0 = false ∧
    incomingNodesCode B2 2 = [2] := by
  decide

/-- C6: the claim states that `eval` never panics on a well-formed
pattern and a well-formed base graph of equal directedness.  On the
pattern `P2` (visible nodes 0, 1, 2; visible edges 0→1, 0→2; all
predicates true) and the base graph `B2` (edges 0→1 and 1→2), both
well-formed and directed, the search reaches the candidate pair
(pattern 2, base 2) after matching 0↦0 and 1↦1; the broken predecessor
check accepts the pair, and `check_edge_semantics` then indexes
`m_preds_matched` with μ(0) = 0, a key that is absent because base node
0 is not a predecessor of base node 2 - a panic, modelled as `none`. -/
theorem C6_eval_panics_on_wellformed_input :
    wfG P2 ∧ patternValid P2 ∧ wfG B2 ∧ P2.directed = B2.directed ∧
    evalVf id P2 B2 = none := by
  refine ⟨⟨by decide, by decide, by decide⟩, by unfold patternValid; decide,
    ⟨by decide, by decide, by decide⟩, rfl, by decide⟩

/-- C5: the claim states that `eval` with a directed pattern and an
undirected base graph panics.  The implementation contains no
directedness check at all: on the directed one-node pattern `P5` and
the undirected one-node base `B5` it runs the search normally and
returns a one-element result list. -/
theorem C5_no_directedness_check :
    P5.directed = true ∧ B5.directed = false ∧
    evalVf id P5 B5 = some [⟨[(0, 0)], []⟩] := by
  decide

/-- C7, counterexample: the result lists of two runs of `eval` differ
when the iteration order of the internal hash maps differs, which it
does across runs because `std` hash maps are randomly seeded.  On the
one-edge pattern `P7` over the complete directed triangle `B7`, the
identity iteration order and the reversed iteration order (both
permutations of the key sets, hence both realizable hash iteration
orders) produce the six results in different orders. -/
theorem C7_counterexample : evalVf id P7 B7 ≠ evalVf List.reverse P7 B7 := by
  decide

/-- C10, counterexample: the claim states that for an all-hidden
nonempty pattern, `eval` returns exactly one result if and only if a
complete feasible correspondence exists.  The pattern `P10` (one hidden
node, two hidden parallel self-loops) has the feasible correspondence
0 ↦ 0 into the base `B10` (one node, one self-loop), yet `eval` returns
the empty list because the early size check rejects any pattern with
more edges than the base graph before searching. -/
theorem C10_counterexample :
    FeasibleCorr P10 B10 [(0, 0)] ∧ evalVf id P10 B10 = some [] := by
  constructor
  · refine ⟨by decide, by decide, by decide, ?_⟩
    intro t ht mu mv h1 h2
    have he : t = (0, 0, 0) ∨ t = (1, 0, 0) := by
      simpa [P10] using ht
    rcases he with h | h <;> subst h <;>
      simp only [alookup, if_pos rfl] at h1 h2 <;>
      cases h1 <;> cases h2 <;>
      exact ⟨0, by decide, by decide⟩
  · decide

/-! ### Association-list lemmas -/

theorem lefts_cons {p : Nat × Nat} {l : List (Nat × Nat)} :
    lefts (p :: l) = p.1 :: lefts l := rfl

theorem rights_cons {p : Nat × Nat} {l : List (Nat × Nat)} :
    rights (p :: l) = p.2 :: rights l := rfl

theorem lefts_append {l1 l2 : List (Nat × Nat)} :
    lefts (l1 ++ l2) = lefts l1 ++ lefts l2 := by
  simp [lefts]

theorem rights_append {l1 l2 : List (Nat × Nat)} :
    rights (l1 ++ l2) = rights l1 ++ rights l2 := by
  simp [rights]

theorem mem_lefts_of_mem {l : List (Nat × Nat)} {p : Nat × Nat} (h : p ∈ l) :
    p.1 ∈ lefts l := List.mem_map.2 ⟨p, h, rfl⟩

theorem mem_rights_of_mem {l : List (Nat × Nat)} {p : Nat × Nat} (h : p ∈ l) :
    p.2 ∈ rights l := List.mem_map.2 ⟨p, h, rfl⟩

theorem containsL_iff {l : List (Nat × Nat)} {k : Nat} :
    containsL l k = true ↔ k ∈ lefts l := by
  induction l with
  | nil => simp [containsL, lefts]
  | cons p l ih =>
    simp only [containsL, List.any_cons, Bool.or_eq_true, decide_eq_true_eq] at *
    rw [lefts_cons, List.mem_cons]
    constructor
    · rintro (h | h)
      · exact Or.inl h.symm
      · exact Or.inr (ih.1 h)
    · rintro (h | h)
      · exact Or.inl h.symm
      · exact Or.inr (ih.2 h)

theorem containsR_iff {l : List (Nat × Nat)} {k : Nat} :
    containsR l k = true ↔ k ∈ rights l := by
  induction l with
  | nil => simp [containsR, rights]
  | cons p l ih =>
    simp only [containsR, List.any_cons, Bool.or_eq_true, decide_eq_true_eq] at *
    rw [rights_cons, List.mem_cons]
    constructor
    · rintro (h | h)
      · exact Or.inl h.symm
      · exact Or.inr (ih.1 h)
    · rintro (h | h)
      · exact Or.inl h.symm
      · exact Or.inr (ih.2 h)

theorem alookup_eq_none {l : List (Nat × Nat)} {k : Nat} (h : k ∉ lefts l) :
    alookup l k = none := by
  induction l with
  | nil => rfl
  | cons p l ih =>
    rw [lefts_cons, List.mem_cons] at h
    push_neg at h
    rw [alookup, if_neg (fun hh => h.1 hh.symm)]
    exact ih h.2

theorem alookup_isSome {l : List (Nat × Nat)} {k : Nat} (h : k ∈ lefts l) :
    ∃ v, alookup l k = some v := by
  induction l with
  | nil => simp [lefts] at h
  | cons p l ih =>
    by_cases hk : p.1 = k
    · exact ⟨p.2, by rw [alookup, if_pos hk]⟩
    · rw [lefts_cons, List.mem_cons] at h
      rcases h with h | h
      · exact absurd h.symm hk
      · obtain ⟨v, hv⟩ := ih h
        exact ⟨v, by rw [alookup, if_neg hk]; exact hv⟩

theorem alookup_mem {l : List (Nat × Nat)} {k v : Nat} (h : alookup l k = some v) :
    (k, v) ∈ l := by
  induction l with
  | nil => simp [alookup] at h
  | cons p l ih =>
    by_cases hk : p.1 = k
    · rw [alookup, if_pos hk] at h
      cases h
      exact List.mem_cons.2 (Or.inl (by cases p; cases hk; rfl))
    · rw [alookup, if_neg hk] at h
      exact List.mem_cons_of_mem _ (ih h)

theorem alookup_of_mem {l : List (Nat × Nat)} {k v : Nat}
    (hnd : (lefts l).Nodup) (h : (k, v) ∈ l) : alookup l k = some v := by
  induction l with
  | nil => simp at h
  | cons p l ih =>
    rw [lefts_cons, List.nodup_cons] at hnd
    rcases List.mem_cons.1 h with h | h
    · subst h; rw [alookup, if_pos rfl]
    · have hk : p.1 ≠ k := by
        intro hh
        exact hnd.1 (hh ▸ mem_lefts_of_mem h)
      rw [alookup, if_neg hk]
      exact ih hnd.2 h

theorem alookup_append_left {l1 l2 : List (Nat × Nat)} {k : Nat}
    (h : k ∈ lefts l1) : alookup (l1 ++ l2) k = alookup l1 k := by
  induction l1 with
  | nil => simp [lefts] at h
  | cons p l ih =>
    by_cases hk : p.1 = k
    · rw [List.cons_append, alookup, if_pos hk, alookup, if_pos hk]
    · rw [lefts_cons, List.mem_cons] at h
      rcases h with h | h
      · exact absurd h.symm hk
      · rw [List.cons_append, alookup, if_neg hk, alookup, if_neg hk]
        exact ih h

theorem alookup_append_right {l1 l2 : List (Nat × Nat)} {k : Nat}
    (h : k ∉ lefts l1) : alookup (l1 ++ l2) k = alookup l2 k := by
  induction l1 with
  | nil => rfl
  | cons p l ih =>
    rw [lefts_cons, List.mem_cons] at h
    push_neg at h
    rw [List.cons_append, alookup, if_neg (fun hh => h.1 hh.symm)]
    exact ih h.2

/-! ### The first-wins insertion / depth-guarded removal round trip -/

theorem orInsertMany_cons {l : List (Nat × Nat)} {k d : Nat} {ks : List Nat} :
    orInsertMany l (k :: ks) d = orInsertMany (orInsert l k d) ks d := rfl

theorem removeMany_cons {l : List (Nat × Nat)} {k d : Nat} {ks : List Nat} :
    removeMany l (k :: ks) d = removeMany (removeDepth l k d) ks d := rfl

theorem removeDepth_of_ne {l : List (Nat × Nat)} {k d v : Nat}
    (hv : alookup l k = some v) (hne : v ≠ d) : removeDepth l k d = l := by
  unfold removeDepth
  rw [hv]
  exact if_neg hne

theorem removeDepth_of_none {l : List (Nat × Nat)} {k d : Nat}
    (h : alookup l k = none) : removeDepth l k d = l := by
  unfold removeDepth
  rw [h]

theorem removeDepth_of_eq {l : List (Nat × Nat)} {k d : Nat}
    (h : alookup l k = some d) :
    removeDepth l k d = l.filter (fun p => p.1 ≠ k) := by
  unfold removeDepth
  rw [h]
  exact if_pos rfl

theorem fresh_congr {s1 s2 : List Nat} {ks : List Nat}
    (h : ∀ x, x ∈ s1 ↔ x ∈ s2) : fresh s1 ks = fresh s2 ks := by
  induction ks generalizing s1 s2 with
  | nil => rfl
  | cons k ks ih =>
    by_cases hk : k ∈ s1
    · rw [fresh, if_pos hk, fresh, if_pos ((h k).1 hk)]
      exact ih h
    · rw [fresh, if_neg hk, fresh, if_neg (fun hh => hk ((h k).2 hh))]
      refine congrArg _ (ih ?_)
      intro x
      simp only [List.mem_cons]
      exact or_congr Iff.rfl (h x)

theorem fresh_mem {seen ks : List Nat} {x : Nat} (h : x ∈ fresh seen ks) :
    x ∉ seen ∧ x ∈ ks := by
  induction ks generalizing seen with
  | nil => simp [fresh] at h
  | cons k ks ih =>
    by_cases hk : k ∈ seen
    · rw [fresh, if_pos hk] at h
      exact ⟨(ih h).1, List.mem_cons_of_mem _ (ih h).2⟩
    · rw [fresh, if_neg hk] at h
      rcases List.mem_cons.1 h with h | h
      · subst h; exact ⟨hk, List.mem_cons_self _ _⟩
      · have h2 := ih h
        rw [List.mem_cons] at h2
        push_neg at h2
        exact ⟨h2.1.2, List.mem_cons_of_mem _ h2.2⟩

theorem fresh_nodup {seen ks : List Nat} : (fresh seen ks).Nodup := by
  induction ks generalizing seen with
  | nil => exact List.nodup_nil
  | cons k ks ih =>
    by_cases hk : k ∈ seen
    · rw [fresh, if_pos hk]; exact ih
    · rw [fresh, if_neg hk]
      refine List.nodup_cons.2 ⟨fun hh => ?_, ih⟩
      exact (fresh_mem hh).1 (List.mem_cons_self _ _)

theorem orInsertMany_eq {l : List (Nat × Nat)} {ks : List Nat} {d : Nat} :
    orInsertMany l ks d = l ++ (fresh (lefts l) ks).map (fun k => (k, d)) := by
  induction ks generalizing l with
  | nil => simp [orInsertMany, fresh]
  | cons k ks ih =>
    rw [orInsertMany_cons]
    by_cases hk : containsL l k
    · rw [orInsert, if_pos hk, ih, fresh, if_pos (containsL_iff.1 hk)]
    · rw [orInsert, if_neg hk, ih, fresh,
        if_neg (fun hh => hk (containsL_iff.2 hh))]
      rw [List.append_assoc]
      refine congrArg _ ?_
      have he : fresh (lefts (l ++ [(k, d)])) ks = fresh (k :: lefts l) ks := by
        refine fresh_congr ?_
        intro x
        rw [lefts_append]
        simp [lefts, List.mem_append, List.mem_cons, or_comm]
      rw [he]
      simp

theorem removeMany_restore {l : List (Nat × Nat)} {d : Nat} {ks : List Nat} :
    ∀ {seen : List Nat}, (∀ p ∈ l, p.2 ≠ d) → (∀ x ∈ lefts l, x ∈ seen) →
    removeMany (l ++ (fresh seen ks).map (fun k => (k, d))) ks d = l := by
  induction ks with
  | nil => intro seen _ _; simp [removeMany, fresh]
  | cons k ks ih =>
    intro seen hl hseen
    rw [removeMany_cons]
    by_cases hk : k ∈ seen
    · rw [fresh, if_pos hk]
      have hstep : removeDepth (l ++ (fresh seen ks).map (fun k => (k, d))) k d
          = l ++ (fresh seen ks).map (fun k => (k, d)) := by
        by_cases hkl : k ∈ lefts l
        · obtain ⟨v, hv⟩ := alookup_isSome (l := l) hkl
          exact removeDepth_of_ne
            (by rw [alookup_append_left hkl]; exact hv)
            (hl _ (alookup_mem hv))
        · refine removeDepth_of_none ?_
          rw [alookup_append_right hkl]
          refine alookup_eq_none ?_
          intro hmem
          rw [lefts, List.map_map, List.mem_map] at hmem
          obtain ⟨x, hx, hxe⟩ := hmem
          have hxk : x = k := hxe
          exact (fresh_mem hx).1 (hxk ▸ hk)
      rw [hstep]
      exact ih hl hseen
    · rw [fresh, if_neg hk]
      have hkl : k ∉ lefts l := fun hh => hk (hseen _ hh)
      rw [List.map_cons]
      have hstep : removeDepth
          (l ++ ((k, d) :: (fresh (k :: seen) ks).map (fun k => (k, d)))) k d
          = l ++ (fresh (k :: seen) ks).map (fun k => (k, d)) := by
        have hfind : alookup
            (l ++ ((k, d) :: (fresh (k :: seen) ks).map (fun k => (k, d)))) k
            = some d := by
          rw [alookup_append_right hkl, alookup, if_pos rfl]
        rw [removeDepth_of_eq hfind, List.filter_append]
        have h1 : l.filter (fun p => p.1 ≠ k) = l := by
          rw [List.filter_eq_self]
          intro p hp
          simp only [ne_eq, decide_not, Bool.not_eq_true', decide_eq_false_iff_not]
          intro hh
          exact hkl (hh ▸ mem_lefts_of_mem hp)
        have h2 : (((k, d) : Nat × Nat) ::
            (fresh (k :: seen) ks).map (fun k => (k, d))).filter
            (fun p => p.1 ≠ k) = (fresh (k :: seen) ks).map (fun k => (k, d)) := by
          rw [List.filter_cons]
          rw [if_neg (by simp)]
          rw [List.filter_eq_self]
          intro p hp
          rw [List.mem_map] at hp
          obtain ⟨x, hx, rfl⟩ := hp
          have h3 := (fresh_mem hx).1
          rw [List.mem_cons] at h3
          push_neg at h3
          simpa using h3.1
        rw [h1, h2]
      rw [hstep]
      exact ih hl (fun x hx => List.mem_cons_of_mem _ (hseen x hx))

theorem roundtrip_aux {l : List (Nat × Nat)} {ks : List Nat} {d : Nat}
    (hl : ∀ p ∈ l, p.2 ≠ d) :
    removeMany (orInsertMany l ks d) ks d = l := by
  rw [orInsertMany_eq]
  exact removeMany_restore hl (fun x hx => hx)

/-- The assign/unassign round trip: the first-wins insertion discipline
records depth `d` precisely on the entries `assign` added, and the
depth-guarded removal deletes exactly those. -/
theorem assign_unassign_restore (P : PGraph NW EW) (B : FGraph NW EW) (st : VfSt)
    (n m d : Nat)
    (hn : containsL st.core n = false) (hm : containsR st.core m = false)
    (h1 : ∀ p ∈ st.out1, p.2 ≠ d) (h2 : ∀ p ∈ st.out2, p.2 ≠ d)
    (h3 : ∀ p ∈ st.in1, p.2 ≠ d) (h4 : ∀ p ∈ st.in2, p.2 ≠ d) :
    unassign P B (assign P B st n m d) n m d = st := by
  have hnl : n ∉ lefts st.core := fun hh =>
    by rw [containsL_iff.2 hh] at hn; exact Bool.noConfusion hn
  have hmr : m ∉ rights st.core := fun hh =>
    by rw [containsR_iff.2 hh] at hm; exact Bool.noConfusion hm
  have hcore : st.core.filter (fun p => p.1 ≠ n && p.2 ≠ m) = st.core := by
    rw [List.filter_eq_self]
    intro p hp
    rw [Bool.and_eq_true]
    constructor
    · simp only [ne_eq, decide_not, Bool.not_eq_true', decide_eq_false_iff_not]
      intro hh
      exact hnl (hh ▸ mem_lefts_of_mem hp)
    · simp only [ne_eq, decide_not, Bool.not_eq_true', decide_eq_false_iff_not]
      intro hh
      exact hmr (hh ▸ mem_rights_of_mem hp)
  cases st with
  | mk c o1 o2 i1 i2 =>
    simp only at hn hm h1 h2 h3 h4 hcore hnl hmr
    show VfSt.mk _ _ _ _ _ = _
    rw [VfSt.mk.injEq]
    refine ⟨?_, ?_, ?_, ?_, ?_⟩
    · show ((c.filter (fun p => p.1 ≠ n && p.2 ≠ m)) ++ [(n, m)]).filter
        (fun p => p.1 ≠ n) = c
      rw [hcore, List.filter_append]
      have hc2 : c.filter (fun p => p.1 ≠ n) = c := by
        rw [List.filter_eq_self]
        intro p hp
        simp only [ne_eq, decide_not, Bool.not_eq_true', decide_eq_false_iff_not]
        intro hh
        exact hnl (hh ▸ mem_lefts_of_mem hp)
      rw [hc2]
      simp
    · show removeMany (orInsertMany o1 (n :: outgoingNodesCode P n) d)
        (n :: outgoingNodesCode P n) d = o1
      exact roundtrip_aux h1
    · show removeMany (orInsertMany o2 (m :: outgoingNodesCode B m) d)
        (m :: outgoingNodesCode B m) d = o2
      exact roundtrip_aux h2
    · show removeMany (orInsertMany i1 (n :: incomingNodesCode P n) d)
        (n :: incomingNodesCode P n) d = i1
      exact roundtrip_aux h3
    · show removeMany (orInsertMany i2 (m :: incomingNodesCode B m) d)
        (m :: incomingNodesCode B m) d = i2
      exact roundtrip_aux h4

/-- C8: from any search state in which pattern node `n` and base node
`m` are unmatched and no entry of `out_1`, `out_2`, `in_1`, `in_2` was
inserted at depth `d`, `assign(n, m, d)` followed by
`unassign(n, m, d)` restores `core`, `out_1`, `out_2`, `in_1` and
`in_2` exactly to their values before the assign. -/
theorem assign_unassign_roundtrip (P : PGraph NW EW) (B : FGraph NW EW) (st : VfSt)
    (n m d : Nat)
    (hn : containsL st.core n = false) (hm : containsR st.core m = false)
    (h1 : ∀ p ∈ st.out1, p.2 ≠ d) (h2 : ∀ p ∈ st.out2, p.2 ≠ d)
    (h3 : ∀ p ∈ st.in1, p.2 ≠ d) (h4 : ∀ p ∈ st.in2, p.2 ≠ d) :
    unassign P B (assign P B st n m d) n m d = st :=
  assign_unassign_restore P B st n m d hn hm h1 h2 h3 h4

/-- Witness for the round trip: in the state reached by assigning
pattern node 0 to base node 0 at depth 0 in the search on `P2`/`B2`,
assigning (1, 1) at depth 1 and unassigning it restores the state. -/
theorem assign_unassign_roundtrip_witness :
    unassign P2 B2 (assign P2 B2 (assign P2 B2 initSt 0 0 0) 1 1 1) 1 1 1 =
      assign P2 B2 initSt 0 0 0 :=
  assign_unassign_roundtrip P2 B2 (assign P2 B2 initSt 0 0 0) 1 1 1
    (by decide) (by decide) (by decide) (by decide) (by decide) (by decide)

/-! ### Graph-contract lemmas used by the filter-map and matcher proofs -/

theorem filterMap_some_eq_map {α β : Type} (f : α → β) (l : List α) :
    (l.filterMap fun a => some (f a)) = l.map f := by
  induction l with
  | nil => rfl
  | cons a l ih => simp [List.filterMap_cons, ih]

theorem fmContainsKey_map {α : Type} {f : Nat → α} {l : List Nat} {k : Nat} :
    fmContainsKey (l.map (fun n => (n, f n))) k = true ↔ k ∈ l := by
  simp [fmContainsKey, List.any_eq_true]

theorem flookup_map {α : Type} {f : Nat → α} {l : List Nat} {k : Nat}
    (h : k ∈ l) : flookup (l.map (fun n => (n, f n))) k = some (f k) := by
  induction l with
  | nil => simp at h
  | cons a l ih =>
    by_cases hk : a = k
    · subst hk
      simp [flookup]
    · rcases List.mem_cons.1 h with h | h
      · exact absurd h.symm hk
      · simpa [flookup, hk] using ih h

theorem find_edge_of_mem {g : FGraph NW EW} {t : Nat × Nat × Nat}
    (hnd : (g.edges.map (fun t => t.1)).Nodup) (ht : t ∈ g.edges) :
    g.edges.find? (fun t2 => t2.1 = t.1) = some t := by
  rcases g with ⟨ns, es, nw, ew, dir⟩
  simp only at hnd ht ⊢
  induction es with
  | nil => simp at ht
  | cons t2 es ih =>
    rw [List.map_cons, List.nodup_cons] at hnd
    by_cases hk : t2.1 = t.1
    · have : t = t2 := by
        rcases List.mem_cons.1 ht with h | h
        · exact h
        · exact absurd (hk ▸ List.mem_map.2 ⟨t, h, rfl⟩) hnd.1
      rw [List.find?_cons_of_pos _ (by simpa using hk), this]
    · have ht2 : t ∈ es := by
        rcases List.mem_cons.1 ht with h | h
        · exact absurd (h ▸ rfl) hk
        · exact h
      rw [List.find?_cons_of_neg _ (by simpa using hk)]
      exact ih hnd.2 ht2

theorem adjacentNodes_of_mem {g : FGraph NW EW} {t : Nat × Nat × Nat}
    (hnd : (g.edges.map (fun t => t.1)).Nodup) (ht : t ∈ g.edges) :
    g.adjacentNodes t.1 = (t.2.1, t.2.2) := by
  rw [FGraph.adjacentNodes, find_edge_of_mem hnd ht]

theorem mem_edgeRefs_iff {g : FGraph NW EW} {e : Nat} :
    e ∈ g.edgeRefs ↔ ∃ t ∈ g.edges, t.1 = e := by
  simp [FGraph.edgeRefs, List.mem_map]

theorem mem_outgoingEdges_iff {g : FGraph NW EW} {n e : Nat} :
    e ∈ g.outgoingEdges n ↔ ∃ t ∈ g.edges, t.1 = e ∧ t.2.1 = n := by
  simp only [FGraph.outgoingEdges, List.mem_map, List.mem_filter,
    decide_eq_true_eq]
  constructor
  · rintro ⟨t, ⟨ht, hs⟩, rfl⟩; exact ⟨t, ht, rfl, hs⟩
  · rintro ⟨t, ht, rfl, hs⟩; exact ⟨t, ⟨ht, hs⟩, rfl⟩

theorem mem_incomingEdges_iff {g : FGraph NW EW} {n e : Nat} :
    e ∈ g.incomingEdges n ↔ ∃ t ∈ g.edges, t.1 = e ∧ t.2.2 = n := by
  simp only [FGraph.incomingEdges, List.mem_map, List.mem_filter,
    decide_eq_true_eq]
  constructor
  · rintro ⟨t, ⟨ht, hs⟩, rfl⟩; exact ⟨t, ht, rfl, hs⟩
  · rintro ⟨t, ht, rfl, hs⟩; exact ⟨t, ⟨ht, hs⟩, rfl⟩

theorem outgoingEdges_subset_refs {g : FGraph NW EW} {n e : Nat}
    (h : e ∈ g.outgoingEdges n) : e ∈ g.edgeRefs := by
  obtain ⟨t, ht, he, _⟩ := mem_outgoingEdges_iff.1 h
  exact mem_edgeRefs_iff.2 ⟨t, ht, he⟩

theorem incomingEdges_subset_refs {g : FGraph NW EW} {n e : Nat}
    (h : e ∈ g.incomingEdges n) : e ∈ g.edgeRefs := by
  obtain ⟨t, ht, he, _⟩ := mem_incomingEdges_iff.1 h
  exact mem_edgeRefs_iff.2 ⟨t, ht, he⟩

theorem adjacentEdges_subset_refs {g : FGraph NW EW} {n e : Nat}
    (h : e ∈ g.adjacentEdges n) : e ∈ g.edgeRefs := by
  simp only [FGraph.adjacentEdges, List.mem_map, List.mem_filter] at h
  obtain ⟨t, ⟨ht, _⟩, rfl⟩ := h
  exact mem_edgeRefs_iff.2 ⟨t, ht, rfl⟩

theorem weightMap_nodeMap (g : FGraph NW EW) (fn : NW → NW2) (fe : EW → EW2) :
    (weightMap g fn fe).nodeMap = g.nodes.map (fun n => (n, fn (g.nodeW n))) := by
  show g.nodes.filterMap (fun n => some (n, fn (g.nodeW n))) = _
  exact filterMap_some_eq_map _ _

theorem weightMap_edgeMap (g : FGraph NW EW) (fn : NW → NW2) (fe : EW → EW2)
    (hw : wfG g) :
    (weightMap g fn fe).edgeMap = g.edgeRefs.map (fun e => (e, fe (g.edgeW e))) := by
  show ((g.edgeRefs).filter _).filterMap (fun e => some (e, fe (g.edgeW e))) = _
  have hfilter : (g.edgeRefs).filter (fun e =>
      fmContainsKey (g.nodes.filterMap
        (fun n => (some (fn (g.nodeW n))).map (fun w => (n, w)))) (g.adjacentNodes e).1 &&
      fmContainsKey (g.nodes.filterMap
        (fun n => (some (fn (g.nodeW n))).map (fun w => (n, w)))) (g.adjacentNodes e).2) =
      g.edgeRefs := by
    rw [List.filter_eq_self]
    intro e he
    obtain ⟨t, ht, rfl⟩ := mem_edgeRefs_iff.1 he
    rw [adjacentNodes_of_mem hw.2.1 ht]
    have hmap : g.nodes.filterMap
        (fun n => (some (fn (g.nodeW n))).map (fun w => (n, w))) =
        g.nodes.map (fun n => (n, fn (g.nodeW n))) := filterMap_some_eq_map _ _
    rw [hmap, Bool.and_eq_true]
    exact ⟨fmContainsKey_map.2 ((hw.2.2 t ht).1), fmContainsKey_map.2 ((hw.2.2 t ht).2)⟩
  rw [hfilter]
  exact filterMap_some_eq_map _ _

/-- C9: the view `weight_map(G, id, id)` is observationally equivalent
to `G`: it drops no node and no edge (its maps are keyed by exactly the
nodes and edges of `G`), its counts equal those of `G`, its weight
lookups return (references to) the same weights, and its adjacency
operations and directedness agree with those of `G`. -/
theorem weight_map_id_observational_equiv (g : FGraph NW EW) (hw : wfG g) :
    (weightMap g (id : NW → NW) (id : EW → EW)).fmNodes = g.nodes ∧
    (weightMap g (id : NW → NW) (id : EW → EW)).fmEdges = g.edgeRefs ∧
    (weightMap g (id : NW → NW) (id : EW → EW)).countNodes = g.countNodes ∧
    (weightMap g (id : NW → NW) (id : EW → EW)).countEdges = g.countEdges ∧
    (weightMap g (id : NW → NW) (id : EW → EW)).isDirected = g.directed ∧
    (∀ n ∈ g.nodes,
      (weightMap g (id : NW → NW) (id : EW → EW)).nodeWeight n = some (g.nodeW n)) ∧
    (∀ e ∈ g.edgeRefs,
      (weightMap g (id : NW → NW) (id : EW → EW)).edgeWeight e = some (g.edgeW e)) ∧
    (∀ n ∈ g.nodes,
      (weightMap g (id : NW → NW) (id : EW → EW)).adjacentEdges n =
        some (g.adjacentEdges n)) ∧
    (∀ n ∈ g.nodes,
      (weightMap g (id : NW → NW) (id : EW → EW)).incomingEdges n =
        some (g.incomingEdges n)) ∧
    (∀ n ∈ g.nodes,
      (weightMap g (id : NW → NW) (id : EW → EW)).outgoingEdges n =
        some (g.outgoingEdges n)) ∧
    (∀ e ∈ g.edgeRefs,
      (weightMap g (id : NW → NW) (id : EW → EW)).adjacentNodesF e =
        some (g.adjacentNodes e)) := by
  have hnm := weightMap_nodeMap g (id : NW → NW) (id : EW → EW)
  have hem := weightMap_edgeMap g (id : NW → NW) (id : EW → EW) hw
  simp only [id] at hnm hem
  have hedgefilter : ∀ l : List Nat, (∀ e ∈ l, e ∈ g.edgeRefs) →
      l.filter (fun e =>
        fmContainsKey (weightMap g (id : NW → NW) (id : EW → EW)).edgeMap e) = l := by
    intro l hl
    rw [List.filter_eq_self]
    intro e he
    rw [hem]
    exact fmContainsKey_map.2 (hl e he)
  have hbase : (weightMap g (id : NW → NW) (id : EW → EW)).base = g := rfl
  refine ⟨?_, ?_, ?_, ?_, rfl, ?_, ?_, ?_, ?_, ?_, ?_⟩
  · rw [FilterMapG.fmNodes, hnm, List.map_map]
    rw [show ((fun (p : Nat × NW) => p.1) ∘ fun n => (n, g.nodeW n)) = id from rfl]
    exact List.map_id _
  · rw [FilterMapG.fmEdges, hem, List.map_map]
    rw [show ((fun (p : Nat × EW) => p.1) ∘ fun e => (e, g.edgeW e)) = id from rfl]
    exact List.map_id _
  · rw [FilterMapG.countNodes, hnm, List.length_map]
    rfl
  · rw [FilterMapG.countEdges, hem, List.length_map, FGraph.edgeRefs,
      List.length_map]
    rfl
  · intro n hn
    rw [FilterMapG.nodeWeight, hnm, if_pos (fmContainsKey_map.2 hn)]
    exact flookup_map hn
  · intro e he
    rw [FilterMapG.edgeWeight, hem, if_pos (fmContainsKey_map.2 he)]
    exact flookup_map he
  · intro n hn
    rw [FilterMapG.adjacentEdges, hnm, if_pos (fmContainsKey_map.2 hn), hbase]
    rw [hedgefilter _ (fun e he => adjacentEdges_subset_refs he)]
  · intro n hn
    rw [FilterMapG.incomingEdges, hnm, if_pos (fmContainsKey_map.2 hn), hbase]
    rw [hedgefilter _ (fun e he => incomingEdges_subset_refs he)]
  · intro n hn
    rw [FilterMapG.outgoingEdges, hnm, if_pos (fmContainsKey_map.2 hn), hbase]
    rw [hedgefilter _ (fun e he => outgoingEdges_subset_refs he)]
  · intro e he
    obtain ⟨t, ht, rfl⟩ := mem_edgeRefs_iff.1 he
    simp only [FilterMapG.adjacentNodesF, hbase, adjacentNodes_of_mem hw.2.1 ht,
      hnm, hem]
    rw [if_pos (fmContainsKey_map.2 he), if_pos]
    rw [Bool.and_eq_true]
    exact ⟨fmContainsKey_map.2 ((hw.2.2 t ht).1), fmContainsKey_map.2 ((hw.2.2 t ht).2)⟩

/-- Witness for the observational equivalence, on the concrete graph
`B2`. -/
theorem weight_map_id_observational_equiv_witness :
    (weightMap B2 (id : Nat → Nat) (id : Nat → Nat)).fmNodes = B2.nodes ∧
    (weightMap B2 (id : Nat → Nat) (id : Nat → Nat)).fmEdges = B2.edgeRefs ∧
    (weightMap B2 (id : Nat → Nat) (id : Nat → Nat)).countNodes = B2.countNodes ∧
    (weightMap B2 (id : Nat → Nat) (id : Nat → Nat)).countEdges = B2.countEdges ∧
    (weightMap B2 (id : Nat → Nat) (id : Nat → Nat)).isDirected = B2.directed ∧
    (∀ n ∈ B2.nodes,
      (weightMap B2 (id : Nat → Nat) (id : Nat → Nat)).nodeWeight n = some (B2.nodeW n)) ∧
    (∀ e ∈ B2.edgeRefs,
      (weightMap B2 (id : Nat → Nat) (id : Nat → Nat)).edgeWeight e = some (B2.edgeW e)) ∧
    (∀ n ∈ B2.nodes,
      (weightMap B2 (id : Nat → Nat) (id : Nat → Nat)).adjacentEdges n =
        some (B2.adjacentEdges n)) ∧
    (∀ n ∈ B2.nodes,
      (weightMap B2 (id : Nat → Nat) (id : Nat → Nat)).incomingEdges n =
        some (B2.incomingEdges n)) ∧
    (∀ n ∈ B2.nodes,
      (weightMap B2 (id : Nat → Nat) (id : Nat → Nat)).outgoingEdges n =
        some (B2.outgoingEdges n)) ∧
    (∀ e ∈ B2.edgeRefs,
      (weightMap B2 (id : Nat → Nat) (id : Nat → Nat)).adjacentNodesF e =
        some (B2.adjacentNodes e)) :=
  weight_map_id_observational_equiv B2 ⟨by decide, by decide, by decide⟩

/-- C4: `eval` returns the empty list without entering the search
whenever the pattern is empty, has more nodes than the base graph, or
has more edges than the base graph (`run_query`, vf_algorithms.rs lines
462-471). -/
theorem eval_early_termination (ord : List Nat → List Nat) (P : PGraph NW EW)
    (B : FGraph NW EW)
    (h : P.countNodes = 0 ∨ B.countNodes < P.countNodes ∨
      B.countEdges < P.countEdges) :
    evalVf ord P B = some [] := by
  have hc : (P.isEmptyGraph || decide (B.countNodes < P.countNodes) ||
      decide (B.countEdges < P.countEdges)) = true := by
    rcases h with h | h | h
    · simp [FGraph.isEmptyGraph, h]
    · simp [h]
    · simp [h]
  unfold evalVf runQuery
  rw [if_pos hc]

/-- Witness for the early termination: the three-node pattern `P2` over
the one-node base `B5`. -/
theorem eval_early_termination_witness : evalVf id P2 B5 = some [] :=
  eval_early_termination id P2 B5 (by decide)

/-! ### Lemmas about the buggy neighbor helpers and representative edges -/

theorem incomingNodesCode_eq_self {g : FGraph NW EW} {n x : Nat}
    (hw : wfG g) (h : x ∈ incomingNodesCode g n) : x = n := by
  rw [incomingNodesCode, List.mem_map] at h
  obtain ⟨e, he, rfl⟩ := h
  obtain ⟨t, ht, rfl, hd⟩ := mem_incomingEdges_iff.1 he
  rw [adjacentNodes_of_mem hw.2.1 ht]
  exact hd

theorem mem_incomingNodesCode_self {g : FGraph NW EW} {t : Nat × Nat × Nat}
    (hw : wfG g) (ht : t ∈ g.edges) : t.2.2 ∈ incomingNodesCode g t.2.2 := by
  rw [incomingNodesCode, List.mem_map]
  refine ⟨t.1, mem_incomingEdges_iff.2 ⟨t, ht, rfl, rfl⟩, ?_⟩
  rw [adjacentNodes_of_mem hw.2.1 ht]

theorem mem_outgoingNodesCode_iff {g : FGraph NW EW} {n x : Nat} (hw : wfG g) :
    x ∈ outgoingNodesCode g n ↔ ∃ t ∈ g.edges, t.2.1 = n ∧ t.2.2 = x := by
  rw [outgoingNodesCode]
  constructor
  · intro h
    rw [List.mem_map] at h
    obtain ⟨e, he, rfl⟩ := h
    obtain ⟨t, ht, rfl, hs⟩ := mem_outgoingEdges_iff.1 he
    exact ⟨t, ht, hs, by rw [adjacentNodes_of_mem hw.2.1 ht]⟩
  · rintro ⟨t, ht, hs, hd⟩
    rw [List.mem_map]
    refine ⟨t.1, mem_outgoingEdges_iff.2 ⟨t, ht, rfl, hs⟩, ?_⟩
    rw [adjacentNodes_of_mem hw.2.1 ht]
    exact hd

theorem hmLookup_mem {l : List (Nat × Nat)} {k v : Nat}
    (h : hmLookup l k = some v) : (k, v) ∈ l := by
  rw [hmLookup] at h
  rcases hf : l.reverse.find? (fun p => p.1 = k) with _ | p
  · rw [hf] at h; simp at h
  · rw [hf] at h
    simp only [Option.map_some'] at h
    cases h
    have h1 := List.find?_some hf
    have h2 := List.mem_of_find?_eq_some hf
    rw [List.mem_reverse] at h2
    simp only [decide_eq_true_eq] at h1
    rw [show p = (k, p.2) from by cases p; cases h1; rfl] at h2
    exact h2

theorem hmLookup_isSome_iff {l : List (Nat × Nat)} {k : Nat} :
    (∃ v, hmLookup l k = some v) ↔ k ∈ lefts l := by
  constructor
  · rintro ⟨v, hv⟩
    exact mem_lefts_of_mem (hmLookup_mem hv)
  · intro h
    rw [lefts, List.mem_map] at h
    obtain ⟨p, hp, rfl⟩ := h
    have hs : (l.reverse.find? (fun p2 => p2.1 = p.1)).isSome = true := by
      rw [List.find?_isSome]
      exact ⟨p, List.mem_reverse.2 hp, by simp⟩
    rcases hf : l.reverse.find? (fun p2 => p2.1 = p.1) with _ | q
    · rw [hf] at hs; simp at hs
    · exact ⟨q.2, by rw [hmLookup, hf]; rfl⟩

theorem find?_congr_pred {α : Type} {p q : α → Bool} {l : List α}
    (h : ∀ x ∈ l, p x = q x) : l.find? p = l.find? q := by
  induction l with
  | nil => rfl
  | cons a l ih =>
    rcases hp : p a with _ | _
    · rw [List.find?_cons_of_neg _ (by simp [hp]),
        List.find?_cons_of_neg _ (by rw [← h a (List.mem_cons_self _ _)]; simp [hp])]
      exact ih (fun x hx => h x (List.mem_cons_of_mem _ hx))
    · rw [List.find?_cons_of_pos _ hp,
        List.find?_cons_of_pos _ (by rw [← h a (List.mem_cons_self _ _)]; exact hp)]

theorem find?_filter {α : Type} (p q : α → Bool) (l : List α) :
    (l.filter q).find? p = l.find? (fun x => q x && p x) := by
  induction l with
  | nil => rfl
  | cons a l ih =>
    rcases hq : q a with _ | _
    · rw [List.filter_cons_of_neg (by simp [hq]),
        List.find?_cons_of_neg _ (by simp [hq]), ih]
    · rw [List.filter_cons_of_pos (by simp [hq])]
      rcases hp : p a with _ | _
      · rw [List.find?_cons_of_neg _ (by simp [hp]),
          List.find?_cons_of_neg _ (by simp [hp, hq]), ih]
      · rw [List.find?_cons_of_pos _ hp,
          List.find?_cons_of_pos _ (by simp [hp, hq])]

theorem hmLookup_filter_map {α : Type} (l : List α) (q : α → Bool)
    (a b : α → Nat) (k : Nat) :
    hmLookup ((l.filter q).map (fun t => (a t, b t))) k
      = (l.reverse.find? (fun t => q t && decide (a t = k))).map b := by
  rw [hmLookup, ← List.map_reverse, ← List.filter_reverse, List.find?_map,
    find?_filter, Option.map_map]
  rfl

theorem hmLookup_filter_key {l : List (Nat × Nat)} {q : Nat → Bool} {k : Nat}
    (hq : q k = true) :
    hmLookup (l.filter (fun p => q p.1)) k = hmLookup l k := by
  rw [hmLookup, hmLookup, ← List.filter_reverse, find?_filter]
  refine congrArg _ (find?_congr_pred ?_)
  intro p _
  rcases hd : decide (p.1 = k) with _ | _
  · simp
  · simp only [decide_eq_true_eq] at hd
    subst hd
    simp [hq]

theorem repEdge_some_mem {B : FGraph NW EW} {s d f : Nat} (hw : wfG B)
    (h : repEdge B s d = some f) :
    ∃ t ∈ B.edges, t.1 = f ∧ t.2.1 = s ∧ t.2.2 = d := by
  have hm := hmLookup_mem h
  rw [mSuccsAll, List.mem_map] at hm
  obtain ⟨e, he, hpe⟩ := hm
  obtain ⟨t, ht, rfl, hs⟩ := mem_outgoingEdges_iff.1 he
  rw [adjacentNodes_of_mem hw.2.1 ht] at hpe
  have h1 : t.2.2 = d := congrArg Prod.fst hpe
  have h2 : t.1 = f := congrArg Prod.snd hpe
  exact ⟨t, ht, h2, hs, h1⟩

theorem repEdge_isSome {B : FGraph NW EW} {t : Nat × Nat × Nat} (hw : wfG B)
    (ht : t ∈ B.edges) : ∃ f, repEdge B t.2.1 t.2.2 = some f := by
  rw [repEdge]
  refine hmLookup_isSome_iff.2 ?_
  rw [mSuccsAll, lefts, List.map_map]
  rw [List.mem_map]
  refine ⟨t.1, mem_outgoingEdges_iff.2 ⟨t, ht, rfl, rfl⟩, ?_⟩
  show (B.adjacentNodes t.1).2 = t.2.2
  rw [adjacentNodes_of_mem hw.2.1 ht]

theorem mem_outgoingNodesCode_of_repEdge {B : FGraph NW EW} {s d f : Nat}
    (hw : wfG B) (h : repEdge B s d = some f) : d ∈ outgoingNodesCode B s := by
  obtain ⟨t, ht, _, hs, hd⟩ := repEdge_some_mem hw h
  exact (mem_outgoingNodesCode_iff hw).2 ⟨t, ht, hs, hd⟩

/-- The lookup through `m_preds_matched` (keyed by edge source over the
incoming edges of `m`) agrees with the representative-edge lookup
through the outgoing side, provided the key is a matched node. -/
theorem hmLookup_inMap {B : FGraph NW EW} (hw : wfG B) (m mu : Nat) :
    hmLookup ((B.incomingEdges m).map (fun e2 => ((B.adjacentNodes e2).1, e2))) mu
      = repEdge B mu m := by
  have hin : (B.incomingEdges m).map (fun e2 => ((B.adjacentNodes e2).1, e2))
      = (B.edges.filter (fun t => t.2.2 = m)).map (fun t => (t.2.1, t.1)) := by
    rw [FGraph.incomingEdges, List.map_map]
    refine List.map_congr_left ?_
    intro t ht
    rw [List.mem_filter, decide_eq_true_eq] at ht
    show ((B.adjacentNodes t.1).1, t.1) = (t.2.1, t.1)
    rw [adjacentNodes_of_mem hw.2.1 ht.1]
  have hout : mSuccsAll B mu
      = (B.edges.filter (fun t => t.2.1 = mu)).map (fun t => (t.2.2, t.1)) := by
    rw [mSuccsAll, FGraph.outgoingEdges, List.map_map]
    refine List.map_congr_left ?_
    intro t ht
    rw [List.mem_filter, decide_eq_true_eq] at ht
    show ((B.adjacentNodes t.1).2, t.1) = (t.2.2, t.1)
    rw [adjacentNodes_of_mem hw.2.1 ht.1]
  rw [hin, repEdge, hout]
  rw [show (fun t : Nat × Nat × Nat => (t.2.1, t.1)) =
    (fun t : Nat × Nat × Nat => ((fun t2 : Nat × Nat × Nat => t2.2.1) t,
      (fun t2 : Nat × Nat × Nat => t2.1) t)) from rfl]
  rw [show (fun t : Nat × Nat × Nat => (t.2.2, t.1)) =
    (fun t : Nat × Nat × Nat => ((fun t2 : Nat × Nat × Nat => t2.2.2) t,
      (fun t2 : Nat × Nat × Nat => t2.1) t)) from rfl]
  rw [hmLookup_filter_map, hmLookup_filter_map]
  refine congrArg _ (find?_congr_pred ?_)
  intro t _
  rcases h1 : decide (t.2.2 = m) with _ | _ <;> rcases h2 : decide (t.2.1 = mu) with _ | _ <;>
    simp_all

/-! ### The lazy edge-chain check, hash-map collection, and assignment -/

theorem chainCheck_eq_true_iff {P : PGraph NW EW} {B : FGraph NW EW}
    {core mmap : List (Nat × Nat)} {l : List (Nat × Nat)} :
    chainCheck P B core mmap l = some true ↔
      ∀ p ∈ l, ∃ mw f, alookup core p.1 = some mw ∧ hmLookup mmap mw = some f ∧
        (P.edgeW p.2).mayMatch (B.edgeW f) = true := by
  induction l with
  | nil => simp [chainCheck]
  | cons p rest ih =>
    obtain ⟨w, e⟩ := p
    constructor
    · intro h q hq
      rcases h1 : alookup core w with _ | mw
      · simp only [chainCheck, h1] at h
        exact absurd h (by simp)
      · rcases h2 : hmLookup mmap mw with _ | f
        · simp only [chainCheck, h1, h2] at h
          exact absurd h (by simp)
        · rcases h3 : (P.edgeW e).mayMatch (B.edgeW f) with _ | _
          · simp only [chainCheck, h1, h2, h3, Bool.false_eq_true, if_false] at h
            exact absurd h (by simp)
          · simp only [chainCheck, h1, h2, h3, if_true] at h
            rcases List.mem_cons.1 hq with hq | hq
            · subst hq
              exact ⟨mw, f, h1, h2, h3⟩
            · exact ih.1 h q hq
    · intro h
      obtain ⟨mw, f, h1, h2, h3⟩ := h (w, e) (List.mem_cons_self _ _)
      simp only [chainCheck, h1, h2, h3, if_true]
      exact ih.2 (fun q hq => h q (List.mem_cons_of_mem _ hq))

theorem mem_owInsert {l : List (Nat × Nat)} {k v : Nat} {p : Nat × Nat}
    (h : p ∈ owInsert l k v) : p ∈ l ∨ p = (k, v) := by
  rw [owInsert, List.mem_append] at h
  rcases h with h | h
  · exact Or.inl (List.mem_of_mem_filter h)
  · exact Or.inr (by simpa using h)

theorem mem_hmCollect_sub {l : List (Nat × Nat)} {p : Nat × Nat}
    (h : p ∈ hmCollect l) : p ∈ l := by
  have haux : ∀ (l2 : List (Nat × Nat)) (acc : List (Nat × Nat)),
      p ∈ l2.foldl (fun acc q => owInsert acc q.1 q.2) acc → p ∈ acc ∨ p ∈ l2 := by
    intro l2
    induction l2 with
    | nil => intro acc h2; exact Or.inl h2
    | cons q l2 ih =>
      intro acc h2
      rw [List.foldl_cons] at h2
      rcases ih _ h2 with h3 | h3
      · rcases mem_owInsert h3 with h4 | h4
        · exact Or.inl h4
        · refine Or.inr (List.mem_cons.2 (Or.inl ?_))
          rw [h4]
      · exact Or.inr (List.mem_cons_of_mem _ h3)
  rcases haux l [] h with h2 | h2
  · simp at h2
  · exact h2

theorem lefts_owInsert_nodup {l : List (Nat × Nat)} {k v : Nat}
    (h : (lefts l).Nodup) : (lefts (owInsert l k v)).Nodup := by
  rw [owInsert, lefts_append, List.nodup_append]
  refine ⟨?_, by simp [lefts], ?_⟩
  · show ((l.filter _).map (fun p => p.1)).Nodup
    exact List.Nodup.sublist ((List.filter_sublist _).map _) h
  · intro x hx
    rw [lefts, List.mem_map] at hx
    obtain ⟨q, hq, rfl⟩ := hx
    rw [List.mem_filter] at hq
    have hq2 := hq.2
    simp only [ne_eq, decide_not, Bool.not_eq_true', decide_eq_false_iff_not] at hq2
    simp only [lefts, List.map_cons, List.map_nil, List.mem_singleton]
    exact hq2

theorem lefts_hmCollect_nodup {l : List (Nat × Nat)} :
    (lefts (hmCollect l)).Nodup := by
  have haux : ∀ (l2 acc : List (Nat × Nat)), (lefts acc).Nodup →
      (lefts (l2.foldl (fun acc q => owInsert acc q.1 q.2) acc)).Nodup := by
    intro l2
    induction l2 with
    | nil => intro acc h; exact h
    | cons q l2 ih =>
      intro acc h
      rw [List.foldl_cons]
      exact ih _ (lefts_owInsert_nodup h)
  exact haux l [] (by simp [lefts])

theorem hmCollect_eq_self {l : List (Nat × Nat)} (h : (lefts l).Nodup) :
    hmCollect l = l := by
  have haux : ∀ (l2 acc : List (Nat × Nat)), (lefts (acc ++ l2)).Nodup →
      l2.foldl (fun acc q => owInsert acc q.1 q.2) acc = acc ++ l2 := by
    intro l2
    induction l2 with
    | nil => intro acc _; simp
    | cons q l2 ih =>
      intro acc hnd
      have hq1 : q.1 ∉ lefts acc := by
        intro hh
        rw [lefts_append, List.nodup_append] at hnd
        exact hnd.2.2 hh (by simp [lefts])
      have hstep : owInsert acc q.1 q.2 = acc ++ [q] := by
        rw [owInsert]
        have hfs : acc.filter (fun p => p.1 ≠ q.1) = acc := by
          rw [List.filter_eq_self]
          intro p hp
          simp only [ne_eq, decide_not, Bool.not_eq_true', decide_eq_false_iff_not]
          intro hh
          exact hq1 (hh ▸ mem_lefts_of_mem hp)
        rw [hfs]
      rw [List.foldl_cons, hstep, ih (acc ++ [q]) (by simpa using hnd)]
      simp
  simpa using haux l [] (by simpa [lefts] using h)

theorem mem_fresh_of {seen ks : List Nat} {x : Nat}
    (h1 : x ∉ seen) (h2 : x ∈ ks) : x ∈ fresh seen ks := by
  induction ks generalizing seen with
  | nil => simp at h2
  | cons k ks ih =>
    by_cases hk : k ∈ seen
    · rw [fresh, if_pos hk]
      rcases List.mem_cons.1 h2 with h2 | h2
      · exact absurd (h2 ▸ hk) h1
      · exact ih h1 h2
    · rw [fresh, if_neg hk]
      by_cases hx : x = k
      · subst hx; exact List.mem_cons_self _ _
      · rcases List.mem_cons.1 h2 with h2 | h2
        · exact absurd h2 hx
        · refine List.mem_cons_of_mem _ (ih ?_ h2)
          rw [List.mem_cons]
          push_neg
          exact ⟨hx, h1⟩

theorem lefts_orInsertMany {l : List (Nat × Nat)} {ks : List Nat} {d : Nat} :
    lefts (orInsertMany l ks d) = lefts l ++ fresh (lefts l) ks := by
  rw [orInsertMany_eq, lefts_append]
  refine congrArg _ ?_
  rw [lefts, List.map_map]
  exact List.map_id _

theorem containsL_orInsertMany_iff {l : List (Nat × Nat)} {ks : List Nat}
    {d k : Nat} :
    containsL (orInsertMany l ks d) k = true ↔ containsL l k = true ∨ k ∈ ks := by
  rw [containsL_iff, containsL_iff, lefts_orInsertMany, List.mem_append]
  constructor
  · rintro (h | h)
    · exact Or.inl h
    · exact Or.inr (fresh_mem h).2
  · rintro (h | h)
    · exact Or.inl h
    · by_cases hl : k ∈ lefts l
      · exact Or.inl hl
      · exact Or.inr (mem_fresh_of hl h)

theorem mem_orInsertMany {l : List (Nat × Nat)} {ks : List Nat} {d : Nat}
    {p : Nat × Nat} (h : p ∈ orInsertMany l ks d) : p ∈ l ∨ p.2 = d := by
  rw [orInsertMany_eq, List.mem_append] at h
  rcases h with h | h
  · exact Or.inl h
  · rw [List.mem_map] at h
    obtain ⟨x, _, rfl⟩ := h
    exact Or.inr rfl

theorem nodup_orInsertMany {l : List (Nat × Nat)} {ks : List Nat} {d : Nat}
    (h : (lefts l).Nodup) : (lefts (orInsertMany l ks d)).Nodup := by
  rw [lefts_orInsertMany, List.nodup_append]
  exact ⟨h, fresh_nodup, fun x hx hy => (fresh_mem hy).1 hx⟩

theorem assign_core {P : PGraph NW EW} {B : FGraph NW EW} {st : VfSt} {n m d : Nat}
    (hn : ¬ containsL st.core n = true) (hm : ¬ containsR st.core m = true) :
    (assign P B st n m d).core = st.core ++ [(n, m)] := by
  show st.core.filter (fun p => p.1 ≠ n && p.2 ≠ m) ++ [(n, m)] = _
  refine congrArg (fun x => x ++ [(n, m)]) ?_
  rw [List.filter_eq_self]
  intro p hp
  rw [Bool.and_eq_true]
  constructor
  · simp only [ne_eq, decide_not, Bool.not_eq_true', decide_eq_false_iff_not]
    intro hh
    exact hn (containsL_iff.2 (hh ▸ mem_lefts_of_mem hp))
  · simp only [ne_eq, decide_not, Bool.not_eq_true', decide_eq_false_iff_not]
    intro hh
    exact hm (containsR_iff.2 (hh ▸ mem_rights_of_mem hp))

/-! ### Preservation of the search-state invariant under `assign` -/

theorem outKeySpec_append {P : PGraph NW EW} {core : List (Nat × Nat)} {n m k : Nat} :
    outKeySpec P (core ++ [(n, m)]) k ↔
      outKeySpec P core k ∨ k = n ∨ k ∈ outgoingNodesCode P n := by
  rw [outKeySpec, outKeySpec, lefts_append]
  constructor
  · rintro (h | ⟨u, hu, hk⟩)
    · rcases List.mem_append.1 h with h | h
      · exact Or.inl (Or.inl h)
      · exact Or.inr (Or.inl (by simpa [lefts] using h))
    · rcases List.mem_append.1 hu with hu | hu
      · exact Or.inl (Or.inr ⟨u, hu, hk⟩)
      · have : u = n := by simpa [lefts] using hu
        exact Or.inr (Or.inr (this ▸ hk))
  · rintro ((h | ⟨u, hu, hk⟩) | h | h)
    · exact Or.inl (List.mem_append.2 (Or.inl h))
    · exact Or.inr ⟨u, List.mem_append.2 (Or.inl hu), hk⟩
    · exact Or.inl (List.mem_append.2 (Or.inr (by simp [lefts, h])))
    · exact Or.inr ⟨n, List.mem_append.2 (Or.inr (by simp [lefts])), h⟩

theorem inKeySpec_append {P : PGraph NW EW} {core : List (Nat × Nat)} {n m k : Nat} :
    inKeySpec P (core ++ [(n, m)]) k ↔
      inKeySpec P core k ∨ k = n ∨ k ∈ incomingNodesCode P n := by
  rw [inKeySpec, inKeySpec, lefts_append]
  constructor
  · rintro (h | ⟨u, hu, hk⟩)
    · rcases List.mem_append.1 h with h | h
      · exact Or.inl (Or.inl h)
      · exact Or.inr (Or.inl (by simpa [lefts] using h))
    · rcases List.mem_append.1 hu with hu | hu
      · exact Or.inl (Or.inr ⟨u, hu, hk⟩)
      · have : u = n := by simpa [lefts] using hu
        exact Or.inr (Or.inr (this ▸ hk))
  · rintro ((h | ⟨u, hu, hk⟩) | h | h)
    · exact Or.inl (List.mem_append.2 (Or.inl h))
    · exact Or.inr ⟨u, List.mem_append.2 (Or.inl hu), hk⟩
    · exact Or.inl (List.mem_append.2 (Or.inr (by simp [lefts, h])))
    · exact Or.inr ⟨n, List.mem_append.2 (Or.inr (by simp [lefts])), h⟩

theorem outKeySpecB_append {B : FGraph NW EW} {core : List (Nat × Nat)} {n m k : Nat} :
    outKeySpecB B (core ++ [(n, m)]) k ↔
      outKeySpecB B core k ∨ k = m ∨ k ∈ outgoingNodesCode B m := by
  rw [outKeySpecB, outKeySpecB, rights_append]
  constructor
  · rintro (h | ⟨u, hu, hk⟩)
    · rcases List.mem_append.1 h with h | h
      · exact Or.inl (Or.inl h)
      · exact Or.inr (Or.inl (by simpa [rights] using h))
    · rcases List.mem_append.1 hu with hu | hu
      · exact Or.inl (Or.inr ⟨u, hu, hk⟩)
      · have : u = m := by simpa [rights] using hu
        exact Or.inr (Or.inr (this ▸ hk))
  · rintro ((h | ⟨u, hu, hk⟩) | h | h)
    · exact Or.inl (List.mem_append.2 (Or.inl h))
    · exact Or.inr ⟨u, List.mem_append.2 (Or.inl hu), hk⟩
    · exact Or.inl (List.mem_append.2 (Or.inr (by simp [rights, h])))
    · exact Or.inr ⟨m, List.mem_append.2 (Or.inr (by simp [rights])), h⟩

theorem inKeySpecB_append {B : FGraph NW EW} {core : List (Nat × Nat)} {n m k : Nat} :
    inKeySpecB B (core ++ [(n, m)]) k ↔
      inKeySpecB B core k ∨ k = m ∨ k ∈ incomingNodesCode B m := by
  rw [inKeySpecB, inKeySpecB, rights_append]
  constructor
  · rintro (h | ⟨u, hu, hk⟩)
    · rcases List.mem_append.1 h with h | h
      · exact Or.inl (Or.inl h)
      · exact Or.inr (Or.inl (by simpa [rights] using h))
    · rcases List.mem_append.1 hu with hu | hu
      · exact Or.inl (Or.inr ⟨u, hu, hk⟩)
      · have : u = m := by simpa [rights] using hu
        exact Or.inr (Or.inr (this ▸ hk))
  · rintro ((h | ⟨u, hu, hk⟩) | h | h)
    · exact Or.inl (List.mem_append.2 (Or.inl h))
    · exact Or.inr ⟨u, List.mem_append.2 (Or.inl hu), hk⟩
    · exact Or.inl (List.mem_append.2 (Or.inr (by simp [rights, h])))
    · exact Or.inr ⟨m, List.mem_append.2 (Or.inr (by simp [rights])), h⟩

theorem auxOk_orInsertMany {depth : Nat} {l : List (Nat × Nat)} {ks : List Nat}
    (h : auxOk depth l) : auxOk (depth + 1) (orInsertMany l ks depth) := by
  refine ⟨nodup_orInsertMany h.1, ?_⟩
  intro p hp
  rcases mem_orInsertMany hp with h2 | h2
  · exact Nat.lt_succ_of_lt (h.2 p h2)
  · rw [h2]
    exact Nat.lt_succ_self _

theorem SInv_assign {P : PGraph NW EW} {B : FGraph NW EW} {depth : Nat} {st : VfSt}
    {n m : Nat} (hInv : SInv P B depth st)
    (hn : ¬ containsL st.core n = true) (hm : ¬ containsR st.core m = true)
    (hnP : n ∈ P.nodes) (hmB : m ∈ B.nodes)
    (hmm : (P.nodeW n).mayMatch (B.nodeW m) = true)
    (hedges : coreEdgesOk P B (st.core ++ [(n, m)])) :
    SInv P B (depth + 1) (assign P B st n m depth) := by
  obtain ⟨hlen, hcN, hcE, ha1, ha2, ha3, ha4, hk1, hk2, hk3, hk4⟩ := hInv
  have hnl : n ∉ lefts st.core := fun hh => hn (containsL_iff.2 hh)
  have hmr : m ∉ rights st.core := fun hh => hm (containsR_iff.2 hh)
  have hco : (assign P B st n m depth).core = st.core ++ [(n, m)] := assign_core hn hm
  have ho1 : (assign P B st n m depth).out1 =
      orInsertMany st.out1 (n :: outgoingNodesCode P n) depth := rfl
  have ho2 : (assign P B st n m depth).out2 =
      orInsertMany st.out2 (m :: outgoingNodesCode B m) depth := rfl
  have hi1 : (assign P B st n m depth).in1 =
      orInsertMany st.in1 (n :: incomingNodesCode P n) depth := rfl
  have hi2 : (assign P B st n m depth).in2 =
      orInsertMany st.in2 (m :: incomingNodesCode B m) depth := rfl
  refine ⟨?_, ?_, ?_, ?_, ?_, ?_, ?_, ?_, ?_, ?_, ?_⟩
  · rw [hco, List.length_append, hlen]
    rfl
  · rw [hco]
    refine ⟨?_, ?_, ?_⟩
    · rw [lefts_append, List.nodup_append]
      exact ⟨hcN.1, by simp [lefts], fun x hx hy => hnl (by
        have : x = n := by simpa [lefts] using hy
        exact this ▸ hx)⟩
    · rw [rights_append, List.nodup_append]
      exact ⟨hcN.2.1, by simp [rights], fun x hx hy => hmr (by
        have : x = m := by simpa [rights] using hy
        exact this ▸ hx)⟩
    · intro p hp
      rcases List.mem_append.1 hp with hp | hp
      · exact hcN.2.2 p hp
      · have : p = (n, m) := by simpa using hp
        rw [this]
        exact ⟨hnP, hmB, hmm⟩
  · rw [hco]
    exact hedges
  · rw [ho1]; exact auxOk_orInsertMany ha1
  · rw [ho2]; exact auxOk_orInsertMany ha2
  · rw [hi1]; exact auxOk_orInsertMany ha3
  · rw [hi2]; exact auxOk_orInsertMany ha4
  · intro k
    rw [ho1, hco, containsL_orInsertMany_iff, outKeySpec_append, hk1 k,
      List.mem_cons]
  · intro k
    rw [ho2, hco, containsL_orInsertMany_iff, outKeySpecB_append, hk2 k,
      List.mem_cons]
  · intro k
    rw [hi1, hco, containsL_orInsertMany_iff, inKeySpec_append, hk3 k,
      List.mem_cons]
  · intro k
    rw [hi2, hco, containsL_orInsertMany_iff, inKeySpecB_append, hk4 k,
      List.mem_cons]

/-! ### What a passed edge-semantics check establishes -/

theorem alookup_snoc_self {core : List (Nat × Nat)} {n m : Nat}
    (hn : n ∉ lefts core) : alookup (core ++ [(n, m)]) n = some m := by
  rw [alookup_append_right hn, alookup, if_pos rfl]

theorem alookup_append_cases {core : List (Nat × Nat)} {n m x v : Nat}
    (h : alookup (core ++ [(n, m)]) x = some v) :
    (x ∈ lefts core ∧ alookup core x = some v) ∨ (x = n ∧ v = m) := by
  by_cases hx : x ∈ lefts core
  · rw [alookup_append_left hx] at h
    exact Or.inl ⟨hx, h⟩
  · rw [alookup_append_right hx] at h
    rw [alookup] at h
    by_cases hxn : n = x
    · rw [if_pos hxn] at h
      cases h
      exact Or.inr ⟨hxn.symm, rfl⟩
    · rw [if_neg hxn] at h
      exact absurd h (by rw [alookup]; simp)

theorem containsL_of_alookup {core : List (Nat × Nat)} {x v : Nat}
    (h : alookup core x = some v) : containsL core x = true :=
  containsL_iff.2 (mem_lefts_of_mem (alookup_mem h))

theorem containsR_of_alookup {core : List (Nat × Nat)} {x v : Nat}
    (h : alookup core x = some v) : containsR core v = true :=
  containsR_iff.2 (mem_rights_of_mem (alookup_mem h))

theorem edges_ok_of_checks {P : PGraph NW EW} {B : FGraph NW EW}
    (hwP : wfG P) (hwB : wfG B) {core : List (Nat × Nat)} {n m : Nat} {st1 : VfSt}
    (hst1 : st1.core = core ++ [(n, m)])
    (hn : n ∉ lefts core)
    (hold : coreEdgesOk P B core)
    (hces : checkEdgeSemantics P B st1 n m = some true) :
    coreEdgesOk P B (core ++ [(n, m)]) := by
  simp only [checkEdgeSemantics] at hces
  rcases hc1 : chainCheck P B st1.core
      (((B.incomingEdges m).map (fun e2 => ((B.adjacentNodes e2).1, e2))).filter
        (fun p => containsR st1.core p.1))
      (((P.incomingEdges n).map (fun e => ((P.adjacentNodes e).1, e))).filter
        (fun p => containsL st1.core p.1)) with _ | b1
  · rw [hc1] at hces
    exact absurd hces (by simp)
  rcases b1 with _ | _
  · rw [hc1] at hces
    exact absurd hces (by simp)
  rw [hc1] at hces
  have hpred := chainCheck_eq_true_iff.1 hc1
  have hsucc := chainCheck_eq_true_iff.1 hces
  rw [hst1] at hpred hsucc
  intro t ht mu mv h1 h2
  by_cases hv : t.2.2 = n
  · -- `t` is an incoming edge of `n`; the predecessor chain covered it.
    have hsrc : containsL (core ++ [(n, m)]) t.2.1 = true := containsL_of_alookup h1
    have hmemlist : ((t.2.1, t.1) : Nat × Nat) ∈
        (((P.incomingEdges n).map (fun e => ((P.adjacentNodes e).1, e))).filter
          (fun p => containsL (core ++ [(n, m)]) p.1)) := by
      rw [List.mem_filter]
      refine ⟨?_, hsrc⟩
      rw [List.mem_map]
      refine ⟨t.1, mem_incomingEdges_iff.2 ⟨t, ht, rfl, hv⟩, ?_⟩
      rw [adjacentNodes_of_mem hwP.2.1 ht]
    obtain ⟨mw, f, ha, hb, hc⟩ := hpred (t.2.1, t.1) hmemlist
    have hmw : mw = mu := by
      rw [h1] at ha
      exact (Option.some.inj ha).symm
    subst hmw
    have hmveq : mv = m := by
      rw [hv, alookup_snoc_self hn] at h2
      exact Option.some.inj h2.symm
    have hcr : containsR (core ++ [(n, m)]) mw = true := containsR_of_alookup h1
    rw [hmLookup_filter_key hcr, hmLookup_inMap hwB] at hb
    exact ⟨f, by rw [hmveq]; exact hb, hc⟩
  · by_cases hu : t.2.1 = n
    · -- `t` is an outgoing edge of `n` with an already-matched target.
      have hdst : containsL (core ++ [(n, m)]) t.2.2 = true := containsL_of_alookup h2
      have hmemlist : ((t.2.2, t.1) : Nat × Nat) ∈
          (((P.outgoingEdges n).map (fun e => ((P.adjacentNodes e).2, e))).filter
            (fun p => containsL (core ++ [(n, m)]) p.1)) := by
        rw [List.mem_filter]
        refine ⟨?_, hdst⟩
        rw [List.mem_map]
        refine ⟨t.1, mem_outgoingEdges_iff.2 ⟨t, ht, rfl, hu⟩, ?_⟩
        rw [adjacentNodes_of_mem hwP.2.1 ht]
      obtain ⟨mw, f, ha, hb, hc⟩ := hsucc (t.2.2, t.1) hmemlist
      have hmw : mw = mv := by
        rw [h2] at ha
        exact (Option.some.inj ha).symm
      subst hmw
      have hmueq : mu = m := by
        rw [hu, alookup_snoc_self hn] at h1
        exact Option.some.inj h1.symm
      have hcr : containsR (core ++ [(n, m)]) mw = true := containsR_of_alookup h2
      rw [hmLookup_filter_key hcr] at hb
      exact ⟨f, by rw [hmueq]; exact hb, hc⟩
    · -- both endpoints were already matched before `n`.
      rcases alookup_append_cases h1 with ⟨hx1, h1o⟩ | ⟨hx1, _⟩
      · rcases alookup_append_cases h2 with ⟨hx2, h2o⟩ | ⟨hx2, _⟩
        · exact hold t ht mu mv h1o h2o
        · exact absurd hx2 hv
      · exact absurd hx1 hu

/-! ### The checks accept the pair prescribed by a feasible correspondence -/

theorem valid_of_feasible {P : PGraph NW EW} {B : FGraph NW EW}
    (hwP : wfG P) (hwB : wfG B)
    {core ext : List (Nat × Nat)} {n m : Nat} {st1 : VfSt}
    (hst1 : st1.core = core ++ [(n, m)])
    (hfe : FeasibleCorr P B ((core ++ [(n, m)]) ++ ext)) :
    isValidMatching P B st1 n m = some true := by
  have hndl : (lefts ((core ++ [(n, m)]) ++ ext)).Nodup :=
    hfe.1.nodup_iff.2 hwP.1
  have hnd1 : (lefts (core ++ [(n, m)])).Nodup := by
    rw [lefts_append] at hndl
    exact hndl.of_append_left
  have hn_not : n ∉ lefts core := by
    rw [lefts_append, List.nodup_append] at hnd1
    intro hh
    exact hnd1.2.2 hh (by simp [lefts])
  have hmem_n : n ∈ lefts (core ++ [(n, m)]) := by
    rw [lefts_append]
    exact List.mem_append.2 (Or.inr (by simp [lefts]))
  have hagree : ∀ x, x ∈ lefts (core ++ [(n, m)]) →
      alookup ((core ++ [(n, m)]) ++ ext) x = alookup (core ++ [(n, m)]) x :=
    fun x hx => alookup_append_left hx
  have hmu_n : alookup ((core ++ [(n, m)]) ++ ext) n = some m := by
    rw [hagree n hmem_n]
    exact alookup_snoc_self hn_not
  have hlook : ∀ x v, alookup (core ++ [(n, m)]) x = some v →
      alookup ((core ++ [(n, m)]) ++ ext) x = some v := by
    intro x v h
    rw [hagree x (mem_lefts_of_mem (alookup_mem h))]
    exact h
  have hnodes := hfe.2.2.1
  have hedges := hfe.2.2.2
  -- node semantics
  have hnode : checkNodeSemantics P B n m = true := by
    have hmem : ((n, m) : Nat × Nat) ∈ (core ++ [(n, m)]) ++ ext :=
      List.mem_append.2 (Or.inl (List.mem_append.2 (Or.inr (by simp))))
    exact (hnodes (n, m) hmem).2
  -- predecessor relation (on the helper as written)
  have hcpr : checkPredecessorRelation P B st1 n m = true := by
    rw [checkPredecessorRelation, List.all_eq_true]
    intro n2 hn2
    rw [List.mem_filter] at hn2
    have hn2n : n2 = n := incomingNodesCode_eq_self hwP hn2.1
    subst hn2n
    rw [hst1, alookup_snoc_self hn_not]
    -- the incoming edge of `n` witnessing membership gives `m` an incoming edge
    have hexists : ∃ t ∈ P.edges, t.2.2 = n2 := by
      rw [incomingNodesCode, List.mem_map] at hn2
      obtain ⟨e, he, _⟩ := hn2.1
      obtain ⟨t, ht, _, hd⟩ := mem_incomingEdges_iff.1 he
      exact ⟨t, ht, hd⟩
    obtain ⟨t, ht, hd⟩ := hexists
    obtain ⟨x, hx⟩ : ∃ x, alookup ((core ++ [(n2, m)]) ++ ext) t.2.1 = some x := by
      refine alookup_isSome ?_
      rw [hfe.1.mem_iff]
      exact (hwP.2.2 t ht).1
    obtain ⟨f, hf, _⟩ := hedges t ht x m hx (by rw [hd]; exact hmu_n)
    obtain ⟨t2, ht2, _, _, ht2d⟩ := repEdge_some_mem hwB hf
    have hminc : m ∈ incomingNodesCode B m := by
      have := mem_incomingNodesCode_self hwB ht2
      rw [ht2d] at this
      exact this
    rw [List.elem_iff]
    rw [List.mem_filter]
    refine ⟨hminc, containsR_iff.2 ?_⟩
    rw [rights_append]
    exact List.mem_append.2 (Or.inr (by simp [rights]))
  -- successor relation
  have hcsr : checkSuccessorRelation P B st1 n m = true := by
    rw [checkSuccessorRelation, List.all_eq_true]
    intro n2 hn2
    rw [List.mem_filter] at hn2
    obtain ⟨t, ht, hs, hd⟩ := (mem_outgoingNodesCode_iff hwP).1 hn2.1
    have hn2m : n2 ∈ lefts (core ++ [(n, m)]) := by
      rw [← hst1]
      exact containsL_iff.1 hn2.2
    obtain ⟨m2, hm2⟩ := alookup_isSome (l := core ++ [(n, m)]) hn2m
    rw [hst1, hm2]
    obtain ⟨f, hf, _⟩ := hedges t ht m m2 (by rw [hs]; exact hmu_n)
      (by rw [hd]; exact hlook n2 m2 hm2)
    have hm2out : m2 ∈ outgoingNodesCode B m := mem_outgoingNodesCode_of_repEdge hwB hf
    rw [List.elem_iff, List.mem_filter]
    exact ⟨hm2out, containsR_of_alookup hm2⟩
  -- edge semantics
  have hchain1 : chainCheck P B st1.core
      (((B.incomingEdges m).map (fun e2 => ((B.adjacentNodes e2).1, e2))).filter
        (fun p => containsR st1.core p.1))
      (((P.incomingEdges n).map (fun e => ((P.adjacentNodes e).1, e))).filter
        (fun p => containsL st1.core p.1)) = some true := by
    rw [chainCheck_eq_true_iff]
    intro q hq
    rw [List.mem_filter] at hq
    obtain ⟨e, he, hqe⟩ := List.mem_map.1 hq.1
    obtain ⟨t, ht, rfl, hd⟩ := mem_incomingEdges_iff.1 he
    rw [adjacentNodes_of_mem hwP.2.1 ht] at hqe
    have hw : q.1 = t.2.1 := by rw [← hqe]
    have hq2 : q.2 = t.1 := by rw [← hqe]
    have hwm : q.1 ∈ lefts (core ++ [(n, m)]) := by
      rw [← hst1]
      exact containsL_iff.1 hq.2
    obtain ⟨mw, hmw⟩ := alookup_isSome (l := core ++ [(n, m)]) hwm
    obtain ⟨f, hf, hpf⟩ := hedges t ht mw m
      (by rw [← hw]; exact hlook q.1 mw hmw) (by rw [hd]; exact hmu_n)
    refine ⟨mw, f, by rw [hst1]; exact hmw, ?_, by rw [hq2]; exact hpf⟩
    rw [hmLookup_filter_key (by rw [hst1]; exact containsR_of_alookup hmw),
      hmLookup_inMap hwB]
    exact hf
  have hchain2 : chainCheck P B st1.core
      (((B.outgoingEdges m).map (fun e2 => ((B.adjacentNodes e2).2, e2))).filter
        (fun p => containsR st1.core p.1))
      (((P.outgoingEdges n).map (fun e => ((P.adjacentNodes e).2, e))).filter
        (fun p => containsL st1.core p.1)) = some true := by
    rw [chainCheck_eq_true_iff]
    intro q hq
    rw [List.mem_filter] at hq
    obtain ⟨e, he, hqe⟩ := List.mem_map.1 hq.1
    obtain ⟨t, ht, rfl, hs⟩ := mem_outgoingEdges_iff.1 he
    rw [adjacentNodes_of_mem hwP.2.1 ht] at hqe
    have hw : q.1 = t.2.2 := by rw [← hqe]
    have hq2 : q.2 = t.1 := by rw [← hqe]
    have hwm : q.1 ∈ lefts (core ++ [(n, m)]) := by
      rw [← hst1]
      exact containsL_iff.1 hq.2
    obtain ⟨mw, hmw⟩ := alookup_isSome (l := core ++ [(n, m)]) hwm
    obtain ⟨f, hf, hpf⟩ := hedges t ht m mw
      (by rw [hs]; exact hmu_n) (by rw [← hw]; exact hlook q.1 mw hmw)
    refine ⟨mw, f, by rw [hst1]; exact hmw, ?_, by rw [hq2]; exact hpf⟩
    rw [hmLookup_filter_key (by rw [hst1]; exact containsR_of_alookup hmw)]
    exact hf
  have hces : checkEdgeSemantics P B st1 n m = some true := by
    simp only [checkEdgeSemantics, hchain1]
    exact hchain2
  rw [isValidMatching, hnode, hcpr, hcsr]
  simp only [Bool.not_true, Bool.false_eq_true, if_false]
  exact hces

/-! ### Properties of the candidate selection -/

theorem minByOrd_mem {cmp : Nat → Nat → Ordering} {l : List Nat} {x : Nat}
    (h : minByOrd cmp l = some x) : x ∈ l := by
  have haux : ∀ (l2 : List Nat) (acc : Option Nat),
      l2.foldl (fun acc x =>
        match acc with
        | none => some x
        | some y => if cmp x y = Ordering.lt then some x else some y) acc = some x →
      acc = some x ∨ x ∈ l2 := by
    intro l2
    induction l2 with
    | nil => intro acc h2; exact Or.inl h2
    | cons y l2 ih =>
      intro acc h2
      rw [List.foldl_cons] at h2
      rcases ih _ h2 with h3 | h3
      · rcases acc with _ | a
        · simp only at h3
          cases h3
          exact Or.inr (List.mem_cons_self _ _)
        · simp only at h3
          by_cases hc : cmp y a = Ordering.lt
          · rw [if_pos hc] at h3
            cases h3
            exact Or.inr (List.mem_cons_self _ _)
          · rw [if_neg hc] at h3
            exact Or.inl h3
      · exact Or.inr (List.mem_cons_of_mem _ h3)
  rcases haux l none h with h2 | h2
  · exact absurd h2 (by simp)
  · exact h2

theorem minByOrd_isSome {cmp : Nat → Nat → Ordering} {l : List Nat}
    (h : l ≠ []) : ∃ x, minByOrd cmp l = some x := by
  have haux : ∀ (l2 : List Nat) (a : Nat),
      ∃ x, l2.foldl (fun acc x =>
        match acc with
        | none => some x
        | some y => if cmp x y = Ordering.lt then some x else some y) (some a)
        = some x := by
    intro l2
    induction l2 with
    | nil => intro a; exact ⟨a, rfl⟩
    | cons y l2 ih =>
      intro a
      rw [List.foldl_cons]
      by_cases hc : cmp y a = Ordering.lt
      · simpa only [if_pos hc] using ih y
      · simpa only [if_neg hc] using ih a
  rcases l with _ | ⟨y, l2⟩
  · exact absurd rfl h
  · rw [minByOrd, List.foldl_cons]
    exact haux l2 y

theorem minByOrd_vis {P : PGraph NW EW} {l : List Nat} {x : Nat}
    (hvis : ∃ y ∈ l, (P.nodeW y).shouldAppear = true)
    (h : minByOrd (giveNodeOrder P) l = some x) :
    (P.nodeW x).shouldAppear = true := by
  have haux : ∀ (l2 : List Nat) (acc : Option Nat),
      ((∃ a, acc = some a ∧ (P.nodeW a).shouldAppear = true) ∨
        ∃ y ∈ l2, (P.nodeW y).shouldAppear = true) →
      ∀ z, l2.foldl (fun acc x =>
        match acc with
        | none => some x
        | some y => if giveNodeOrder P x y = Ordering.lt then some x else some y)
        acc = some z → (P.nodeW z).shouldAppear = true := by
    intro l2
    induction l2 with
    | nil =>
      intro acc hyp z h2
      rcases hyp with ⟨a, ha, hva⟩ | ⟨y, hy, _⟩
      · have hz : acc = some z := h2
        rw [ha] at hz
        cases hz
        exact hva
      · simp at hy
    | cons y l2 ih =>
      intro acc hyp z h2
      rw [List.foldl_cons] at h2
      refine ih _ ?_ z h2
      rcases hyp with ⟨a, ha, hva⟩ | ⟨w, hw, hvw⟩
      · subst ha
        by_cases hvy : (P.nodeW y).shouldAppear = true
        · simp only
          by_cases hc : giveNodeOrder P y a = Ordering.lt
          · rw [if_pos hc]
            exact Or.inl ⟨y, rfl, hvy⟩
          · rw [if_neg hc]
            exact Or.inl ⟨a, rfl, hva⟩
        · have hcc : giveNodeOrder P y a = Ordering.gt := by
            rw [giveNodeOrder]
            simp only [Bool.not_eq_true] at hvy
            rw [hvy, hva]
            rfl
          simp only
          rw [hcc]
          exact Or.inl ⟨a, by rw [if_neg (by simp)], hva⟩
      · rcases List.mem_cons.1 hw with hw | hw
        · subst hw
          rcases acc with _ | a
          · exact Or.inl ⟨w, rfl, hvw⟩
          · simp only
            by_cases hc : giveNodeOrder P w a = Ordering.lt
            · rw [if_pos hc]
              exact Or.inl ⟨w, rfl, hvw⟩
            · by_cases hva : (P.nodeW a).shouldAppear = true
              · rw [if_neg hc]
                exact Or.inl ⟨a, rfl, hva⟩
              · exfalso
                refine hc ?_
                rw [giveNodeOrder]
                simp only [Bool.not_eq_true] at hva
                rw [hva, hvw]
                rfl
        · exact Or.inr ⟨w, hw, hvw⟩
  exact haux l none (Or.inr hvis) x h

theorem lefts_length {l : List (Nat × Nat)} : (lefts l).length = l.length :=
  List.length_map _ _

theorem rights_nodup_unmatched {P : PGraph NW EW} {B : FGraph NW EW}
    {core ext : List (Nat × Nat)} {n m2 : Nat}
    (hfe : FeasibleCorr P B (core ++ ext))
    (hn : ¬ containsL core n = true)
    (hlk : alookup (core ++ ext) n = some m2) :
    ¬ containsR core m2 = true := by
  intro hcr
  obtain ⟨q, hq, hq2⟩ := List.mem_map.1 (containsR_iff.1 hcr)
  have hqmem : q ∈ core ++ ext := List.mem_append.2 (Or.inl hq)
  have hnm2 : (n, m2) ∈ core ++ ext := alookup_mem hlk
  have hinj : q = (n, m2) := by
    refine List.inj_on_of_nodup_map (f := fun p => p.2) ?_ hqmem hnm2 hq2
    exact hfe.2.1
  rw [hinj] at hq
  exact hn (containsL_iff.2 (mem_lefts_of_mem hq))

theorem selectCandidates_spec {P : PGraph NW EW} {B : FGraph NW EW}
    (hwP : wfG P) (hwB : wfG B) {depth : Nat} {st : VfSt}
    {ord : List Nat → List Nat} (hord : ∀ l, (ord l).Perm l)
    (hInv : SInv P B depth st) {n : Nat} {cands : List Nat}
    (hsel : selectCandidates P B st (decide (nodesToTake P ≤ depth)) ord
      = (some n, cands)) :
    (¬ containsL st.core n = true) ∧ n ∈ P.nodes ∧
    (depth < nodesToTake P → (P.nodeW n).shouldAppear = true) ∧
    cands.Nodup ∧
    (∀ m ∈ cands, ¬ containsR st.core m = true ∧ m ∈ B.nodes) ∧
    (∀ ext m2, FeasibleCorr P B (st.core ++ ext) →
      alookup (st.core ++ ext) n = some m2 → m2 ∈ cands) := by
  obtain ⟨hlen, hcN, hcE, ha1, ha2, ha3, ha4, hk1, hk2, hk3, hk4⟩ := hInv
  simp only [selectCandidates] at hsel
  by_cases hc1 : ((findUnmatchedNeighbors P st st.out1 st.out2
        (decide (nodesToTake P ≤ depth)) ord).1.isNone ||
      (findUnmatchedNeighbors P st st.out1 st.out2
        (decide (nodesToTake P ≤ depth)) ord).2.isEmpty) = true
  · -- tiers 2/3; tier 2 never yields a pattern node because `in_1`
    -- records only matched nodes (the broken `incoming_nodes` again)
    rw [if_pos hc1] at hsel
    have hfil : (lefts st.in1).filter (fun k => !(containsL st.core k)) = [] := by
      rw [List.filter_eq_nil_iff]
      intro k hk
      have hspec := (hk3 k).1 (containsL_iff.2 hk)
      have hkin : k ∈ lefts st.core := by
        rcases hspec with h | ⟨u, hu, hinc⟩
        · exact h
        · exact (incomingNodesCode_eq_self hwP hinc) ▸ hu
      simp [containsL_iff.2 hkin]
    have ht2 : (findUnmatchedNeighbors P st st.in1 st.in2
        (decide (nodesToTake P ≤ depth)) ord).1 = none := by
      simp only [findUnmatchedNeighbors, hfil]
      rfl
    rw [if_pos (by rw [ht2]; simp)] at hsel
    -- tier 3
    rw [findUnmatchedUnconnected, Prod.mk.injEq] at hsel
    obtain ⟨hmin, hcands⟩ := hsel
    have hnmem := minByOrd_mem hmin
    rw [List.mem_filter] at hnmem
    have hunm : ¬ containsL st.core n = true := by
      have := hnmem.2
      simp only [Bool.not_eq_true'] at this
      simp [this]
    refine ⟨hunm, hnmem.1, ?_, ?_, ?_, ?_⟩
    · intro hlt
      refine minByOrd_vis ?_ hmin
      by_contra hno
      push_neg at hno
      have hsub : P.nodes.filter (fun y => (P.nodeW y).shouldAppear)
          ⊆ lefts st.core := by
        intro y hy
        rw [List.mem_filter] at hy
        by_contra hyc
        refine hno y (List.mem_filter.2 ⟨hy.1, ?_⟩) hy.2
        simp only [Bool.not_eq_true']
        rw [← Bool.not_eq_true]
        intro hh
        exact hyc (containsL_iff.1 hh)
      have hle := (List.subperm_of_subset (hwP.1.filter _) hsub).length_le
      rw [lefts_length, hlen] at hle
      rw [nodesToTake] at hlt
      omega
    · rw [← hcands]
      exact hwB.1.filter _
    · intro m hm
      rw [← hcands, List.mem_filter] at hm
      have := hm.2
      simp only [Bool.not_eq_true'] at this
      exact ⟨by simp [this], hm.1⟩
    · intro ext m2 hfe hlk
      have hm2B : m2 ∈ B.nodes := (hfe.2.2.1 (n, m2) (alookup_mem hlk)).1
      have hm2un := rights_nodup_unmatched hfe hunm hlk
      rw [← hcands, List.mem_filter]
      refine ⟨hm2B, ?_⟩
      simp only [Bool.not_eq_true']
      exact (Bool.not_eq_true _) ▸ hm2un
  · -- tier 1
    rw [if_neg hc1] at hsel
    simp only [findUnmatchedNeighbors] at hsel
    rw [Prod.mk.injEq] at hsel
    obtain ⟨hfst, hcands⟩ := hsel
    rcases hmin : minByOrd (giveNodeOrder P)
        ((lefts st.out1).filter (fun k => !(containsL st.core k))) with _ | k
    · simp only [hmin] at hfst
      exact absurd hfst (by simp)
    simp only [hmin] at hfst
    by_cases hcnd : (decide (nodesToTake P ≤ depth) || (P.nodeW k).shouldAppear) = true
    swap
    · rw [if_neg hcnd] at hfst
      exact absurd hfst (by simp)
    rw [if_pos hcnd] at hfst
    cases hfst
    have hnmem := minByOrd_mem hmin
    rw [List.mem_filter] at hnmem
    have hunm : ¬ containsL st.core n = true := by
      have := hnmem.2
      simp only [Bool.not_eq_true'] at this
      simp [this]
    have hspec := (hk1 n).1 (containsL_iff.2 hnmem.1)
    have houtn : ∃ u ∈ lefts st.core, n ∈ outgoingNodesCode P u := by
      rcases hspec with h | h
      · exact absurd (containsL_iff.2 h) hunm
      · exact h
    obtain ⟨u, hu, hout⟩ := houtn
    obtain ⟨t, ht, hts, htd⟩ := (mem_outgoingNodesCode_iff hwP).1 hout
    refine ⟨hunm, htd ▸ (hwP.2.2 t ht).2, ?_, ?_, ?_, ?_⟩
    · intro hlt
      rcases Bool.or_eq_true_iff.1 hcnd with h | h
      · rw [decide_eq_true_eq] at h
        omega
      · exact h
    · rw [← hcands]
      refine ((hord _).nodup_iff).2 ?_
      exact ha2.1.filter _
    · intro m hm
      rw [← hcands] at hm
      have hm2 := ((hord _).mem_iff).1 hm
      rw [List.mem_filter] at hm2
      have hunm2 : ¬ containsR st.core m = true := by
        have := hm2.2
        simp only [Bool.not_eq_true'] at this
        simp [this]
      refine ⟨hunm2, ?_⟩
      have hspec2 := (hk2 m).1 (containsL_iff.2 hm2.1)
      rcases hspec2 with h | ⟨u2, hu2, hout2⟩
      · exact absurd (containsR_iff.2 h) hunm2
      · obtain ⟨t2, ht2, _, htd2⟩ := (mem_outgoingNodesCode_iff hwB).1 hout2
        exact htd2 ▸ (hwB.2.2 t2 ht2).2
    · intro ext m2 hfe hlk
      obtain ⟨mu, hmu⟩ := alookup_isSome (l := st.core) hu
      have hmu2 : alookup (st.core ++ ext) t.2.1 = some mu := by
        rw [hts, alookup_append_left hu]
        exact hmu
      have hln : alookup (st.core ++ ext) t.2.2 = some m2 := by
        rw [htd]
        exact hlk
      obtain ⟨f, hf, _⟩ := hfe.2.2.2 t ht mu m2 hmu2 hln
      have hm2out := mem_outgoingNodesCode_of_repEdge hwB hf
      have hm2o2 : m2 ∈ lefts st.out2 := containsL_iff.1 ((hk2 m2).2
        (Or.inr ⟨mu, mem_rights_of_mem (alookup_mem hmu), hm2out⟩))
      have hm2un := rights_nodup_unmatched hfe hunm hlk
      rw [← hcands]
      refine ((hord _).mem_iff).2 ?_
      rw [List.mem_filter]
      refine ⟨hm2o2, ?_⟩
      simp only [Bool.not_eq_true']
      exact (Bool.not_eq_true _) ▸ hm2un

/-! ### Properties of `produce_graph` -/

theorem mem_lefts_iff {l : List (Nat × Nat)} {x : Nat} :
    x ∈ lefts l ↔ ∃ p ∈ l, p.1 = x := by
  constructor
  · intro h
    obtain ⟨p, hp, he⟩ := List.mem_map.1 h
    exact ⟨p, hp, he⟩
  · rintro ⟨p, hp, he⟩
    exact List.mem_map.2 ⟨p, hp, he⟩

theorem mem_lefts_owInsert {l : List (Nat × Nat)} {k v x : Nat} :
    x ∈ lefts (owInsert l k v) ↔ x ∈ lefts l ∨ x = k := by
  rw [owInsert, lefts_append, List.mem_append]
  constructor
  · rintro (h | h)
    · obtain ⟨p, hp, he⟩ := mem_lefts_iff.1 h
      exact Or.inl (mem_lefts_iff.2 ⟨p, List.mem_of_mem_filter hp, he⟩)
    · right
      simpa [lefts] using h
  · rintro (h | rfl)
    · by_cases hx : x = k
      · exact Or.inr (by simp [lefts, hx])
      · refine Or.inl ?_
        obtain ⟨p, hp, he⟩ := mem_lefts_iff.1 h
        refine mem_lefts_iff.2 ⟨p, List.mem_filter.2 ⟨hp, ?_⟩, he⟩
        simp only [ne_eq, decide_not, Bool.not_eq_true', decide_eq_false_iff_not]
        rw [he]
        exact hx
    · exact Or.inr (by simp [lefts])

theorem lefts_hmCollect_iff {l : List (Nat × Nat)} {x : Nat} :
    x ∈ lefts (hmCollect l) ↔ x ∈ lefts l := by
  have haux : ∀ (l2 acc : List (Nat × Nat)),
      x ∈ lefts (l2.foldl (fun acc q => owInsert acc q.1 q.2) acc) ↔
        x ∈ lefts acc ∨ x ∈ lefts l2 := by
    intro l2
    induction l2 with
    | nil =>
      intro acc
      simp [lefts]
    | cons q l2 ih =>
      intro acc
      rw [List.foldl_cons, ih, mem_lefts_owInsert, lefts_cons, List.mem_cons]
      tauto
  rw [hmCollect, haux]
  simp [lefts]

theorem produceGraph_parts {P : PGraph NW EW} {B : FGraph NW EW}
    {μ : List (Nat × Nat)} {R : MatchRes}
    (h : produceGraph P B μ = some R) :
    R.nodeB = hmCollect ((μ.filter (fun p => (P.nodeW p.1).shouldAppear)).map
      (fun p => (p.1, p.2))) ∧
    ∃ el, produceEdges P B μ μ = some el ∧ R.edgeB = hmCollect el := by
  rw [produceGraph] at h
  rcases he : produceEdges P B μ μ with _ | el
  · rw [he] at h
    exact absurd h (by simp)
  · simp only [he] at h
    split at h
    · cases h
      exact ⟨rfl, el, rfl, rfl⟩
    · exact absurd h (by simp)

theorem map_pair_eta {l : List (Nat × Nat)} :
    l.map (fun p => (p.1, p.2)) = l := by
  induction l with
  | nil => rfl
  | cons p l ih => rw [List.map_cons, ih]

theorem bindEdgeList_sound {P : PGraph NW EW} {B : FGraph NW EW}
    {μ mSuccs : List (Nat × Nat)} {l2 bs : List (Nat × Nat)}
    (h : bindEdgeList P B μ mSuccs l2 = some bs) :
    ∀ q ∈ bs, ∃ p ∈ l2, q.1 = p.2 ∧
      ∃ mv, alookup μ p.1 = some mv ∧ hmLookup mSuccs mv = some q.2 := by
  induction l2 generalizing bs with
  | nil =>
    rw [bindEdgeList] at h
    cases h
    intro q hq
    simp at hq
  | cons p l2 ih =>
    obtain ⟨w, e⟩ := p
    rw [bindEdgeList] at h
    rcases h1 : alookup μ w with _ | mw
    · simp only [h1] at h
      exact Option.noConfusion h
    · simp only [h1] at h
      rcases h2 : hmLookup mSuccs mw with _ | e2
      · simp only [h2] at h
        exact Option.noConfusion h
      · simp only [h2] at h
        rcases h3 : bindEdgeList P B μ mSuccs l2 with _ | bs2
        · simp only [h3] at h
          exact Option.noConfusion h
        · simp only [h3] at h
          cases h
          intro q hq
          rcases List.mem_cons.1 hq with hq | hq
          · subst hq
            exact ⟨(w, e), List.mem_cons_self _ _, rfl, mw, h1, h2⟩
          · obtain ⟨p2, hp2, hqe, mv, hmv, hlk⟩ := ih h3 q hq
            exact ⟨p2, List.mem_cons_of_mem _ hp2, hqe, mv, hmv, hlk⟩

theorem bindEdgeList_covers {P : PGraph NW EW} {B : FGraph NW EW}
    {μ mSuccs : List (Nat × Nat)} {l2 bs : List (Nat × Nat)}
    (h : bindEdgeList P B μ mSuccs l2 = some bs) :
    ∀ p ∈ l2, ∃ f, (p.2, f) ∈ bs := by
  induction l2 generalizing bs with
  | nil =>
    intro p hp
    simp at hp
  | cons p0 l2 ih =>
    obtain ⟨w, e⟩ := p0
    rw [bindEdgeList] at h
    rcases h1 : alookup μ w with _ | mw
    · simp only [h1] at h
      exact Option.noConfusion h
    · simp only [h1] at h
      rcases h2 : hmLookup mSuccs mw with _ | e2
      · simp only [h2] at h
        exact Option.noConfusion h
      · simp only [h2] at h
        rcases h3 : bindEdgeList P B μ mSuccs l2 with _ | bs2
        · simp only [h3] at h
          exact Option.noConfusion h
        · simp only [h3] at h
          cases h
          intro p hp
          rcases List.mem_cons.1 hp with hp | hp
          · subst hp
            exact ⟨e2, List.mem_cons_self _ _⟩
          · obtain ⟨f, hf⟩ := ih h3 p hp
            exact ⟨f, List.mem_cons_of_mem _ hf⟩

theorem mem_nSuccsVisible_iff {P : PGraph NW EW} (hwP : wfG P) {n : Nat}
    {q : Nat × Nat} :
    q ∈ nSuccsVisible P n ↔ ∃ t ∈ P.edges, t.1 = q.2 ∧ t.2.1 = n ∧
      t.2.2 = q.1 ∧ (P.edgeW t.1).shouldAppear = true := by
  rw [nSuccsVisible]
  constructor
  · intro h
    rw [List.mem_map] at h
    obtain ⟨e, he, rfl⟩ := h
    rw [List.mem_filter] at he
    obtain ⟨t, ht, rfl, hs⟩ := mem_outgoingEdges_iff.1 he.1
    rw [adjacentNodes_of_mem hwP.2.1 ht]
    exact ⟨t, ht, rfl, hs, rfl, he.2⟩
  · rintro ⟨t, ht, h1, h2, h3, h4⟩
    rw [List.mem_map]
    refine ⟨t.1, List.mem_filter.2 ⟨mem_outgoingEdges_iff.2 ⟨t, ht, rfl, h2⟩, h4⟩, ?_⟩
    rw [adjacentNodes_of_mem hwP.2.1 ht]
    show (t.2.2, t.1) = q
    rw [h3, h1]

theorem produceEdges_sound {P : PGraph NW EW} {B : FGraph NW EW} (hwP : wfG P)
    {μ : List (Nat × Nat)} {l : List (Nat × Nat)} {el : List (Nat × Nat)}
    (h : produceEdges P B μ l = some el) :
    ∀ q ∈ el, ∃ nm ∈ l, ∃ t ∈ P.edges, t.1 = q.1 ∧ t.2.1 = nm.1 ∧
      (P.edgeW t.1).shouldAppear = true ∧
      ∃ mv, alookup μ t.2.2 = some mv ∧ repEdge B nm.2 mv = some q.2 := by
  induction l generalizing el with
  | nil =>
    rw [produceEdges] at h
    cases h
    intro q hq
    simp at hq
  | cons nm l ih =>
    obtain ⟨n, m⟩ := nm
    rw [produceEdges] at h
    rcases h1 : bindEdgeList P B μ (mSuccsAll B m) (nSuccsVisible P n) with _ | bs
    · rw [h1] at h
      exact absurd h (by simp)
    rw [h1] at h
    rcases h2 : produceEdges P B μ l with _ | el2
    · rw [h2] at h
      exact absurd h (by simp)
    rw [h2] at h
    cases h
    intro q hq
    rcases List.mem_append.1 hq with hq | hq
    · obtain ⟨p, hp, hqe, mv, hmv, hlk⟩ := bindEdgeList_sound h1 q hq
      obtain ⟨t, ht, ht1, ht2, ht3, ht4⟩ := (mem_nSuccsVisible_iff hwP).1 hp
      refine ⟨(n, m), List.mem_cons_self _ _, t, ht, ?_, ht2, ht4, mv, ?_, hlk⟩
      · rw [ht1, hqe]
      · rw [ht3]
        exact hmv
    · obtain ⟨nm2, hnm2, rest⟩ := ih h2 q hq
      exact ⟨nm2, List.mem_cons_of_mem _ hnm2, rest⟩

theorem produceEdges_covers {P : PGraph NW EW} {B : FGraph NW EW} (hwP : wfG P)
    {μ : List (Nat × Nat)} {l : List (Nat × Nat)} {el : List (Nat × Nat)}
    (h : produceEdges P B μ l = some el) :
    ∀ t ∈ P.edges, (P.edgeW t.1).shouldAppear = true →
      ∀ nm ∈ l, t.2.1 = nm.1 → ∃ f, (t.1, f) ∈ el := by
  induction l generalizing el with
  | nil =>
    intro t _ _ nm hnm _
    simp at hnm
  | cons nm0 l ih =>
    obtain ⟨n, m⟩ := nm0
    rw [produceEdges] at h
    rcases h1 : bindEdgeList P B μ (mSuccsAll B m) (nSuccsVisible P n) with _ | bs
    · rw [h1] at h
      exact absurd h (by simp)
    rw [h1] at h
    rcases h2 : produceEdges P B μ l with _ | el2
    · rw [h2] at h
      exact absurd h (by simp)
    rw [h2] at h
    cases h
    intro t ht hvis nm hnm hsrc
    rcases List.mem_cons.1 hnm with hnm | hnm
    · subst hnm
      have hmem : ((t.2.2, t.1) : Nat × Nat) ∈ nSuccsVisible P n := by
        rw [mem_nSuccsVisible_iff hwP]
        exact ⟨t, ht, rfl, hsrc, rfl, hvis⟩
      obtain ⟨f, hf⟩ := bindEdgeList_covers h1 (t.2.2, t.1) hmem
      exact ⟨f, List.mem_append.2 (Or.inl hf)⟩
    · obtain ⟨f, hf⟩ := ih h2 t ht hvis nm hnm hsrc
      exact ⟨f, List.mem_append.2 (Or.inr hf)⟩

theorem produceGraph_all_hidden {P : PGraph NW EW} {B : FGraph NW EW}
    (hhid : ∀ x ∈ P.nodes, (P.nodeW x).shouldAppear = false)
    (hehid : ∀ t ∈ P.edges, (P.edgeW t.1).shouldAppear = false)
    {μ : List (Nat × Nat)} (hsub : ∀ p ∈ μ, p.1 ∈ P.nodes) :
    produceGraph P B μ = some ⟨[], []⟩ := by
  have hfil : μ.filter (fun p => (P.nodeW p.1).shouldAppear) = [] := by
    rw [List.filter_eq_nil_iff]
    intro p hp
    rw [hhid p.1 (hsub p hp)]
    simp
  have hsv : ∀ n, nSuccsVisible P n = [] := by
    intro n
    rw [nSuccsVisible]
    have hfe : (P.outgoingEdges n).filter (fun e => (P.edgeW e).shouldAppear) = [] := by
      rw [List.filter_eq_nil_iff]
      intro e he
      obtain ⟨t, ht, rfl, _⟩ := mem_outgoingEdges_iff.1 he
      rw [hehid t ht]
      simp
    rw [hfe]
    rfl
  have hpe : ∀ l : List (Nat × Nat), produceEdges P B μ l = some [] := by
    intro l
    induction l with
    | nil => rfl
    | cons nm l ih =>
      obtain ⟨n, m⟩ := nm
      rw [produceEdges, hsv n]
      show (match some ([] : List (Nat × Nat)) with
        | none => none
        | some bs => match produceEdges P B μ l with
          | none => none
          | some l2 => some (bs ++ l2)) = some []
      rw [ih]
      rfl
  rw [produceGraph, hpe μ, hfil]
  rfl

/-! ### Bridge lemmas for the main induction -/

theorem FeasibleCorr_perm {P : PGraph NW EW} {B : FGraph NW EW}
    {μ μ2 : List (Nat × Nat)} (hwP : wfG P)
    (h : FeasibleCorr P B μ) (hp : μ.Perm μ2) : FeasibleCorr P B μ2 := by
  have hndl : (lefts μ).Nodup := h.1.nodup_iff.2 hwP.1
  have hl : (lefts μ).Perm (lefts μ2) := hp.map (fun p : Nat × Nat => p.1)
  have hr : (rights μ).Perm (rights μ2) := hp.map (fun p : Nat × Nat => p.2)
  refine ⟨hl.symm.trans h.1, hr.nodup_iff.1 h.2.1,
    fun p hpm => h.2.2.1 p (hp.mem_iff.2 hpm), ?_⟩
  intro t ht mu mv h1 h2
  have h1m : ((t.2.1, mu) : Nat × Nat) ∈ μ := hp.mem_iff.2 (alookup_mem h1)
  have h2m : ((t.2.2, mv) : Nat × Nat) ∈ μ := hp.mem_iff.2 (alookup_mem h2)
  exact h.2.2.2 t ht mu mv (alookup_of_mem hndl h1m) (alookup_of_mem hndl h2m)

theorem FeasibleCorr_of_SInv_full {P : PGraph NW EW} {B : FGraph NW EW} {st : VfSt}
    (hInv : SInv P B P.countNodes st) :
    FeasibleCorr P B st.core := by
  obtain ⟨hlen, hcN, hcE, _⟩ := hInv
  have hsub : lefts st.core ⊆ P.nodes := by
    intro x hx
    obtain ⟨p, hp, he⟩ := mem_lefts_iff.1 hx
    exact he ▸ (hcN.2.2 p hp).1
  have hperm : (lefts st.core).Perm P.nodes := by
    refine (List.subperm_of_subset hcN.1 hsub).perm_of_length_le ?_
    rw [lefts_length, hlen]
    exact Nat.le_refl _
  exact ⟨hperm, hcN.2.1, fun p hp => ⟨(hcN.2.2 p hp).2.1, (hcN.2.2 p hp).2.2⟩, hcE⟩

theorem isValidMatching_true_parts {P : PGraph NW EW} {B : FGraph NW EW}
    {st1 : VfSt} {n m : Nat} (h : isValidMatching P B st1 n m = some true) :
    checkNodeSemantics P B n m = true ∧
      checkEdgeSemantics P B st1 n m = some true := by
  rw [isValidMatching] at h
  by_cases h1 : checkNodeSemantics P B n m = true
  · by_cases h2 : checkPredecessorRelation P B st1 n m = true
    · by_cases h3 : checkSuccessorRelation P B st1 n m = true
      · refine ⟨h1, ?_⟩
        simpa [h1, h2, h3] using h
      · rw [Bool.not_eq_true] at h3
        simp [h1, h2, h3] at h
    · rw [Bool.not_eq_true] at h2
      simp [h1, h2] at h
  · rw [Bool.not_eq_true] at h1
    simp [h1] at h

theorem SInv_init {P : PGraph NW EW} {B : FGraph NW EW} : SInv P B 0 initSt := by
  have hCL : ∀ k, containsL ([] : List (Nat × Nat)) k = false := fun _ => rfl
  refine ⟨rfl, ⟨List.nodup_nil, List.nodup_nil, ?_⟩, ?_, ?_, ?_, ?_, ?_,
    ?_, ?_, ?_, ?_⟩
  · intro p hp
    simp [initSt] at hp
  · intro t ht mu mv h1
    simp [initSt, alookup] at h1
  · exact ⟨List.nodup_nil, fun p hp => by simp [initSt] at hp⟩
  · exact ⟨List.nodup_nil, fun p hp => by simp [initSt] at hp⟩
  · exact ⟨List.nodup_nil, fun p hp => by simp [initSt] at hp⟩
  · exact ⟨List.nodup_nil, fun p hp => by simp [initSt] at hp⟩
  · intro k
    constructor
    · intro hk
      exact absurd hk (by simp [initSt, containsL])
    · intro hk
      rw [outKeySpec] at hk
      rcases hk with hk | ⟨u, hu, _⟩
      · simp [initSt, lefts] at hk
      · simp [initSt, lefts] at hu
  · intro k
    constructor
    · intro hk
      exact absurd hk (by simp [initSt, containsL])
    · intro hk
      rw [outKeySpecB] at hk
      rcases hk with hk | ⟨u, hu, _⟩
      · simp [initSt, rights] at hk
      · simp [initSt, rights] at hu
  · intro k
    constructor
    · intro hk
      exact absurd hk (by simp [initSt, containsL])
    · intro hk
      rw [inKeySpec] at hk
      rcases hk with hk | ⟨u, hu, _⟩
      · simp [initSt, lefts] at hk
      · simp [initSt, lefts] at hu
  · intro k
    constructor
    · intro hk
      exact absurd hk (by simp [initSt, containsL])
    · intro hk
      rw [inKeySpecB] at hk
      rcases hk with hk | ⟨u, hu, _⟩
      · simp [initSt, rights] at hk
      · simp [initSt, rights] at hu

theorem nodeB_eq_filter {P : PGraph NW EW} {B : FGraph NW EW}
    {μ : List (Nat × Nat)} {R : MatchRes} (hnd : (lefts μ).Nodup)
    (h : produceGraph P B μ = some R) :
    R.nodeB = μ.filter (fun p => (P.nodeW p.1).shouldAppear) := by
  have hp := (produceGraph_parts h).1
  rw [map_pair_eta] at hp
  rw [hp]
  refine hmCollect_eq_self ?_
  have hsl : (lefts (μ.filter (fun p => (P.nodeW p.1).shouldAppear))).Sublist
      (lefts μ) := List.Sublist.map _ (List.filter_sublist _)
  exact hnd.sublist hsl

theorem edges_hidden_of_nodes_hidden {P : PGraph NW EW} (hwP : wfG P)
    (hpv : patternValid P)
    (hhid : ∀ x ∈ P.nodes, (P.nodeW x).shouldAppear = false) :
    ∀ t ∈ P.edges, (P.edgeW t.1).shouldAppear = false := by
  intro t ht
  by_contra hc
  rw [Bool.not_eq_false] at hc
  have hv := (hpv t ht hc).1
  rw [hhid t.2.1 (hwP.2.2 t ht).1] at hv
  exact Bool.noConfusion hv

/-! ### The candidate loop and the main induction of `find_subgraphs` -/

theorem fsLoop_concl {P : PGraph NW EW} {B : FGraph NW EW}
    (hwP : wfG P) (hwB : wfG B)
    (recur : VfSt → Option (VfSt × List MatchRes × Nat)) {depth : Nat}
    (hrec : ∀ st1 out1, SInv P B (depth + 1) st1 → recur st1 = some out1 →
      FsConcl P B (nodesToTake P) (depth + 1) st1 out1)
    {n : Nat} (hnP : n ∈ P.nodes)
    (hvisn : depth < nodesToTake P → (P.nodeW n).shouldAppear = true)
    {st : VfSt} (hInv : SInv P B depth st)
    (hn : ¬ containsL st.core n = true) :
    ∀ ms out, ms.Nodup →
      (∀ m ∈ ms, ¬ containsR st.core m = true ∧ m ∈ B.nodes) →
      fsLoop P B recur (nodesToTake P) depth n ms st = some out →
      out.1 = st ∧
      (∀ R ∈ out.2.1, ∃ m ∈ ms, ∃ ext,
        FeasibleCorr P B ((st.core ++ [(n, m)]) ++ ext) ∧
        produceGraph P B ((st.core ++ [(n, m)]) ++ ext) = some R) ∧
      out.2.1.Pairwise (fun R1 R2 => R1.nodeB ≠ R2.nodeB) ∧
      (nodesToTake P ≤ depth → out.2.1.length ≤ 1) ∧
      (out.2.1 = [] → out.2.2 = depth) ∧
      (out.2.1 ≠ [] → nodesToTake P ≤ depth → out.2.2 = nodesToTake P) ∧
      (∀ m2 ext, m2 ∈ ms →
        FeasibleCorr P B ((st.core ++ [(n, m2)]) ++ ext) → out.2.1 ≠ []) := by
  intro ms
  induction ms with
  | nil =>
    intro out _ _ h
    rw [fsLoop] at h
    cases h
    refine ⟨rfl, ?_, List.Pairwise.nil, ?_, ?_, ?_, ?_⟩
    · intro R hR
      simp at hR
    · intro _
      simp
    · intro _
      rfl
    · intro hne _
      exact absurd rfl hne
    · intro m2 ext hm2 _
      simp at hm2
  | cons m ms ih =>
    intro out hnd hms h
    have hm := hms m (List.mem_cons_self _ _)
    have hms' : ∀ x ∈ ms, ¬ containsR st.core x = true ∧ x ∈ B.nodes :=
      fun x hx => hms x (List.mem_cons_of_mem _ hx)
    have hnf : containsL st.core n = false := (Bool.not_eq_true _) ▸ hn
    have hmf : containsR st.core m = false := (Bool.not_eq_true _) ▸ hm.1
    have hres : unassign P B (assign P B st n m depth) n m depth = st :=
      assign_unassign_restore P B st n m depth hnf hmf
        (fun p hp => Nat.ne_of_lt (hInv.2.2.2.1.2 p hp))
        (fun p hp => Nat.ne_of_lt (hInv.2.2.2.2.1.2 p hp))
        (fun p hp => Nat.ne_of_lt (hInv.2.2.2.2.2.1.2 p hp))
        (fun p hp => Nat.ne_of_lt (hInv.2.2.2.2.2.2.1.2 p hp))
    have hst1core : (assign P B st n m depth).core = st.core ++ [(n, m)] :=
      assign_core hn hm.1
    have hnl : n ∉ lefts st.core := fun hh => hn (containsL_iff.2 hh)
    rw [fsLoop] at h
    rcases hv : isValidMatching P B (assign P B st n m depth) n m with _ | b
    · simp only [hv] at h
      exact Option.noConfusion h
    rcases b with _ | _
    · -- the feasibility check rejected the pair: the loop continues
      simp only [hv] at h
      rw [hres] at h
      obtain ⟨c1, c2, c3, c4, c5, c6, c7⟩ := ih out hnd.of_cons hms' h
      refine ⟨c1, ?_, c3, c4, c5, c6, ?_⟩
      · intro R hR
        obtain ⟨m2, hm2, rest⟩ := c2 R hR
        exact ⟨m2, List.mem_cons_of_mem _ hm2, rest⟩
      · intro m2 ext hm2 hfc
        rcases List.mem_cons.1 hm2 with hm2e | hm2e
        · subst hm2e
          have hval := valid_of_feasible hwP hwB hst1core hfc
          rw [hv] at hval
          exact Bool.noConfusion (Option.some.inj hval)
        · exact c7 m2 ext hm2e hfc
    · -- the pair was accepted: recurse
      simp only [hv] at h
      have hparts := isValidMatching_true_parts hv
      have hedges := edges_ok_of_checks hwP hwB hst1core hnl hInv.2.2.1
        hparts.2
      have hInv1 : SInv P B (depth + 1) (assign P B st n m depth) :=
        SInv_assign hInv hn hm.1 hnP hm.2 hparts.1 hedges
      rcases hr : recur (assign P B st n m depth) with _ | trip
      · simp only [hr] at h
        exact Option.noConfusion h
      obtain ⟨st2, rs, next⟩ := trip
      simp only [hr] at h
      obtain ⟨cst, cres, cpw, clen, cemp, cnext, ccompl⟩ :=
        hrec (assign P B st n m depth) (st2, rs, next) hInv1 hr
      have cst' : st2 = assign P B st n m depth := cst
      by_cases hcond : next = nodesToTake P ∧ next ≤ depth
      · -- early unwind: the batch is returned as is
        rw [if_pos hcond] at h
        cases h
        obtain ⟨hc1, hc2⟩ := hcond
        have hrs_ne : rs ≠ [] := by
          intro hrs
          have hnx : next = depth + 1 := cemp hrs
          omega
        refine ⟨?_, ?_, cpw, ?_, ?_, ?_, ?_⟩
        · show unassign P B st2 n m depth = st
          rw [cst']
          exact hres
        · intro R hR
          obtain ⟨ext, hfc, hpr⟩ := cres R hR
          rw [hst1core] at hfc hpr
          exact ⟨m, List.mem_cons_self _ _, ext, hfc, hpr⟩
        · intro _
          exact clen (Nat.le_succ_of_le (hc1 ▸ hc2))
        · intro hrs
          exact absurd hrs hrs_ne
        · intro _ _
          exact hc1
        · intro m2 ext _ _
          exact hrs_ne
      · -- no unwind: continue with the remaining candidates
        rw [if_neg hcond] at h
        have hunas : unassign P B st2 n m depth = st := by
          rw [cst']
          exact hres
        rw [hunas] at h
        rcases hloop : fsLoop P B recur (nodesToTake P) depth n ms st
          with _ | trip2
        · simp only [hloop] at h
          exact Option.noConfusion h
        obtain ⟨st3, rs2, r⟩ := trip2
        simp only [hloop] at h
        cases h
        obtain ⟨c1, c2, c3, c4, c5, c6, c7⟩ := ih (st3, rs2, r) hnd.of_cons
          hms' hloop
        have hhid_rs : nodesToTake P ≤ depth → rs = [] := by
          intro hle
          by_contra hne
          have hnx : next = nodesToTake P := cnext hne (Nat.le_succ_of_le hle)
          exact hcond ⟨hnx, by omega⟩
        refine ⟨c1, ?_, ?_, ?_, ?_, ?_, ?_⟩
        · intro R hR
          rcases List.mem_append.1 hR with hR | hR
          · obtain ⟨ext, hfc, hpr⟩ := cres R hR
            rw [hst1core] at hfc hpr
            exact ⟨m, List.mem_cons_self _ _, ext, hfc, hpr⟩
          · obtain ⟨m2, hm2, rest⟩ := c2 R hR
            exact ⟨m2, List.mem_cons_of_mem _ hm2, rest⟩
        · show (rs ++ rs2).Pairwise (fun R1 R2 => R1.nodeB ≠ R2.nodeB)
          rw [List.pairwise_append]
          refine ⟨cpw, c3, ?_⟩
          intro R1 hR1 R2 hR2
          by_cases hvis : depth < nodesToTake P
          · obtain ⟨ext1, hfc1, hpr1⟩ := cres R1 hR1
            rw [hst1core] at hfc1 hpr1
            obtain ⟨m2, hm2, ext2, hfc2, hpr2⟩ := c2 R2 hR2
            have hmm2 : m ≠ m2 := fun hh =>
              (List.nodup_cons.1 hnd).1 (hh ▸ hm2)
            have hnd1 : (lefts ((st.core ++ [(n, m)]) ++ ext1)).Nodup :=
              hfc1.1.nodup_iff.2 hwP.1
            have hnd2 : (lefts ((st.core ++ [(n, m2)]) ++ ext2)).Nodup :=
              hfc2.1.nodup_iff.2 hwP.1
            have hb1 := nodeB_eq_filter hnd1 hpr1
            have hb2 := nodeB_eq_filter hnd2 hpr2
            intro hEq
            have hmem1 : ((n, m) : Nat × Nat) ∈ R1.nodeB := by
              rw [hb1]
              refine List.mem_filter.2 ⟨?_, hvisn hvis⟩
              exact List.mem_append.2 (Or.inl (List.mem_append.2 (Or.inr
                (by simp))))
            have hmem2 : ((n, m) : Nat × Nat) ∈ (st.core ++ [(n, m2)]) ++ ext2 := by
              have hmR2 : ((n, m) : Nat × Nat) ∈ R2.nodeB := hEq ▸ hmem1
              rw [hb2] at hmR2
              exact (List.mem_filter.1 hmR2).1
            have hl1 : alookup ((st.core ++ [(n, m2)]) ++ ext2) n = some m :=
              alookup_of_mem hnd2 hmem2
            have hl2 : alookup ((st.core ++ [(n, m2)]) ++ ext2) n = some m2 :=
              alookup_of_mem hnd2 (List.mem_append.2 (Or.inl
                (List.mem_append.2 (Or.inr (by simp)))))
            rw [hl1] at hl2
            exact hmm2 (Option.some.inj hl2)
          · have hrs0 : rs = [] := hhid_rs (Nat.le_of_not_lt hvis)
            rw [hrs0] at hR1
            simp at hR1
        · intro hle
          have hrs0 : rs = [] := hhid_rs hle
          show (rs ++ rs2).length ≤ 1
          rw [hrs0]
          simpa using c4 hle
        · intro hemp
          exact c5 (List.append_eq_nil.1 hemp).2
        · intro hne hle
          have hrs0 : rs = [] := hhid_rs hle
          rw [hrs0] at hne
          simp only [List.nil_append] at hne
          exact c6 hne hle
        · intro m2 ext hm2 hfc
          rcases List.mem_cons.1 hm2 with hm2e | hm2e
          · subst hm2e
            have hFE : FeasibleExt P B (st.core ++ [(n, m2)]) := ⟨ext, hfc⟩
            rw [← hst1core] at hFE
            have hrsne := ccompl hFE
            intro hh
            exact hrsne (List.append_eq_nil.1 hh).1
          · have hrs2ne := c7 m2 ext hm2e hfc
            intro hh
            exact hrs2ne (List.append_eq_nil.1 hh).2

theorem findSubgraphs_concl {P : PGraph NW EW} {B : FGraph NW EW}
    {ord : List Nat → List Nat} (hwP : wfG P) (hwB : wfG B)
    (hord : ∀ l, (ord l).Perm l) :
    ∀ fuel depth st out, SInv P B depth st →
      findSubgraphs P B ord (nodesToTake P) fuel depth st = some out →
      FsConcl P B (nodesToTake P) depth st out := by
  intro fuel
  induction fuel with
  | zero =>
    intro depth st out _ h
    rw [show findSubgraphs P B ord (nodesToTake P) 0 depth st = none from rfl]
      at h
    exact Option.noConfusion h
  | succ fuel ih =>
    intro depth st out hInv h
    rw [findSubgraphs] at h
    by_cases hdep : depth = P.countNodes
    · rw [if_pos hdep] at h
      rcases hpg : produceGraph P B st.core with _ | r
      · simp only [hpg] at h
        exact Option.noConfusion h
      · simp only [hpg] at h
        cases h
        have hfc : FeasibleCorr P B st.core :=
          FeasibleCorr_of_SInv_full (hdep ▸ hInv)
        refine ⟨rfl, ?_, ?_, ?_, ?_, ?_, ?_⟩
        · intro R hR
          have hRr : R = r := by simpa using hR
          subst hRr
          refine ⟨[], ?_, ?_⟩
          · rw [List.append_nil]
            exact hfc
          · rw [List.append_nil]
            exact hpg
        · refine List.Pairwise.cons ?_ List.Pairwise.nil
          intro b hb
          simp at hb
        · intro _
          simp
        · intro hh
          simp at hh
        · intro _ _
          rfl
        · intro _
          simp
    · rw [if_neg hdep] at h
      rcases hsel : selectCandidates P B st (decide (nodesToTake P ≤ depth)) ord
        with ⟨n0, cands⟩
      rcases n0 with _ | n
      · simp only [hsel] at h
        exact Option.noConfusion h
      · simp only [hsel] at h
        obtain ⟨hunm, hnP, hvisn, hcnd, hcands, hcompl⟩ :=
          selectCandidates_spec hwP hwB hord hInv hsel
        obtain ⟨l1, l2, l3, l4, l5, l6, l7⟩ :=
          fsLoop_concl hwP hwB (findSubgraphs P B ord (nodesToTake P) fuel
              (depth + 1))
            (fun st1 out1 hi hh => ih (depth + 1) st1 out1 hi hh)
            hnP hvisn hInv hunm cands out hcnd hcands h
        refine ⟨l1, ?_, l3, l4, l5, l6, ?_⟩
        · intro R hR
          obtain ⟨m, hm, ext, hfc, hpr⟩ := l2 R hR
          refine ⟨(n, m) :: ext, ?_, ?_⟩
          · rw [List.append_cons]
            exact hfc
          · rw [List.append_cons]
            exact hpr
        · rintro ⟨ext0, hfe⟩
          have hnmem : n ∈ lefts (st.core ++ ext0) := hfe.1.mem_iff.2 hnP
          obtain ⟨m2, hm2⟩ := alookup_isSome hnmem
          have hm2c : m2 ∈ cands := hcompl ext0 m2 hfe hm2
          have hnm2 : ((n, m2) : Nat × Nat) ∈ ext0 := by
            rcases List.mem_append.1 (alookup_mem hm2) with hh | hh
            · exact absurd (containsL_iff.2 (mem_lefts_of_mem hh)) hunm
            · exact hh
          have hperm := List.Perm.append_left st.core (List.perm_cons_erase hnm2)
          rw [List.append_cons] at hperm
          exact l7 m2 _ hm2c (FeasibleCorr_perm hwP hfe hperm)

/-! ### The result properties extracted from a produced match -/

theorem produce_props {P : PGraph NW EW} {B : FGraph NW EW}
    (hwP : wfG P) (hwB : wfG B) {μ : List (Nat × Nat)} {R : MatchRes}
    (hfc : FeasibleCorr P B μ) (hpr : produceGraph P B μ = some R) :
    (∀ x, x ∈ lefts R.nodeB ↔ x ∈ P.nodes ∧ (P.nodeW x).shouldAppear = true) ∧
    (∀ p ∈ R.nodeB, alookup μ p.1 = some p.2 ∧
      (P.nodeW p.1).mayMatch (B.nodeW p.2) = true) ∧
    (∀ x, x ∈ lefts R.edgeB ↔ ∃ t ∈ P.edges, t.1 = x ∧
      (P.edgeW x).shouldAppear = true) ∧
    (∀ q ∈ R.edgeB, ∃ t ∈ P.edges, t.1 = q.1 ∧
      (P.edgeW q.1).shouldAppear = true ∧ ∃ mu mv,
      alookup μ t.2.1 = some mu ∧ alookup μ t.2.2 = some mv ∧
      (∃ t2 ∈ B.edges, t2.1 = q.2 ∧ t2.2.1 = mu ∧ t2.2.2 = mv) ∧
      (P.edgeW q.1).mayMatch (B.edgeW q.2) = true) := by
  have hndl : (lefts μ).Nodup := hfc.1.nodup_iff.2 hwP.1
  have hb := nodeB_eq_filter hndl hpr
  obtain ⟨-, el, hel, heB⟩ := produceGraph_parts hpr
  refine ⟨?_, ?_, ?_, ?_⟩
  · intro x
    rw [hb]
    constructor
    · intro hx
      obtain ⟨p, hp, he⟩ := mem_lefts_iff.1 hx
      rw [List.mem_filter] at hp
      subst he
      exact ⟨hfc.1.mem_iff.1 (mem_lefts_of_mem hp.1), hp.2⟩
    · rintro ⟨hxP, hvis⟩
      obtain ⟨p, hp, he⟩ := mem_lefts_iff.1 (hfc.1.mem_iff.2 hxP)
      refine mem_lefts_iff.2 ⟨p, List.mem_filter.2 ⟨hp, ?_⟩, he⟩
      rw [he]
      exact hvis
  · intro p hp
    rw [hb, List.mem_filter] at hp
    exact ⟨alookup_of_mem hndl hp.1, (hfc.2.2.1 p hp.1).2⟩
  · intro x
    rw [heB]
    constructor
    · intro hx
      obtain ⟨q, hq, he⟩ := mem_lefts_iff.1 (lefts_hmCollect_iff.1 hx)
      obtain ⟨nm, hnm, t, ht, ht1, htsrc, hvis, -⟩ :=
        produceEdges_sound hwP hel q hq
      refine ⟨t, ht, by rw [ht1, he], ?_⟩
      rw [← he, ← ht1]
      exact hvis
    · rintro ⟨t, ht, hteq, hvis⟩
      obtain ⟨nm, hnm, hne⟩ := mem_lefts_iff.1
        (hfc.1.mem_iff.2 (hwP.2.2 t ht).1)
      obtain ⟨f, hf⟩ := produceEdges_covers hwP hel t ht
        (by rw [hteq]; exact hvis) nm hnm hne.symm
      refine lefts_hmCollect_iff.2 ?_
      rw [← hteq]
      exact mem_lefts_of_mem hf
  · intro q hq
    rw [heB] at hq
    obtain ⟨nm, hnm, t, ht, ht1, htsrc, hvis, mv, hmv, hrep⟩ :=
      produceEdges_sound hwP hel q (mem_hmCollect_sub hq)
    have hmu : alookup μ t.2.1 = some nm.2 := by
      rw [htsrc]
      exact alookup_of_mem hndl hnm
    obtain ⟨f2, hf2, hpred⟩ := hfc.2.2.2 t ht nm.2 mv hmu hmv
    have hfq : q.2 = f2 := by
      rw [hrep] at hf2
      exact Option.some.inj hf2
    obtain ⟨t2, ht2, ht2f, ht2s, ht2d⟩ := repEdge_some_mem hwB hrep
    refine ⟨t, ht, ht1, by rw [← ht1]; exact hvis, nm.2, mv, hmu, hmv,
      ⟨t2, ht2, ht2f, ht2s, ht2d⟩, ?_⟩
    rw [← ht1, hfq]
    exact hpred

/-! ### Claim theorems C1, C3 and C10 -/

/-- C1: for well-formed pattern and base graphs, every matched graph
`R` returned by `eval(P, B)` is produced from a complete feasible
correspondence `μ`: `R` contains exactly the visible nodes and exactly
the visible edges of `P`; `μ` is injective (duplicate-free on its base
side); every visible node is bound to its image `μ(n)`, whose weight
satisfies the node predicate; and every visible edge `(u, v)` is bound
to a base edge running from `μ(u)` to `μ(v)` whose weight satisfies the
edge predicate. -/
theorem C1_result_wellformed {P : PGraph NW EW} {B : FGraph NW EW}
    {ord : List Nat → List Nat} (hwP : wfG P) (hwB : wfG B)
    (hord : ∀ l, (ord l).Perm l) {rs : List MatchRes}
    (h : evalVf ord P B = some rs) :
    ∀ R ∈ rs, ∃ μ, FeasibleCorr P B μ ∧ (rights μ).Nodup ∧
      (∀ x, x ∈ lefts R.nodeB ↔ x ∈ P.nodes ∧
        (P.nodeW x).shouldAppear = true) ∧
      (∀ p ∈ R.nodeB, alookup μ p.1 = some p.2 ∧
        (P.nodeW p.1).mayMatch (B.nodeW p.2) = true) ∧
      (∀ x, x ∈ lefts R.edgeB ↔ ∃ t ∈ P.edges, t.1 = x ∧
        (P.edgeW x).shouldAppear = true) ∧
      (∀ q ∈ R.edgeB, ∃ t ∈ P.edges, t.1 = q.1 ∧
        (P.edgeW q.1).shouldAppear = true ∧ ∃ mu mv,
        alookup μ t.2.1 = some mu ∧ alookup μ t.2.2 = some mv ∧
        (∃ t2 ∈ B.edges, t2.1 = q.2 ∧ t2.2.1 = mu ∧ t2.2.2 = mv) ∧
        (P.edgeW q.1).mayMatch (B.edgeW q.2) = true) := by
  rw [evalVf, runQuery] at h
  by_cases hearly : (P.isEmptyGraph || decide (B.countNodes < P.countNodes) ||
      decide (B.countEdges < P.countEdges)) = true
  · rw [if_pos hearly] at h
    cases h
    intro R hR
    simp at hR
  · rw [if_neg hearly] at h
    rcases hfs : findSubgraphs P B ord (nodesToTake P) (P.countNodes + 1) 0
        initSt with _ | trip
    · simp only [hfs] at h
      exact Option.noConfusion h
    obtain ⟨stf, rs0, nf⟩ := trip
    simp only [hfs] at h
    cases h
    obtain ⟨-, f2, -⟩ := findSubgraphs_concl hwP hwB hord (P.countNodes + 1)
      0 initSt _ SInv_init hfs
    intro R hR
    obtain ⟨ext, hfc, hpr⟩ := f2 R hR
    have hfc2 : FeasibleCorr P B ([] ++ ext) := hfc
    have hpr2 : produceGraph P B ([] ++ ext) = some R := hpr
    rw [List.nil_append] at hfc2 hpr2
    obtain ⟨p1, p2, p3, p4⟩ := produce_props hwP hwB hfc2 hpr2
    exact ⟨ext, hfc2, hfc2.2.1, p1, p2, p3, p4⟩

/-- Witness for C1 at the one-node pattern `P5` over the one-node base
`B5`: the single result binds pattern node 0 to base node 0. -/
theorem C1_result_wellformed_witness :
    ∃ μ, FeasibleCorr P5 B5 μ ∧ (rights μ).Nodup ∧
      (∀ x, x ∈ lefts (⟨[(0, 0)], []⟩ : MatchRes).nodeB ↔ x ∈ P5.nodes ∧
        (P5.nodeW x).shouldAppear = true) ∧
      (∀ p ∈ (⟨[(0, 0)], []⟩ : MatchRes).nodeB, alookup μ p.1 = some p.2 ∧
        (P5.nodeW p.1).mayMatch (B5.nodeW p.2) = true) ∧
      (∀ x, x ∈ lefts (⟨[(0, 0)], []⟩ : MatchRes).edgeB ↔ ∃ t ∈ P5.edges,
        t.1 = x ∧ (P5.edgeW x).shouldAppear = true) ∧
      (∀ q ∈ (⟨[(0, 0)], []⟩ : MatchRes).edgeB, ∃ t ∈ P5.edges, t.1 = q.1 ∧
        (P5.edgeW q.1).shouldAppear = true ∧ ∃ mu mv,
        alookup μ t.2.1 = some mu ∧ alookup μ t.2.2 = some mv ∧
        (∃ t2 ∈ B5.edges, t2.1 = q.2 ∧ t2.2.1 = mu ∧ t2.2.2 = mv) ∧
        (P5.edgeW q.1).mayMatch (B5.edgeW q.2) = true) :=
  C1_result_wellformed (by unfold wfG; decide) (by unfold wfG; decide)
    (fun l => List.Perm.refl l)
    (show evalVf id P5 B5 = some [(⟨[(0, 0)], []⟩ : MatchRes)] from by decide)
    ⟨[(0, 0)], []⟩ (by decide)

/-- C3: the results of `eval(P, B)` are pairwise distinct in their
visible-node binding maps: no two returned matches restrict to the same
correspondence on the visible pattern nodes. -/
theorem C3_results_distinct {P : PGraph NW EW} {B : FGraph NW EW}
    {ord : List Nat → List Nat} (hwP : wfG P) (hwB : wfG B)
    (hord : ∀ l, (ord l).Perm l) {rs : List MatchRes}
    (h : evalVf ord P B = some rs) :
    rs.Pairwise (fun R1 R2 => R1.nodeB ≠ R2.nodeB) := by
  rw [evalVf, runQuery] at h
  by_cases hearly : (P.isEmptyGraph || decide (B.countNodes < P.countNodes) ||
      decide (B.countEdges < P.countEdges)) = true
  · rw [if_pos hearly] at h
    cases h
    exact List.Pairwise.nil
  · rw [if_neg hearly] at h
    rcases hfs : findSubgraphs P B ord (nodesToTake P) (P.countNodes + 1) 0
        initSt with _ | trip
    · simp only [hfs] at h
      exact Option.noConfusion h
    obtain ⟨stf, rs0, nf⟩ := trip
    simp only [hfs] at h
    cases h
    exact (findSubgraphs_concl hwP hwB hord (P.countNodes + 1) 0 initSt
      _ SInv_init hfs).2.2.1

/-- Witness for C3 at the one-edge pattern `P7` over the complete
triangle `B7`: the six returned matches have pairwise distinct
visible-node maps. -/
theorem C3_results_distinct_witness :
    List.Pairwise (fun R1 R2 => R1.nodeB ≠ R2.nodeB)
      [(⟨[(0, 0), (1, 1)], [(0, 0)]⟩ : MatchRes),
       ⟨[(0, 0), (1, 2)], [(0, 1)]⟩, ⟨[(0, 1), (1, 0)], [(0, 2)]⟩,
       ⟨[(0, 1), (1, 2)], [(0, 3)]⟩, ⟨[(0, 2), (1, 0)], [(0, 4)]⟩,
       ⟨[(0, 2), (1, 1)], [(0, 5)]⟩] :=
  C3_results_distinct (by unfold wfG; decide) (by unfold wfG; decide)
    (fun l => List.Perm.refl l)
    (show evalVf id P7 B7 = some
      [(⟨[(0, 0), (1, 1)], [(0, 0)]⟩ : MatchRes),
       ⟨[(0, 0), (1, 2)], [(0, 1)]⟩, ⟨[(0, 1), (1, 0)], [(0, 2)]⟩,
       ⟨[(0, 1), (1, 2)], [(0, 3)]⟩, ⟨[(0, 2), (1, 0)], [(0, 4)]⟩,
       ⟨[(0, 2), (1, 1)], [(0, 5)]⟩] from by decide)

/-- C10 (amended): for a builder-valid well-formed pattern with at
least one node in which every node is hidden, and a well-formed base
graph with at least as many edges as the pattern, a normally-returning
`eval` returns at most one result; it returns exactly one result if and
only if a complete feasible correspondence exists; and the single
result has empty node and edge maps. -/
theorem C10_all_hidden_eval {P : PGraph NW EW} {B : FGraph NW EW}
    {ord : List Nat → List Nat} (hwP : wfG P) (hwB : wfG B)
    (hord : ∀ l, (ord l).Perm l) (hpv : patternValid P)
    (hnn : P.nodes ≠ [])
    (hhid : ∀ x ∈ P.nodes, (P.nodeW x).shouldAppear = false)
    (hcnt : P.countEdges ≤ B.countEdges)
    {rs : List MatchRes} (h : evalVf ord P B = some rs) :
    rs.length ≤ 1 ∧
    (rs ≠ [] ↔ ∃ μ, FeasibleCorr P B μ) ∧
    (∀ R ∈ rs, R.nodeB = [] ∧ R.edgeB = []) := by
  have hntt : nodesToTake P = 0 := by
    rw [nodesToTake, List.filter_eq_nil_iff.2 ?_]
    · rfl
    · intro a ha
      rw [hhid a ha]
      simp
  have hehid := edges_hidden_of_nodes_hidden hwP hpv hhid
  rw [evalVf, runQuery] at h
  by_cases hbn : B.countNodes < P.countNodes
  · have hearly : (P.isEmptyGraph || decide (B.countNodes < P.countNodes) ||
        decide (B.countEdges < P.countEdges)) = true := by
      simp [hbn]
    rw [if_pos hearly] at h
    cases h
    refine ⟨by simp, ?_, ?_⟩
    · constructor
      · intro hh
        exact absurd rfl hh
      · rintro ⟨μ, hfc⟩
        exfalso
        have h1 : (lefts μ).length = P.nodes.length := hfc.1.length_eq
        have hsub : rights μ ⊆ B.nodes := by
          intro y hy
          obtain ⟨p, hp, he⟩ := List.mem_map.1 hy
          exact he ▸ (hfc.2.2.1 p hp).1
        have h2 : (rights μ).length ≤ B.nodes.length :=
          (List.subperm_of_subset hfc.2.1 hsub).length_le
        rw [lefts_length] at h1
        have h3 : (rights μ).length = μ.length := List.length_map _ _
        rw [FGraph.countNodes, FGraph.countNodes] at hbn
        omega
    · intro R hR
      simp at hR
  · have hpe : P.isEmptyGraph = false := by
      rw [FGraph.isEmptyGraph]
      simp only [decide_eq_false_iff_not, FGraph.countNodes]
      intro hh
      exact hnn (List.length_eq_zero.1 hh)
    have hcond : (P.isEmptyGraph || decide (B.countNodes < P.countNodes) ||
        decide (B.countEdges < P.countEdges)) = false := by
      rw [hpe]
      simp only [Bool.false_or, Bool.or_eq_false_iff,
        decide_eq_false_iff_not]
      exact ⟨hbn, Nat.not_lt.2 hcnt⟩
    rw [if_neg (fun hh => Bool.noConfusion (hcond ▸ hh))] at h
    rcases hfs : findSubgraphs P B ord (nodesToTake P) (P.countNodes + 1) 0
        initSt with _ | trip
    · simp only [hfs] at h
      exact Option.noConfusion h
    obtain ⟨stf, rs0, nf⟩ := trip
    simp only [hfs] at h
    cases h
    obtain ⟨f1, f2, f3, f4, f5, f6, f7⟩ := findSubgraphs_concl hwP hwB hord
      (P.countNodes + 1) 0 initSt _ SInv_init hfs
    refine ⟨f4 (Nat.le_of_eq hntt), ?_, ?_⟩
    · constructor
      · intro hne0
        obtain ⟨R, hR⟩ := List.exists_mem_of_ne_nil _ hne0
        obtain ⟨ext, hfc, -⟩ := f2 R hR
        have hfc2 : FeasibleCorr P B ([] ++ ext) := hfc
        rw [List.nil_append] at hfc2
        exact ⟨ext, hfc2⟩
      · rintro ⟨μ, hfc⟩
        refine f7 ⟨μ, ?_⟩
        show FeasibleCorr P B ([] ++ μ)
        rw [List.nil_append]
        exact hfc
    · intro R hR
      obtain ⟨ext, hfc, hpr⟩ := f2 R hR
      have hfc2 : FeasibleCorr P B ([] ++ ext) := hfc
      have hpr2 : produceGraph P B ([] ++ ext) = some R := hpr
      rw [List.nil_append] at hfc2 hpr2
      have hsub : ∀ p ∈ ext, p.1 ∈ P.nodes := fun p hp =>
        hfc2.1.mem_iff.1 (mem_lefts_of_mem hp)
      rw [produceGraph_all_hidden hhid hehid hsub] at hpr2
      have hRe : (⟨[], []⟩ : MatchRes) = R := Option.some.inj hpr2
      rw [← hRe]
      exact ⟨rfl, rfl⟩

/-- Witness for the amended C10 at the all-hidden one-node pattern
`P11` over the two-node base `B11`: exactly one result, with empty
maps. -/
theorem C10_all_hidden_eval_witness :
    ([(⟨[], []⟩ : MatchRes)].length ≤ 1) ∧
    (([(⟨[], []⟩ : MatchRes)] : List MatchRes) ≠ [] ↔
      ∃ μ, FeasibleCorr P11 B11 μ) ∧
    (∀ R ∈ [(⟨[], []⟩ : MatchRes)], R.nodeB = [] ∧ R.edgeB = []) :=
  C10_all_hidden_eval (by unfold wfG; decide) (by unfold wfG; decide)
    (fun l => List.Perm.refl l) (by unfold patternValid; decide) (by decide)
    (by decide) (by decide)
    (show evalVf id P11 B11 = some [(⟨[], []⟩ : MatchRes)] from by decide)

/-! ### Hash-order independence of the search -/

theorem perm_isEmpty {l1 l2 : List Nat} (h : l1.Perm l2) :
    l1.isEmpty = l2.isEmpty := by
  rcases l1 with _ | ⟨a, l1⟩
  · rw [h.symm.eq_nil]
  · rcases l2 with _ | ⟨b, l2⟩
    · exact absurd h.eq_nil (by simp)
    · rfl

theorem VisInv_init {P : PGraph NW EW} : VisInv P 0 [] := by
  constructor
  · intro _ p hp
    simp at hp
  · intro h0 x hxP hxv
    have hn0 : nodesToTake P = 0 := Nat.le_zero.1 h0
    rw [nodesToTake] at hn0
    have hfil : P.nodes.filter (fun n => (P.nodeW n).shouldAppear) = [] :=
      List.length_eq_zero.1 hn0
    have : x ∈ P.nodes.filter (fun n => (P.nodeW n).shouldAppear) :=
      List.mem_filter.2 ⟨hxP, hxv⟩
    rw [hfil] at this
    simp at this

theorem VisInv_step {P : PGraph NW EW} {depth : Nat} {core : List (Nat × Nat)}
    {n m : Nat} (hvi : VisInv P depth core)
    (hlen : core.length = depth) (hnd : (lefts core).Nodup)
    (hsub : ∀ p ∈ core, p.1 ∈ P.nodes)
    (hnn : n ∉ lefts core) (hnP : n ∈ P.nodes)
    (hvisn : depth < nodesToTake P → (P.nodeW n).shouldAppear = true) :
    VisInv P (depth + 1) (core ++ [(n, m)]) := by
  have hallvis : depth + 1 ≤ nodesToTake P →
      ∀ p ∈ core ++ [(n, m)], (P.nodeW p.1).shouldAppear = true := by
    intro hle p hp
    rcases List.mem_append.1 hp with hp | hp
    · exact hvi.1 (by omega) p hp
    · have hpe : p = (n, m) := by simpa using hp
      rw [hpe]
      exact hvisn (by omega)
  constructor
  · exact hallvis
  · intro hge x hxP hxv
    rcases Nat.lt_or_ge depth (nodesToTake P) with hlt | hge2
    · -- the boundary step: nodesToTake = depth + 1 and counting closes the set
      have heq : nodesToTake P = depth + 1 := by omega
      have hsubf : lefts (core ++ [(n, m)]) ⊆
          P.nodes.filter (fun y => (P.nodeW y).shouldAppear) := by
        intro y hy
        obtain ⟨p, hp, hpe⟩ := mem_lefts_iff.1 hy
        refine List.mem_filter.2 ⟨?_, ?_⟩
        · rcases List.mem_append.1 hp with hp | hp
          · exact hpe ▸ hsub p hp
          · have : p = (n, m) := by simpa using hp
            rw [← hpe, this]
            exact hnP
        · rw [← hpe]
          exact hallvis (Nat.le_of_eq heq.symm) p hp
      have hndl : (lefts (core ++ [(n, m)])).Nodup := by
        rw [lefts_append, List.nodup_append]
        refine ⟨hnd, by simp [lefts], ?_⟩
        intro y hy hz
        have : y = n := by simpa [lefts] using hz
        exact hnn (this ▸ hy)
      have hlel := (List.subperm_of_subset hndl hsubf).length_le
      have hlperm : (lefts (core ++ [(n, m)])).Perm
          (P.nodes.filter (fun y => (P.nodeW y).shouldAppear)) := by
        refine (List.subperm_of_subset hndl hsubf).perm_of_length_le ?_
        rw [lefts_length, List.length_append, hlen]
        rw [nodesToTake] at heq
        simp [heq]
      rw [hlperm.mem_iff]
      exact List.mem_filter.2 ⟨hxP, hxv⟩
    · have := hvi.2 hge2 x hxP hxv
      rw [lefts_append]
      exact List.mem_append.2 (Or.inl this)

theorem selectCandidates_congr {P : PGraph NW EW} {B : FGraph NW EW} {st : VfSt}
    {fi : Bool} {ord1 ord2 : List Nat → List Nat}
    (hord1 : ∀ l, (ord1 l).Perm l) (hord2 : ∀ l, (ord2 l).Perm l) :
    (selectCandidates P B st fi ord1).1 = (selectCandidates P B st fi ord2).1 ∧
    (selectCandidates P B st fi ord1).2.Perm
      (selectCandidates P B st fi ord2).2 := by
  have hp : ∀ l, (ord1 l).Perm (ord2 l) :=
    fun l => (hord1 l).trans (hord2 l).symm
  have hfun : ∀ patMap baseMap : List (Nat × Nat),
      (findUnmatchedNeighbors P st patMap baseMap fi ord1).1 =
        (findUnmatchedNeighbors P st patMap baseMap fi ord2).1 :=
    fun _ _ => rfl
  have hsnd : ∀ patMap baseMap : List (Nat × Nat),
      (findUnmatchedNeighbors P st patMap baseMap fi ord1).2.Perm
        (findUnmatchedNeighbors P st patMap baseMap fi ord2).2 :=
    fun _ b => hp _
  have hemp : ∀ patMap baseMap : List (Nat × Nat),
      (findUnmatchedNeighbors P st patMap baseMap fi ord1).2.isEmpty =
        (findUnmatchedNeighbors P st patMap baseMap fi ord2).2.isEmpty :=
    fun p b => perm_isEmpty (hsnd p b)
  simp only [selectCandidates]
  rw [hfun st.out1 st.out2, hemp st.out1 st.out2]
  by_cases hc1 : ((findUnmatchedNeighbors P st st.out1 st.out2 fi ord2).1.isNone ||
      (findUnmatchedNeighbors P st st.out1 st.out2 fi ord2).2.isEmpty) = true
  · rw [if_pos hc1, if_pos hc1]
    rw [hfun st.in1 st.in2, hemp st.in1 st.in2]
    by_cases hc2 : ((findUnmatchedNeighbors P st st.in1 st.in2 fi ord2).1.isNone ||
        (findUnmatchedNeighbors P st st.in1 st.in2 fi ord2).2.isEmpty) = true
    · rw [if_pos hc2, if_pos hc2]
      exact ⟨rfl, List.Perm.refl _⟩
    · rw [if_neg hc2, if_neg hc2]
      exact ⟨hfun st.in1 st.in2, hsnd st.in1 st.in2⟩
  · rw [if_neg hc1, if_neg hc1]
    exact ⟨hfun st.out1 st.out2, hsnd st.out1 st.out2⟩

theorem nSuccsVisible_nil_of_hidden {P : PGraph NW EW} (hwP : wfG P)
    (hpv : patternValid P) {n : Nat}
    (hn : ¬ (P.nodeW n).shouldAppear = true) :
    nSuccsVisible P n = [] := by
  rcases hq : nSuccsVisible P n with _ | ⟨q, l⟩
  · rfl
  · exfalso
    have hqm : q ∈ nSuccsVisible P n := by
      rw [hq]
      exact List.mem_cons_self _ _
    obtain ⟨t, ht, -, hsrc, -, hvis⟩ := (mem_nSuccsVisible_iff hwP).1 hqm
    exact hn (hsrc ▸ (hpv t ht hvis).1)

theorem produceEdges_some_nil {P : PGraph NW EW} {B : FGraph NW EW}
    {μ : List (Nat × Nat)} :
    ∀ l : List (Nat × Nat), (∀ nm ∈ l, nSuccsVisible P nm.1 = []) →
    produceEdges P B μ l = some [] := by
  intro l
  induction l with
  | nil => intro _; rfl
  | cons nm l ih =>
    intro h
    obtain ⟨n, m⟩ := nm
    have hn : nSuccsVisible P n = [] := h (n, m) (List.mem_cons_self _ _)
    rw [produceEdges, hn]
    show (match some ([] : List (Nat × Nat)) with
      | none => none
      | some bs => match produceEdges P B μ l with
        | none => none
        | some l2 => some (bs ++ l2)) = some []
    rw [ih (fun nm2 hnm2 => h nm2 (List.mem_cons_of_mem _ hnm2))]
    rfl

theorem bindEdgeList_congr {P : PGraph NW EW} {B : FGraph NW EW}
    {μ1 μ2 ms : List (Nat × Nat)} :
    ∀ l2 : List (Nat × Nat), (∀ p ∈ l2, alookup μ1 p.1 = alookup μ2 p.1) →
    bindEdgeList P B μ1 ms l2 = bindEdgeList P B μ2 ms l2 := by
  intro l2
  induction l2 with
  | nil => intro _; rfl
  | cons p l2 ih =>
    intro h
    obtain ⟨w, e⟩ := p
    have hw : alookup μ1 w = alookup μ2 w := h (w, e) (List.mem_cons_self _ _)
    rw [bindEdgeList, bindEdgeList, hw,
      ih (fun q hq => h q (List.mem_cons_of_mem _ hq))]

theorem produceEdges_congr {P : PGraph NW EW} {B : FGraph NW EW}
    {μ1 μ2 : List (Nat × Nat)} :
    ∀ l : List (Nat × Nat),
    (∀ nm ∈ l, ∀ p ∈ nSuccsVisible P nm.1, alookup μ1 p.1 = alookup μ2 p.1) →
    produceEdges P B μ1 l = produceEdges P B μ2 l := by
  intro l
  induction l with
  | nil => intro _; rfl
  | cons nm l ih =>
    intro h
    obtain ⟨n, m⟩ := nm
    have hb : bindEdgeList P B μ1 (mSuccsAll B m) (nSuccsVisible P n) =
        bindEdgeList P B μ2 (mSuccsAll B m) (nSuccsVisible P n) :=
      bindEdgeList_congr _ (fun p hp => h (n, m) (List.mem_cons_self _ _) p hp)
    rw [produceEdges, produceEdges, hb,
      ih (fun nm2 hnm2 => h nm2 (List.mem_cons_of_mem _ hnm2))]

theorem produceEdges_append {P : PGraph NW EW} {B : FGraph NW EW}
    {μ : List (Nat × Nat)} : ∀ l1 l2 : List (Nat × Nat),
    produceEdges P B μ (l1 ++ l2) =
      match produceEdges P B μ l1, produceEdges P B μ l2 with
      | some a, some b => some (a ++ b)
      | _, _ => none := by
  intro l1 l2
  induction l1 with
  | nil =>
    rcases h2 : produceEdges P B μ l2 with _ | b
    · rw [List.nil_append, h2]
      rfl
    · rw [List.nil_append, h2]
      rfl
  | cons nm l1 ih =>
    obtain ⟨n, m⟩ := nm
    rcases hb : bindEdgeList P B μ (mSuccsAll B m) (nSuccsVisible P n) with _ | bs
    · have hl : produceEdges P B μ ((n, m) :: (l1 ++ l2)) = none := by
        rw [produceEdges, hb]
      have hr : produceEdges P B μ ((n, m) :: l1) = none := by
        rw [produceEdges, hb]
      rw [List.cons_append, hl, hr]
    · have hl : produceEdges P B μ ((n, m) :: (l1 ++ l2)) =
          match produceEdges P B μ (l1 ++ l2) with
          | none => none
          | some l3 => some (bs ++ l3) := by
        rw [produceEdges, hb]
      have hr : produceEdges P B μ ((n, m) :: l1) =
          match produceEdges P B μ l1 with
          | none => none
          | some l3 => some (bs ++ l3) := by
        rw [produceEdges, hb]
      rw [List.cons_append, hl, hr, ih]
      rcases hp1 : produceEdges P B μ l1 with _ | a
      · rfl
      · rcases hp2 : produceEdges P B μ l2 with _ | b
        · rfl
        · show some (bs ++ (a ++ b)) = some ((bs ++ a) ++ b)
          rw [List.append_assoc]

theorem produceGraph_ext_indep {P : PGraph NW EW} {B : FGraph NW EW}
    (hwP : wfG P) (hpv : patternValid P)
    {c e1 e2 : List (Nat × Nat)}
    (hvm : ∀ x ∈ P.nodes, (P.nodeW x).shouldAppear = true → x ∈ lefts c)
    (hf1 : FeasibleCorr P B (c ++ e1)) (hf2 : FeasibleCorr P B (c ++ e2)) :
    produceGraph P B (c ++ e1) = produceGraph P B (c ++ e2) := by
  have hhid : ∀ e : List (Nat × Nat), FeasibleCorr P B (c ++ e) →
      ∀ p ∈ e, ¬ (P.nodeW p.1).shouldAppear = true := by
    intro e hf p hp hvis
    have hnd : (lefts (c ++ e)).Nodup := hf.1.nodup_iff.2 hwP.1
    rw [lefts_append, List.nodup_append] at hnd
    have hpP : p.1 ∈ P.nodes := hf.1.mem_iff.1
      (by rw [lefts_append]; exact List.mem_append.2 (Or.inr (mem_lefts_of_mem hp)))
    exact hnd.2.2 (hvm p.1 hpP hvis) (mem_lefts_of_mem hp)
  have hfilter : ∀ e : List (Nat × Nat), FeasibleCorr P B (c ++ e) →
      (c ++ e).filter (fun p => (P.nodeW p.1).shouldAppear) =
        c.filter (fun p => (P.nodeW p.1).shouldAppear) := by
    intro e hf
    have he : e.filter (fun p => (P.nodeW p.1).shouldAppear) = [] := by
      rw [List.filter_eq_nil_iff]
      intro p hp
      exact hhid e hf p hp
    rw [List.filter_append, he, List.append_nil]
  have hedges : produceEdges P B (c ++ e1) (c ++ e1) =
      produceEdges P B (c ++ e2) (c ++ e2) := by
    have hcongr : produceEdges P B (c ++ e1) c = produceEdges P B (c ++ e2) c := by
      refine produceEdges_congr c ?_
      intro nm hnm p hp
      obtain ⟨t, ht, -, -, htd, hvis⟩ := (mem_nSuccsVisible_iff hwP).1 hp
      have hwvis : (P.nodeW p.1).shouldAppear = true := by
        rw [← htd]
        exact (hpv t ht hvis).2
      have hwP2 : p.1 ∈ P.nodes := by
        rw [← htd]
        exact (hwP.2.2 t ht).2
      have hlc : p.1 ∈ lefts c := hvm p.1 hwP2 hwvis
      rw [alookup_append_left hlc, alookup_append_left hlc]
    have hnil1 : produceEdges P B (c ++ e1) e1 = some [] :=
      produceEdges_some_nil e1 (fun nm hnm =>
        nSuccsVisible_nil_of_hidden hwP hpv (hhid e1 hf1 nm hnm))
    have hnil2 : produceEdges P B (c ++ e2) e2 = some [] :=
      produceEdges_some_nil e2 (fun nm hnm =>
        nSuccsVisible_nil_of_hidden hwP hpv (hhid e2 hf2 nm hnm))
    rw [produceEdges_append c e1, produceEdges_append c e2, hcongr, hnil1, hnil2]
  have hno : (c ++ e1).filter (fun p => (P.nodeW p.1).shouldAppear) =
      (c ++ e2).filter (fun p => (P.nodeW p.1).shouldAppear) := by
    rw [hfilter e1 hf1, hfilter e2 hf2]
  rw [produceGraph, produceGraph, hno, hedges]

theorem fsLoop_bind {P : PGraph NW EW} {B : FGraph NW EW}
    (hwP : wfG P) (hwB : wfG B)
    (recur : VfSt → Option (VfSt × List MatchRes × Nat)) {depth : Nat}
    (hrecst : ∀ st1 out1, SInv P B (depth + 1) st1 → recur st1 = some out1 →
      out1.1 = st1)
    {n : Nat} (hnP : n ∈ P.nodes)
    (hvd : depth < nodesToTake P)
    {st : VfSt} (hInv : SInv P B depth st)
    (hn : ¬ containsL st.core n = true) :
    ∀ ms out,
      (∀ m ∈ ms, ¬ containsR st.core m = true ∧ m ∈ B.nodes) →
      fsLoop P B recur (nodesToTake P) depth n ms st = some out →
      out.2.1 = ms.flatMap (fun m =>
        match isValidMatching P B (assign P B st n m depth) n m,
            recur (assign P B st n m depth) with
        | some true, some o => o.2.1
        | _, _ => []) ∧
      (∀ m ∈ ms, isValidMatching P B (assign P B st n m depth) n m = some true →
        ∃ o, recur (assign P B st n m depth) = some o) := by
  intro ms
  induction ms with
  | nil =>
    intro out _ h
    rw [fsLoop] at h
    cases h
    refine ⟨rfl, ?_⟩
    intro m hm
    simp at hm
  | cons m ms ih =>
    intro out hms h
    have hm := hms m (List.mem_cons_self _ _)
    have hms' : ∀ x ∈ ms, ¬ containsR st.core x = true ∧ x ∈ B.nodes :=
      fun x hx => hms x (List.mem_cons_of_mem _ hx)
    have hnf : containsL st.core n = false := (Bool.not_eq_true _) ▸ hn
    have hmf : containsR st.core m = false := (Bool.not_eq_true _) ▸ hm.1
    have hres : unassign P B (assign P B st n m depth) n m depth = st :=
      assign_unassign_restore P B st n m depth hnf hmf
        (fun p hp => Nat.ne_of_lt (hInv.2.2.2.1.2 p hp))
        (fun p hp => Nat.ne_of_lt (hInv.2.2.2.2.1.2 p hp))
        (fun p hp => Nat.ne_of_lt (hInv.2.2.2.2.2.1.2 p hp))
        (fun p hp => Nat.ne_of_lt (hInv.2.2.2.2.2.2.1.2 p hp))
    have hst1core : (assign P B st n m depth).core = st.core ++ [(n, m)] :=
      assign_core hn hm.1
    have hnl : n ∉ lefts st.core := fun hh => hn (containsL_iff.2 hh)
    rw [fsLoop] at h
    rcases hv : isValidMatching P B (assign P B st n m depth) n m with _ | b
    · simp only [hv] at h
      exact Option.noConfusion h
    rcases b with _ | _
    · simp only [hv] at h
      rw [hres] at h
      obtain ⟨hb, he⟩ := ih out hms' h
      constructor
      · rw [List.flatMap_cons, hb]
        simp only [hv]
        rw [List.nil_append]
      · intro m2 hm2 htrue
        rcases List.mem_cons.1 hm2 with hm2e | hm2e
        · subst hm2e
          rw [hv] at htrue
          exact absurd (Option.some.inj htrue) (by simp)
        · exact he m2 hm2e htrue
    · simp only [hv] at h
      have hparts := isValidMatching_true_parts hv
      have hedges := edges_ok_of_checks hwP hwB hst1core hnl hInv.2.2.1
        hparts.2
      have hInv1 : SInv P B (depth + 1) (assign P B st n m depth) :=
        SInv_assign hInv hn hm.1 hnP hm.2 hparts.1 hedges
      rcases hr : recur (assign P B st n m depth) with _ | o
      · simp only [hr] at h
        exact Option.noConfusion h
      obtain ⟨st2, rs, next⟩ := o
      simp only [hr] at h
      rw [if_neg (show ¬(next = nodesToTake P ∧ next ≤ depth) from
        fun hc => absurd (hc.1 ▸ hc.2) (Nat.not_le.2 hvd))] at h
      have hst2 : st2 = assign P B st n m depth :=
        hrecst (assign P B st n m depth) (st2, rs, next) hInv1 hr
      rw [hst2, hres] at h
      rcases hloop : fsLoop P B recur (nodesToTake P) depth n ms st
        with _ | trip2
      · simp only [hloop] at h
        exact Option.noConfusion h
      obtain ⟨st3, rs2, r⟩ := trip2
      simp only [hloop] at h
      cases h
      obtain ⟨hb, he⟩ := ih (st3, rs2, r) hms' hloop
      constructor
      · show rs ++ rs2 = (m :: ms).flatMap _
        rw [List.flatMap_cons]
        simp only [hv, hr]
        have hb2 : rs2 = ms.flatMap (fun m2 =>
            match isValidMatching P B (assign P B st n m2 depth) n m2,
                recur (assign P B st n m2 depth) with
            | some true, some o => o.2.1
            | _, _ => []) := hb
        rw [hb2]
      · intro m2 hm2 htrue
        rcases List.mem_cons.1 hm2 with hm2e | hm2e
        · subst hm2e
          exact ⟨(st2, rs, next), hr⟩
        · exact he m2 hm2e htrue

theorem findSubgraphs_perm {P : PGraph NW EW} {B : FGraph NW EW}
    {ord1 ord2 : List Nat → List Nat} (hwP : wfG P) (hwB : wfG B)
    (hpv : patternValid P)
    (hord1 : ∀ l, (ord1 l).Perm l) (hord2 : ∀ l, (ord2 l).Perm l) :
    ∀ fuel1 fuel2 depth st out1 out2,
      SInv P B depth st → VisInv P depth st.core →
      findSubgraphs P B ord1 (nodesToTake P) fuel1 depth st = some out1 →
      findSubgraphs P B ord2 (nodesToTake P) fuel2 depth st = some out2 →
      out1.2.1.Perm out2.2.1 := by
  intro fuel1
  induction fuel1 with
  | zero =>
    intro fuel2 depth st out1 out2 _ _ h1 _
    rw [show findSubgraphs P B ord1 (nodesToTake P) 0 depth st = none from rfl]
      at h1
    exact Option.noConfusion h1
  | succ fuel1 ih =>
    intro fuel2 depth st out1 out2 hInv hVis h1 h2
    rcases fuel2 with _ | fuel2
    · rw [show findSubgraphs P B ord2 (nodesToTake P) 0 depth st = none from rfl]
        at h2
      exact Option.noConfusion h2
    by_cases hvd : depth < nodesToTake P
    · -- visible depth: both loops bind pointwise-agreeing batches over
      -- permuted candidate lists
      have hnc : nodesToTake P ≤ P.countNodes :=
        List.length_filter_le _ _
      have hdep : ¬ depth = P.countNodes := by omega
      rw [findSubgraphs] at h1 h2
      rw [if_neg hdep] at h1 h2
      rcases hsel1 : selectCandidates P B st (decide (nodesToTake P ≤ depth)) ord1
        with ⟨n0, cands1⟩
      rcases hsel2 : selectCandidates P B st (decide (nodesToTake P ≤ depth)) ord2
        with ⟨n02, cands2⟩
      have hcg := @selectCandidates_congr NW EW P B st
        (decide (nodesToTake P ≤ depth)) ord1 ord2 hord1 hord2
      have h1e := hcg.1
      have h2e := hcg.2
      rw [hsel1, hsel2] at h1e h2e
      have hfst : n0 = n02 := h1e
      have hpermc : cands1.Perm cands2 := h2e
      rcases n0 with _ | n
      · simp only [hsel1] at h1
        exact Option.noConfusion h1
      rw [← hfst] at hsel2
      simp only [hsel1] at h1
      simp only [hsel2] at h2
      obtain ⟨hunm, hnP, hvisn, hcnd1, hcands1, -⟩ :=
        selectCandidates_spec hwP hwB hord1 hInv hsel1
      obtain ⟨-, -, -, hcnd2, hcands2, -⟩ :=
        selectCandidates_spec hwP hwB hord2 hInv hsel2
      obtain ⟨hb1, he1⟩ := fsLoop_bind hwP hwB
        (findSubgraphs P B ord1 (nodesToTake P) fuel1 (depth + 1))
        (fun st1 o hi hh =>
          (findSubgraphs_concl hwP hwB hord1 fuel1 (depth + 1) st1 o hi hh).1)
        hnP hvd hInv hunm cands1 out1 hcands1 h1
      obtain ⟨hb2, he2⟩ := fsLoop_bind hwP hwB
        (findSubgraphs P B ord2 (nodesToTake P) fuel2 (depth + 1))
        (fun st1 o hi hh =>
          (findSubgraphs_concl hwP hwB hord2 fuel2 (depth + 1) st1 o hi hh).1)
        hnP hvd hInv hunm cands2 out2 hcands2 h2
      rw [hb1, hb2]
      refine List.Perm.trans (List.Perm.flatMap_left cands1 ?_)
        (List.Perm.flatMap_right _ hpermc)
      intro m hm
      rcases hv : isValidMatching P B (assign P B st n m depth) n m with _ | b
      · simp only [hv]
        exact List.Perm.refl _
      rcases b with _ | _
      · simp only [hv]
        exact List.Perm.refl _
      · obtain ⟨o1, ho1⟩ := he1 m hm hv
        obtain ⟨o2, ho2⟩ := he2 m (hpermc.mem_iff.1 hm) hv
        simp only [hv, ho1, ho2]
        have hm' := hcands1 m hm
        have hst1core : (assign P B st n m depth).core = st.core ++ [(n, m)] :=
          assign_core hunm hm'.1
        have hparts := isValidMatching_true_parts hv
        have hedges := edges_ok_of_checks hwP hwB hst1core
          (fun hh => hunm (containsL_iff.2 hh)) hInv.2.2.1 hparts.2
        have hInv1 : SInv P B (depth + 1) (assign P B st n m depth) :=
          SInv_assign hInv hunm hm'.1 hnP hm'.2 hparts.1 hedges
        have hVis1 : VisInv P (depth + 1) (assign P B st n m depth).core := by
          rw [hst1core]
          exact VisInv_step hVis hInv.1 hInv.2.1.1
            (fun p hp => (hInv.2.1.2.2 p hp).1)
            (fun hh => hunm (containsL_iff.2 hh)) hnP hvisn
        exact ih fuel2 (depth + 1) (assign P B st n m depth) o1 o2 hInv1 hVis1
          ho1 ho2
    · -- hidden depth (or full depth): both runs emit at most one result,
      -- and the one result is extension-independent
      have hle : nodesToTake P ≤ depth := Nat.le_of_not_lt hvd
      obtain ⟨-, b1, -, d1, -, -, g1⟩ :=
        findSubgraphs_concl hwP hwB hord1 (fuel1 + 1) depth st out1 hInv h1
      obtain ⟨-, b2, -, d2, -, -, g2⟩ :=
        findSubgraphs_concl hwP hwB hord2 (fuel2 + 1) depth st out2 hInv h2
      by_cases hfe : FeasibleExt P B st.core
      · have hne1 := g1 hfe
        have hne2 := g2 hfe
        obtain ⟨R1, hR1⟩ := List.length_eq_one.1
          (Nat.le_antisymm (d1 hle) (List.length_pos.2 hne1))
        obtain ⟨R2, hR2⟩ := List.length_eq_one.1
          (Nat.le_antisymm (d2 hle) (List.length_pos.2 hne2))
        obtain ⟨e1, hf1, hp1⟩ := b1 R1 (by rw [hR1]; exact List.mem_cons_self _ _)
        obtain ⟨e2, hf2, hp2⟩ := b2 R2 (by rw [hR2]; exact List.mem_cons_self _ _)
        have hind := produceGraph_ext_indep hwP hpv (hVis.2 hle) hf1 hf2
        rw [hind, hp2] at hp1
        rw [hR1, hR2, Option.some.inj hp1]
      · have h01 : out1.2.1 = [] := by
          rcases hemp : out1.2.1 with _ | ⟨R, l⟩
          · rfl
          · exfalso
            obtain ⟨ext, hf, -⟩ := b1 R (by rw [hemp]; exact List.mem_cons_self _ _)
            exact hfe ⟨ext, hf⟩
        have h02 : out2.2.1 = [] := by
          rcases hemp : out2.2.1 with _ | ⟨R, l⟩
          · rfl
          · exfalso
            obtain ⟨ext, hf, -⟩ := b2 R (by rw [hemp]; exact List.mem_cons_self _ _)
            exact hfe ⟨ext, hf⟩
        rw [h01, h02]

/-- C7 (amended): the iteration order of the internal `std` hash maps
is the only source of nondeterminism in `eval`: for a builder-valid
well-formed pattern graph over a well-formed base graph, two normally
returning runs of `eval` whose hash maps iterate their key sets in any
two orders (any two permutations of the key sets) return the same
matches, up to reordering of the result list. -/
theorem C7_eval_same_results_up_to_order {P : PGraph NW EW} {B : FGraph NW EW}
    {ord1 ord2 : List Nat → List Nat} (hwP : wfG P) (hwB : wfG B)
    (hpv : patternValid P)
    (hord1 : ∀ l, (ord1 l).Perm l) (hord2 : ∀ l, (ord2 l).Perm l)
    {rs1 rs2 : List MatchRes}
    (h1 : evalVf ord1 P B = some rs1) (h2 : evalVf ord2 P B = some rs2) :
    rs1.Perm rs2 := by
  rw [evalVf, runQuery] at h1 h2
  by_cases hearly : (P.isEmptyGraph || decide (B.countNodes < P.countNodes) ||
      decide (B.countEdges < P.countEdges)) = true
  · rw [if_pos hearly] at h1 h2
    cases h1
    cases h2
    exact List.Perm.refl _
  · rw [if_neg hearly] at h1 h2
    rcases hfs1 : findSubgraphs P B ord1 (nodesToTake P) (P.countNodes + 1) 0
        initSt with _ | trip1
    · simp only [hfs1] at h1
      exact Option.noConfusion h1
    obtain ⟨stf1, rs01, nf1⟩ := trip1
    simp only [hfs1] at h1
    cases h1
    rcases hfs2 : findSubgraphs P B ord2 (nodesToTake P) (P.countNodes + 1) 0
        initSt with _ | trip2
    · simp only [hfs2] at h2
      exact Option.noConfusion h2
    obtain ⟨stf2, rs02, nf2⟩ := trip2
    simp only [hfs2] at h2
    cases h2
    exact findSubgraphs_perm hwP hwB hpv hord1 hord2 (P.countNodes + 1)
      (P.countNodes + 1) 0 initSt _ _ SInv_init VisInv_init hfs1 hfs2

/-- Witness for the amended C7 at the one-edge pattern `P7` over the
complete directed triangle `B7`, with the identity and the reversed
iteration orders: the two runs return the same six matches in different
list orders. -/
theorem C7_eval_same_results_up_to_order_witness :
    List.Perm
      [(⟨[(0, 0), (1, 1)], [(0, 0)]⟩ : MatchRes),
       ⟨[(0, 0), (1, 2)], [(0, 1)]⟩, ⟨[(0, 1), (1, 0)], [(0, 2)]⟩,
       ⟨[(0, 1), (1, 2)], [(0, 3)]⟩, ⟨[(0, 2), (1, 0)], [(0, 4)]⟩,
       ⟨[(0, 2), (1, 1)], [(0, 5)]⟩]
      [(⟨[(0, 0), (1, 2)], [(0, 1)]⟩ : MatchRes),
       ⟨[(0, 0), (1, 1)], [(0, 0)]⟩, ⟨[(0, 1), (1, 2)], [(0, 3)]⟩,
       ⟨[(0, 1), (1, 0)], [(0, 2)]⟩, ⟨[(0, 2), (1, 1)], [(0, 5)]⟩,
       ⟨[(0, 2), (1, 0)], [(0, 4)]⟩] :=
  C7_eval_same_results_up_to_order (by unfold wfG; decide)
    (by unfold wfG; decide) (by unfold patternValid; decide)
    (fun l => List.Perm.refl l) (fun l => List.reverse_perm l)
    (show evalVf id P7 B7 = some
      [(⟨[(0, 0), (1, 1)], [(0, 0)]⟩ : MatchRes),
       ⟨[(0, 0), (1, 2)], [(0, 1)]⟩, ⟨[(0, 1), (1, 0)], [(0, 2)]⟩,
       ⟨[(0, 1), (1, 2)], [(0, 3)]⟩, ⟨[(0, 2), (1, 0)], [(0, 4)]⟩,
       ⟨[(0, 2), (1, 1)], [(0, 5)]⟩] from by decide)
    (show evalVf List.reverse P7 B7 = some
      [(⟨[(0, 0), (1, 2)], [(0, 1)]⟩ : MatchRes),
       ⟨[(0, 0), (1, 1)], [(0, 0)]⟩, ⟨[(0, 1), (1, 2)], [(0, 3)]⟩,
       ⟨[(0, 1), (1, 0)], [(0, 2)]⟩, ⟨[(0, 2), (1, 1)], [(0, 5)]⟩,
       ⟨[(0, 2), (1, 0)], [(0, 4)]⟩] from by decide)
